import Mathlib

/-!
# libsmf: the Standard MIDI File decoder of `src/smf.c`

A shallow embedding of the chunk reader, the header decoder, the event decoder and the
track decoder of `smf.c`, and theorems about them.

Conventions of the embedding.

* The file buffer (`smf->buffer`, filled by `load_file_into_buffer`) is a `List Nat` of
  bytes. A pointer into it is its offset from `smf->buffer`, an `Int`.
* Reading a byte at an offset outside `0 .. length - 1` is undefined behaviour in C. The
  embedding makes it observable: such a read stops the run with
  `Fault.out_of_bounds offset`. Dereferencing `NULL` stops it with `Fault.null_dereference`.
* `smf.h` is not among the sources. The integer type of the fields of `smf_t`,
  `smf_track_t` and `smf_event_t` is therefore a parameter `ty : CIntTy` of every function
  that stores into a field; `c_int` is the 32-bit `int` that `smf.c` uses for all its
  integer locals. The locals declared `int` in `smf.c` are converted with `c_int`.
* The `fprintf` diagnostics have no effect on the decoding and are left out.
-/

namespace Smf

/-! ## Machine integers -/

/-- An integer type of C: its width in bits and its signedness. -/
structure CIntTy where
  bits : Nat
  signed : Bool
deriving DecidableEq

/-- The type `int`: 32 bits, signed. -/
def c_int : CIntTy := ⟨32, true⟩

/-- Conversion of a mathematical integer to an integer type: reduction modulo `2 ^ bits`,
read as two's complement when the type is signed. -/
def CIntTy.conv (ty : CIntTy) (v : Int) : Int :=
  let m := v % (2 : Int) ^ ty.bits
  if ty.signed && decide ((2 : Int) ^ (ty.bits - 1) ≤ m) then m - (2 : Int) ^ ty.bits else m

/-- The value of a byte read through a `signed char *`. -/
def signed_char (b : Nat) : Int :=
  if b % 256 < 128 then ((b % 256 : Nat) : Int) else ((b % 256 : Nat) : Int) - 256

/-! ## Runs that may hit undefined behaviour -/

/-- The ways a run of the decoder leaves defined behaviour. `out_of_fuel` is the
exhaustion of the iteration bound of a modelled loop. -/
inductive Fault where
  | out_of_bounds (offset : Int)
  | null_dereference
  | out_of_fuel
deriving DecidableEq

/-- The outcome of running a piece of the decoder: a value, or a fault. -/
inductive Run (α : Type) where
  | ok (a : α)
  | fault (f : Fault)
deriving DecidableEq

/-- Sequencing of runs: a fault ends the run. -/
def Run.bind {α β : Type} (x : Run α) (f : α → Run β) : Run β :=
  match x with
  | .ok a => f a
  | .fault e => .fault e

instance : Monad Run where
  pure := Run.ok
  bind := Run.bind

/-- The byte at offset `i` of the buffer `mem` (`*(buffer + i)`). -/
def rd (mem : List Nat) (i : Int) : Run Nat :=
  if i < 0 then .fault (.out_of_bounds i)
  else
    match mem[i.toNat]? with
    | some b => .ok b
    | none => .fault (.out_of_bounds i)

/-- The value of `ntohl` on the 32-bit word at offset `i`: big-endian. -/
def rd_be32 (mem : List Nat) (i : Int) : Run Nat := do
  let b0 ← rd mem i
  let b1 ← rd mem (i + 1)
  let b2 ← rd mem (i + 2)
  let b3 ← rd mem (i + 3)
  pure (((b0 * 256 + b1) * 256 + b2) * 256 + b3)

/-- The value of `ntohs` on the 16-bit word at offset `i`: big-endian. -/
def rd_be16 (mem : List Nat) (i : Int) : Run Nat := do
  let b0 ← rd mem i
  let b1 ← rd mem (i + 1)
  pure (b0 * 256 + b1)

/-! ## Data model (`smf.h`, as used by `smf.c`) -/

/-- The decoder state `smf_t`. `stream` is left out: only `load_file_into_buffer` and
`smf_close` use it. -/
structure smf_t where
  buffer : List Nat
  buffer_length : Int
  next_chunk_offset : Int
  format : Int
  number_of_tracks : Int
  ppqn : Int
  frames_per_second : Int
  resolution : Int
deriving DecidableEq

/-- The per-track state `smf_track_t`. `buffer` is the pointer to the chunk header, as an
offset into the file buffer; the back pointer `smf` is passed as an argument instead. -/
structure smf_track_t where
  buffer : Int
  buffer_length : Int
  next_event_offset : Int
  last_status : Int
deriving DecidableEq

/-- An event `smf_event_t`. `midi_buffer` holds the bytes stored so far, index 0 first;
the C array is zeroed by `smf_event_new`, so every index not stored reads 0. -/
structure smf_event_t where
  time : Int
  midi_buffer : List Nat
deriving DecidableEq

/-- The state `smf_new` returns, holding the loaded file: all fields zero
(`memset`), then `buffer` and `buffer_length` as `load_file_into_buffer` sets them. -/
def smf_new (ty : CIntTy) (buf : List Nat) : smf_t :=
  { buffer := buf, buffer_length := ty.conv buf.length, next_chunk_offset := 0,
    format := 0, number_of_tracks := 0, ppqn := 0, frames_per_second := 0, resolution := 0 }

/-- The state `smf_track_new` returns: all fields zero. -/
def smf_track_new : smf_track_t :=
  { buffer := 0, buffer_length := 0, next_event_offset := 0, last_status := 0 }

/-- The event `smf_event_new` returns: all fields zero, nothing stored. -/
def smf_event_new : smf_event_t :=
  { time := 0, midi_buffer := [] }

/-! ## Chunks and the header -/

/-- The function `next_chunk`: reads the length of the chunk at the cursor, advances the
cursor by `8 + length`, and returns the chunk pointer, or `NULL` (`none`) when the new
cursor is past the buffer length. The sum is formed in `size_t` and stored into the field,
which reduces it to the field type. -/
def next_chunk (ty : CIntTy) (smf : smf_t) : Run (Option Int × smf_t) := do
  let chunk := smf.next_chunk_offset
  let length ← rd_be32 smf.buffer (chunk + 4)
  let smf := { smf with next_chunk_offset := ty.conv (smf.next_chunk_offset + (8 + (length : Int))) }
  if smf.next_chunk_offset > smf.buffer_length then
    pure (none, smf)
  else
    pure (some chunk, smf)

/-- The function `signature_matches`: compares the four tag bytes of the chunk with the
signature, left to right, stopping at the first difference. -/
def signature_matches (mem : List Nat) (chunk : Int) (signature : List Nat) : Run Int := do
  let id0 ← rd mem chunk
  if id0 ≠ signature.getD 0 0 then pure 0 else
  let id1 ← rd mem (chunk + 1)
  if id1 ≠ signature.getD 1 0 then pure 0 else
  let id2 ← rd mem (chunk + 2)
  if id2 ≠ signature.getD 2 0 then pure 0 else
  let id3 ← rd mem (chunk + 3)
  if id3 ≠ signature.getD 3 0 then pure 0 else
  pure 1

/-- The bytes of the string "MThd". -/
def sig_MThd : List Nat := [0x4D, 0x54, 0x68, 0x64]

/-- The bytes of the string "MTrk". -/
def sig_MTrk : List Nat := [0x4D, 0x54, 0x72, 0x6B]

/-- The function `parse_mthd_header`: 1 for a truncated file, 2 for a wrong signature,
3 for a length other than 6, 0 otherwise. -/
def parse_mthd_header (ty : CIntTy) (smf : smf_t) : Run (Int × smf_t) := do
  let (mthd, smf) ← next_chunk ty smf
  match mthd with
  | none => pure (1, smf)
  | some mthd =>
    let m ← signature_matches smf.buffer mthd sig_MThd
    if m = 0 then pure (2, smf) else
    let length ← rd_be32 smf.buffer (mthd + 4)
    let len := c_int.conv (length : Int)
    if len ≠ 6 then pure (3, smf) else
    pure (0, smf)

/-- The function `parse_mthd_chunk`: decodes the header through the pointer
`smf->buffer`; the division's first byte, read as a signed char, selects PPQN or SMPTE
timing. -/
def parse_mthd_chunk (ty : CIntTy) (smf : smf_t) : Run (Int × smf_t) := do
  let (r, smf) ← parse_mthd_header ty smf
  if r ≠ 0 then pure (1, smf) else
  let format ← rd_be16 smf.buffer 8
  let smf := { smf with format := ty.conv format }
  let number_of_tracks ← rd_be16 smf.buffer 10
  let smf := { smf with number_of_tracks := ty.conv number_of_tracks }
  let d0 ← rd smf.buffer 12
  let first_byte_of_division := signed_char d0
  let d1 ← rd smf.buffer 13
  let second_byte_of_division := signed_char d1
  if first_byte_of_division ≥ 0 then
    let division ← rd_be16 smf.buffer 12
    pure (0, { smf with ppqn := ty.conv division, frames_per_second := ty.conv 0,
                        resolution := ty.conv 0 })
  else
    pure (0, { smf with ppqn := ty.conv 0,
                        frames_per_second := ty.conv (- first_byte_of_division),
                        resolution := ty.conv second_byte_of_division })

/-- The test that guards the warning of `print_mthd` about the number of tracks. -/
def print_mthd_warns (smf : smf_t) : Bool :=
  smf.format == 0 && smf.number_of_tracks != 0

/-! ## Events -/

/-- The loop that extracts the time: each byte contributes its low 7 bits, and the loop
goes on to the next byte while the top bit is set. Returns the time and the pointer `c`,
which is left on the last byte of the time. `time` is an `int`. -/
def time_loop (mem : List Nat) : Nat → Int → Int → Run (Int × Int)
  | 0, _, _ => .fault .out_of_fuel
  | fuel + 1, c, time => do
    let b ← rd mem c
    let time := c_int.conv (time * 128 + ((b &&& 0x7F : Nat) : Int))
    if b &&& 0x80 ≠ 0 then
      time_loop mem fuel (c + 1) time
    else
      pure (time, c)

/-- The assignment `event->midi_buffer[i] = b` on the zeroed array. -/
def store (event : smf_event_t) (i : Nat) (b : Nat) : smf_event_t :=
  if i < event.midi_buffer.length then
    { event with midi_buffer := event.midi_buffer.set i b }
  else
    { event with midi_buffer :=
        event.midi_buffer ++ List.replicate (i - event.midi_buffer.length) 0 ++ [b] }

/-- The copy loop of a meta event, `for (i = 1; i < len; i++, c++)`: stores `*c` at
index `i` unless `i >= 1024`. The counter `i` stays below `len`, at most 258, and is a
`Nat`. -/
def meta_loop (mem : List Nat) (len : Int) :
    Nat → Nat → Int → smf_event_t → Run (Int × smf_event_t)
  | 0, _, _, _ => .fault .out_of_fuel
  | fuel + 1, i, c, event =>
    if (i : Int) < len then
      if i ≥ 1024 then
        meta_loop mem len fuel (i + 1) (c + 1) event
      else do
        let b ← rd mem c
        meta_loop mem len fuel (i + 1) (c + 1) (store event i b)
    else
      pure (c, event)

/-- The copy loop of any other event, `for (i = 1; (*(c + 1) & 0x80) == 0; i++, c++)`:
goes on while the byte after `c` has its top bit clear, and stores `*c` at index `i`
unless `i >= 1024`. The counter `i` counts bytes of the buffer that the loop has passed;
it is a `Nat`, without reduction to int. -/
def data_loop (mem : List Nat) : Nat → Nat → Int → smf_event_t → Run (Int × smf_event_t)
  | 0, _, _, _ => .fault .out_of_fuel
  | fuel + 1, i, c, event => do
    let next ← rd mem (c + 1)
    if next &&& 0x80 = 0 then
      if i ≥ 1024 then
        data_loop mem fuel (i + 1) (c + 1) event
      else do
        let b ← rd mem c
        data_loop mem fuel (i + 1) (c + 1) (store event i b)
    else
      pure (c, event)

/-- The second half of `parse_next_event`, from the test of the status on: `NULL`
(`none`) when the status has its top bit clear; else the status is stored at index 0, the
body is copied by the meta loop (status 0xFF, `len` being the byte after the type byte
plus 3) or by the data loop, and the track cursor advances by `c - start`. `track`,
`status` and `c` are as the first half leaves them. -/
def parse_event_body (ty : CIntTy) (mem : List Nat) (track : smf_track_t)
    (event : smf_event_t) (start : Int) (status : Int) (c : Int) :
    Run (Option smf_event_t × smf_track_t) :=
  if Int.land status 0x80 = 0 then
    pure (none, track)
  else
    let event := store event 0 (status % 256).toNat
    if status = 0xFF then do
      let l ← rd mem (c + 1)
      let len : Int := (l : Int) + 3
      let (c, event) ← meta_loop mem len len.toNat 1 c event
      pure (some event,
        { track with next_event_offset := ty.conv (track.next_event_offset + (c - start)) })
    else do
      let (c, event) ← data_loop mem (mem.length + 1) 1 c event
      pure (some event,
        { track with next_event_offset := ty.conv (track.next_event_offset + (c - start)) })

/-- The function `parse_next_event`: the event at the track cursor, or `NULL` (`none`)
when the status has its top bit clear. The first half extracts the time and determines
the status: the byte after the time when its top bit is set (it becomes the track's
`last_status` and is skipped), else the track's `last_status`. `mem` is the file buffer
the track points into. Every loop visits a new byte of the buffer in each iteration, so
`mem.length + 1` iterations bound the time loop and the data loop; the meta loop runs
fewer than `len` times. -/
def parse_next_event (ty : CIntTy) (mem : List Nat) (track : smf_track_t) :
    Run (Option smf_event_t × smf_track_t) := do
  let event := smf_event_new
  let start := track.buffer + track.next_event_offset
  let (time, c) ← time_loop mem (mem.length + 1) start 0
  let event := { event with time := ty.conv time }
  let c := c + 1
  let b ← rd mem c
  if b &&& 0x80 ≠ 0 then
    parse_event_body ty mem { track with last_status := ty.conv b } event start b (c + 1)
  else
    parse_event_body ty mem track event start (c_int.conv track.last_status) c

/-! ## Tracks and the whole file -/

/-- The function `parse_mtrk_header`: 1 for a truncated file, 2 for a chunk that is not
tagged "MTrk", else 0 with the track pointing at the chunk and its cursor after the chunk
header. -/
def parse_mtrk_header (ty : CIntTy) (smf : smf_t) (track : smf_track_t) :
    Run (Int × smf_t × smf_track_t) := do
  let (mtrk, smf) ← next_chunk ty smf
  match mtrk with
  | none => pure (1, smf, track)
  | some mtrk =>
    let m ← signature_matches smf.buffer mtrk sig_MTrk
    if m = 0 then pure (2, smf, track) else
    let length ← rd_be32 smf.buffer (mtrk + 4)
    pure (0, smf, { track with buffer := mtrk,
                               buffer_length := ty.conv (8 + (length : Int)),
                               next_event_offset := ty.conv 8 })

/-- The function `is_end_of_track` on an event that exists. -/
def is_end_of_track (event : smf_event_t) : Int :=
  if event.midi_buffer.getD 0 0 = 0xFF ∧ event.midi_buffer.getD 1 0 = 0x2F then 1 else 0

/-- The event loop of `parse_mtrk_chunk`. The result lists the events that
`parse_next_event` returned, in order (the C code frees each one). `is_end_of_track` is
called on the event before the test `event == NULL`, so a `NULL` event is dereferenced
and the `return 2` after it is never reached. -/
def parse_mtrk_loop (ty : CIntTy) (mem : List Nat) :
    Nat → smf_track_t → List smf_event_t → Run (Int × smf_track_t × List smf_event_t)
  | 0, _, _ => .fault .out_of_fuel
  | fuel + 1, track, events => do
    let (event, track) ← parse_next_event ty mem track
    match event with
    | none => .fault .null_dereference
    | some e =>
      if is_end_of_track e ≠ 0 then
        pure (0, track, events ++ [e])
      else
        parse_mtrk_loop ty mem fuel track (events ++ [e])

/-- The function `parse_mtrk_chunk`: 1 when the track header fails, else the outcome of
the event loop. Every event advances the cursor by at least one byte of the buffer, which
bounds the loop by the buffer's length. -/
def parse_mtrk_chunk (ty : CIntTy) (smf : smf_t) (track : smf_track_t) :
    Run (Int × smf_t × smf_track_t × List smf_event_t) := do
  let (r, smf, track) ← parse_mtrk_header ty smf track
  if r ≠ 0 then pure (1, smf, track, []) else
  let (r, track, events) ← parse_mtrk_loop ty smf.buffer (smf.buffer.length + 1) track []
  pure (r, smf, track, events)

/-- The track loop of `smf_open`, `for (i = 0; i < smf->number_of_tracks; i++)`: `none`
(`NULL`) as soon as a track fails. The result lists, for each track, its final state and
its events. -/
def smf_open_loop (ty : CIntTy) :
    Nat → Int → smf_t → List (smf_track_t × List smf_event_t) →
      Run (Option (smf_t × List (smf_track_t × List smf_event_t)))
  | 0, _, _, _ => .fault .out_of_fuel
  | fuel + 1, i, smf, tracks =>
    if i < smf.number_of_tracks then do
      let (r, smf, track, events) ← parse_mtrk_chunk ty smf smf_track_new
      if r ≠ 0 then pure none else
      smf_open_loop ty fuel (i + 1) smf (tracks ++ [(track, events)])
    else
      pure (some (smf, tracks))

/-- The function `smf_open` on a file whose bytes are `buf`, once
`load_file_into_buffer` has succeeded. `print_mthd` only prints. -/
def smf_open (ty : CIntTy) (buf : List Nat) :
    Run (Option (smf_t × List (smf_track_t × List smf_event_t))) := do
  let smf := smf_new ty buf
  let (r, smf) ← parse_mthd_chunk ty smf
  if r ≠ 0 then pure none else
  smf_open_loop ty (smf.number_of_tracks.toNat + 1) 0 smf []

/-! ## Notions used to state the theorems -/

/-- The bytes `bs` lie in the buffer `mem` from offset `c` on. -/
def bytes_at (mem : List Nat) (c : Int) (bs : List Nat) : Prop :=
  0 ≤ c ∧ (mem.drop c.toNat).take bs.length = bs

instance (mem : List Nat) (c : Int) (bs : List Nat) : Decidable (bytes_at mem c bs) := by
  unfold bytes_at
  infer_instance

/-- The value the time loop accumulates over the bytes `bs`, starting from `time`. -/
def vlq_fold (time : Int) (bs : List Nat) : Int :=
  bs.foldl (fun t b => c_int.conv (t * 128 + ((b &&& 0x7F : Nat) : Int))) time

/-- The value of a VLQ byte sequence: 7 bits per byte, most significant group first. -/
def vlq_value (bs : List Nat) : Nat :=
  bs.foldl (fun v b => v * 128 + b % 128) 0

/-- The canonical VLQ encoding of `n`: its base-128 digits, most significant first, with
the top bit set on every byte but the last. -/
def vlq_encode (n : Nat) : List Nat :=
  (Nat.digits 128 (n / 128)).reverse.map (fun d => 0x80 + d) ++ [n % 128]

/-! ## Fixtures -/

/-- The file header with the given format, one track and the given division bytes. -/
def mthd_bytes (f d0 d1 : Nat) : List Nat :=
  [0x4D, 0x54, 0x68, 0x64, 0, 0, 0, 6, f / 256, f % 256, 0, 1, d0, d1]

/-- The track chunk with the given body (shorter than 256 bytes). -/
def mtrk_bytes (body : List Nat) : List Nat :=
  [0x4D, 0x54, 0x72, 0x6B, 0, 0, 0, body.length] ++ body

/-- The minimal well-formed file: a header with format `f`, one track and PPQN `p`,
and one track chunk that holds the single event 00 FF 2F 00. -/
def minimal_file (f p : Nat) : List Nat :=
  mthd_bytes f (p / 256) (p % 256) ++ mtrk_bytes [0, 0xFF, 0x2F, 0]

/-- A track chunk at offset 0 holding one meta event of type 1 whose length field is the
two bytes `l0 l1` and whose data are `n` bytes 0x41, then the end-of-track event. -/
def long_meta_track (l0 l1 n : Nat) : List Nat :=
  mtrk_bytes ([0, 0xFF, 0x01, l0, l1] ++ List.replicate n 0x41 ++ [0, 0xFF, 0x2F, 0])

/-- The four bytes of the big-endian 32-bit word `n`. -/
def be32 (n : Nat) : List Nat :=
  [n / 16777216 % 256, n / 65536 % 256, n / 256 % 256, n % 256]

/-- The track chunk with the given body: the tag "MTrk", the length of the body as a
big-endian 32-bit word, and the body. -/
def mtrk_chunk (body : List Nat) : List Nat :=
  sig_MTrk ++ be32 body.length ++ body

/-- A track body that starts with one note-on event with `n` data bytes 0x40 and ends
with the end-of-track event. -/
def long_data_body (n : Nat) : List Nat :=
  [0, 0x90] ++ List.replicate n 0x40 ++ [0, 0xFF, 0x2F, 0]

/-- One event of a simple track body: one delta-time byte, one explicit status byte and
data bytes. -/
structure simple_event where
  delta : Nat
  status : Nat
  data : List Nat
deriving DecidableEq

/-- The bytes of a simple event in the track body. -/
def simple_event.bytes (e : simple_event) : List Nat :=
  e.delta :: e.status :: e.data

/-- The event that a simple event stands for: its delta-time, and its status byte followed
by its data bytes. -/
def simple_event.decoded (e : simple_event) : smf_event_t :=
  { time := e.delta, midi_buffer := e.status :: e.data }

/-- The conditions on a simple event: a delta-time byte below 0x80, a status byte in
0x80..0xFE, data bytes below 0x80, at most `cap` of them. -/
def simple_event.wf (cap : Nat) (e : simple_event) : Prop :=
  e.delta < 0x80 ∧ 0x80 ≤ e.status ∧ e.status ≤ 0xFE ∧ (∀ x ∈ e.data, x < 0x80) ∧
    e.data.length ≤ cap

instance (cap : Nat) (e : simple_event) : Decidable (e.wf cap) := by
  unfold simple_event.wf
  infer_instance

/-- The track body made of the given simple events followed by the end-of-track event
`t FF 2F 00`. -/
def simple_body : List simple_event → Nat → List Nat
  | [], t => [t, 0xFF, 0x2F, 0]
  | e :: evs, t => e.bytes ++ simple_body evs t

/-- The end-of-track event with delta-time `t`, as decoded. -/
def eot_event (t : Nat) : smf_event_t :=
  { time := t, midi_buffer := [0xFF, 0x2F, 0] }

/-- The decoder state `smf` over the longer buffer `smf.buffer ++ x`: the buffer and its
length grow by `x`, every other field is the same. -/
def smf_t.extended (smf : smf_t) (x : List Nat) : smf_t :=
  { smf with buffer := smf.buffer ++ x, buffer_length := smf.buffer_length + (x.length : Int) }

/-- The successive calls of `parse_next_event` from the track state `track`: `steps` lists,
call by call, the event returned and the track state the call leaves. -/
def event_chain (ty : CIntTy) (mem : List Nat) :
    smf_track_t → List (smf_event_t × smf_track_t) → Prop
  | _, [] => True
  | track, (e, track') :: rest =>
    parse_next_event ty mem track = Run.ok (some e, track') ∧ event_chain ty mem track' rest

/-- Whether `steps` are the successive calls of `parse_next_event` is decided by running
them. -/
def event_chain_dec (ty : CIntTy) (mem : List Nat) :
    ∀ (track : smf_track_t) (steps : List (smf_event_t × smf_track_t)),
      Decidable (event_chain ty mem track steps)
  | _, [] => isTrue trivial
  | track, (e, track') :: rest =>
    match (inferInstance : Decidable (parse_next_event ty mem track = Run.ok (some e, track'))),
        event_chain_dec ty mem track' rest with
    | isTrue h1, isTrue h2 => isTrue ⟨h1, h2⟩
    | isFalse h1, _ => isFalse (fun h => h1 h.1)
    | _, isFalse h2 => isFalse (fun h => h2 h.2)

instance (ty : CIntTy) (mem : List Nat) (track : smf_track_t)
    (steps : List (smf_event_t × smf_track_t)) : Decidable (event_chain ty mem track steps) :=
  event_chain_dec ty mem track steps

/-! ## Basic facts about runs, conversions and reads -/

@[simp] theorem Run.pure_eq {α : Type} (a : α) : (pure a : Run α) = Run.ok a := rfl
@[simp] theorem Run.ok_bind {α β : Type} (a : α) (f : α → Run β) : (Run.ok a >>= f) = f a := rfl
@[simp] theorem Run.fault_bind {α β : Type} (e : Fault) (f : α → Run β) :
    (Run.fault e >>= f) = Run.fault e := rfl

theorem Run.bind_eq_ok {α β : Type} (x : Run α) (f : α → Run β) (b : β) :
    (x >>= f) = Run.ok b ↔ ∃ a, x = Run.ok a ∧ f a = Run.ok b := by
  cases x with
  | ok a => simp
  | fault e => simp

theorem conv_of_lt (ty : CIntTy) (hty : 32 ≤ ty.bits) (v : Int) (h0 : 0 ≤ v)
    (h1 : v < 2147483648) : ty.conv v = v := by
  have hp : (2 : Int) ^ 31 ≤ (2 : Int) ^ (ty.bits - 1) :=
    pow_le_pow_right₀ (by norm_num) (by omega)
  have hq : (2 : Int) ^ (ty.bits - 1) ≤ (2 : Int) ^ ty.bits :=
    pow_le_pow_right₀ (by norm_num) (by omega)
  have h31 : (2 : Int) ^ 31 = 2147483648 := by norm_num
  have hmod : v % (2 : Int) ^ ty.bits = v := Int.emod_eq_of_lt h0 (by omega)
  unfold CIntTy.conv
  simp only [hmod]
  have : ¬ ((2 : Int) ^ (ty.bits - 1) ≤ v) := by omega
  simp [this]

theorem rd_eq_ok_iff (mem : List Nat) (i : Int) (b : Nat) :
    rd mem i = Run.ok b ↔ 0 ≤ i ∧ mem[i.toNat]? = some b := by
  unfold rd
  by_cases hi : i < 0
  · simp [hi]
  · have h0 : 0 ≤ i := by omega
    simp only [hi, if_false, h0, true_and]
    cases h : mem[i.toNat]? with
    | none => simp
    | some x => simp

/-! ## The header -/

theorem next_chunk_buffer (ty : CIntTy) (smf s : smf_t) (p : Option Int)
    (h : next_chunk ty smf = Run.ok (p, s)) : s.buffer = smf.buffer := by
  unfold next_chunk at h
  rw [Run.bind_eq_ok] at h
  obtain ⟨L, -, h⟩ := h
  dsimp only at h
  split at h <;> simp at h <;> rw [← h.2]

theorem parse_mthd_header_buffer (ty : CIntTy) (smf s : smf_t) (r : Int)
    (h : parse_mthd_header ty smf = Run.ok (r, s)) : s.buffer = smf.buffer := by
  unfold parse_mthd_header at h
  rw [Run.bind_eq_ok] at h
  obtain ⟨⟨p, s1⟩, h1, h⟩ := h
  have hb := next_chunk_buffer ty smf s1 p h1
  cases p with
  | none => simp at h; rw [← h.2]; exact hb
  | some q =>
    simp only [Run.bind_eq_ok] at h
    obtain ⟨m, -, h⟩ := h
    split at h
    · simp at h; rw [← h.2]; exact hb
    · rw [Run.bind_eq_ok] at h
      obtain ⟨L, -, h⟩ := h
      split at h <;> simp at h <;> rw [← h.2] <;> exact hb

theorem signed_char_of_lt (b : Nat) (h : b < 128) : signed_char b = b := by
  unfold signed_char
  have : b % 256 = b := by omega
  simp [this, h]

theorem signed_char_of_ge (b : Nat) (h : 128 ≤ b) (h' : b < 256) : signed_char b = (b : Int) - 256 := by
  unfold signed_char
  have : b % 256 = b := by omega
  have h2 : ¬ b < 128 := by omega
  simp [this, h2]

/-- What `parse_mthd_chunk` stores for an accepted header, in terms of the bytes read. -/
theorem parse_mthd_chunk_accepts (ty : CIntTy) (smf smf' : smf_t)
    (h : parse_mthd_chunk ty smf = Run.ok (0, smf')) :
    ∃ f n d0 d1,
      rd_be16 smf.buffer 8 = Run.ok f ∧ rd_be16 smf.buffer 10 = Run.ok n ∧
      rd smf.buffer 12 = Run.ok d0 ∧ rd smf.buffer 13 = Run.ok d1 ∧
      smf'.format = ty.conv f ∧ smf'.number_of_tracks = ty.conv n ∧
      (signed_char d0 ≥ 0 →
        smf'.ppqn = ty.conv ((d0 * 256 + d1 : Nat) : Int) ∧
        smf'.frames_per_second = ty.conv 0 ∧ smf'.resolution = ty.conv 0) ∧
      (¬ signed_char d0 ≥ 0 →
        smf'.ppqn = ty.conv 0 ∧ smf'.frames_per_second = ty.conv (- signed_char d0) ∧
        smf'.resolution = ty.conv (signed_char d1)) := by
  unfold parse_mthd_chunk at h
  rw [Run.bind_eq_ok] at h
  obtain ⟨⟨r, s⟩, hh, h⟩ := h
  have hb := parse_mthd_header_buffer ty smf s r hh
  simp only at h
  split at h
  · simp at h
  · simp only [Run.bind_eq_ok] at h
    obtain ⟨f, hf, n, hn, d0, hd0, d1, hd1, h⟩ := h
    rw [hb] at hf hn hd0 hd1
    refine ⟨f, n, d0, d1, ?_⟩
    have e : (12 : Int) + 1 = 13 := by norm_num
    have hd : rd_be16 smf.buffer 12 = Run.ok (d0 * 256 + d1) := by
      simp [rd_be16, hd0, e, hd1]
    split at h
    · rw [hb, hd] at h
      simp at h
      subst h
      simp_all
    · simp at h
      subst h
      simp_all

/-- The PPQN branch of `parse_mthd_chunk`: for an accepted header whose first division
byte is non-negative as a signed char, ppqn is the big-endian value of the division and
the SMPTE fields are 0. -/
theorem parse_mthd_chunk_ppqn (ty : CIntTy) (hty : 32 ≤ ty.bits) (smf smf' : smf_t)
    (d0 d1 : Nat) (hacc : parse_mthd_chunk ty smf = Run.ok (0, smf'))
    (h0 : rd smf.buffer 12 = Run.ok d0) (h1 : rd smf.buffer 13 = Run.ok d1)
    (hd0 : d0 < 0x80) (hd1 : d1 < 256) :
    smf'.ppqn = 256 * (d0 : Int) + d1 ∧ smf'.frames_per_second = 0 ∧ smf'.resolution = 0 := by
  obtain ⟨f, n, e0, e1, -, -, he0, he1, -, -, hpos, -⟩ := parse_mthd_chunk_accepts ty smf smf' hacc
  rw [h0] at he0
  rw [h1] at he1
  injection he0 with he0
  injection he1 with he1
  subst he0 he1
  have hs : signed_char d0 ≥ 0 := by rw [signed_char_of_lt d0 hd0]; omega
  obtain ⟨hp, hf, hr⟩ := hpos hs
  rw [hp, hf, hr]
  refine ⟨?_, conv_of_lt ty hty 0 (by norm_num) (by norm_num),
    conv_of_lt ty hty 0 (by norm_num) (by norm_num)⟩
  rw [conv_of_lt ty hty _ (by omega) (by push_cast; omega)]
  push_cast
  ring

/-- The SMPTE branch of `parse_mthd_chunk`: for an accepted header whose first division
byte is negative as a signed char, ppqn is 0, frames_per_second is the negated first byte
and resolution is the second byte read as a signed char. -/
theorem parse_mthd_chunk_smpte (ty : CIntTy) (hty : 32 ≤ ty.bits) (smf smf' : smf_t)
    (d0 d1 : Nat) (hacc : parse_mthd_chunk ty smf = Run.ok (0, smf'))
    (h0 : rd smf.buffer 12 = Run.ok d0) (h1 : rd smf.buffer 13 = Run.ok d1)
    (hd0 : 0x80 ≤ d0) (hd0' : d0 < 256) :
    smf'.ppqn = 0 ∧ smf'.frames_per_second = 256 - (d0 : Int) ∧
    smf'.resolution = ty.conv (signed_char d1) := by
  obtain ⟨f, n, e0, e1, -, -, he0, he1, -, -, -, hneg⟩ := parse_mthd_chunk_accepts ty smf smf' hacc
  rw [h0] at he0
  rw [h1] at he1
  injection he0 with he0
  injection he1 with he1
  subst he0 he1
  have hs : ¬ signed_char d0 ≥ 0 := by rw [signed_char_of_ge d0 hd0 hd0']; omega
  obtain ⟨hp, hf, hr⟩ := hneg hs
  rw [hp, hf, hr, signed_char_of_ge d0 hd0 hd0']
  refine ⟨conv_of_lt ty hty 0 (by norm_num) (by norm_num), ?_, rfl⟩
  rw [conv_of_lt ty hty _ (by omega) (by omega)]
  ring

/-- C5: for every header that `parse_mthd_chunk` accepts and whose first division byte d0
is non-negative as a signed char (d0 < 0x80), ppqn is the unsigned big-endian value
256 * d0 + d1 of the division, and frames_per_second and resolution are 0. The field
type is any integer type at least as wide as int. -/
theorem C5_ppqn_from_division (ty : CIntTy) (hty : 32 ≤ ty.bits) (smf smf' : smf_t)
    (d0 d1 : Nat) (hacc : parse_mthd_chunk ty smf = Run.ok (0, smf'))
    (h0 : rd smf.buffer 12 = Run.ok d0) (h1 : rd smf.buffer 13 = Run.ok d1)
    (hd0 : d0 < 0x80) (hd1 : d1 < 256) :
    smf'.ppqn = 256 * (d0 : Int) + d1 ∧ smf'.frames_per_second = 0 ∧ smf'.resolution = 0 :=
  parse_mthd_chunk_ppqn ty hty smf smf' d0 d1 hacc h0 h1 hd0 hd1

/-- C5, at the division 0x4E20 of the specification: ppqn = 20000. -/
theorem C5_ppqn_from_division_witness :
    parse_mthd_chunk c_int (smf_new c_int (mthd_bytes 0 0x4E 0x20))
        = Run.ok (0, { buffer := mthd_bytes 0 0x4E 0x20, buffer_length := 14,
                       next_chunk_offset := 14, format := 0, number_of_tracks := 1,
                       ppqn := 20000, frames_per_second := 0, resolution := 0 }) ∧
    ((20000 : Int) = 256 * ((0x4E : Nat) : Int) + ((0x20 : Nat) : Int) ∧ (0 : Int) = 0 ∧ (0 : Int) = 0) :=
  ⟨by decide,
   C5_ppqn_from_division c_int (by decide) (smf_new c_int (mthd_bytes 0 0x4E 0x20))
     { buffer := mthd_bytes 0 0x4E 0x20, buffer_length := 14,
       next_chunk_offset := 14, format := 0, number_of_tracks := 1,
       ppqn := 20000, frames_per_second := 0, resolution := 0 } 0x4E 0x20
     (by decide) (by decide) (by decide) (by decide) (by decide)⟩

/-- C6: on the division 0xE780 (first byte negative, second byte 0x80) `parse_mthd_chunk`
accepts the header and stores resolution = -128, the second byte sign-extended, where the
claim requires the unsigned value 128; on the division 0xE728 of the specification it
stores frames_per_second = 25 and resolution = 40. -/
theorem C6_resolution_is_sign_extended :
    parse_mthd_chunk c_int (smf_new c_int (mthd_bytes 0 0xE7 0x80))
        = Run.ok (0, { buffer := mthd_bytes 0 0xE7 0x80, buffer_length := 14,
                       next_chunk_offset := 14, format := 0, number_of_tracks := 1,
                       ppqn := 0, frames_per_second := 25, resolution := -128 }) ∧
    parse_mthd_chunk c_int (smf_new c_int (mthd_bytes 0 0xE7 0x28))
        = Run.ok (0, { buffer := mthd_bytes 0 0xE7 0x28, buffer_length := 14,
                       next_chunk_offset := 14, format := 0, number_of_tracks := 1,
                       ppqn := 0, frames_per_second := 25, resolution := 40 }) := by
  constructor <;> decide

/-- C8, as stated, fails: the header whose division is 0x0000 is accepted, with neither
ppqn nor frames_per_second positive. -/
theorem C8_zero_division_accepted :
    ∃ s, parse_mthd_chunk c_int (smf_new c_int (mthd_bytes 0 0 0)) = Run.ok (0, s) ∧
      ¬ (0 < s.ppqn ∨ 0 < s.frames_per_second) :=
  ⟨{ buffer := mthd_bytes 0 0 0, buffer_length := 14, next_chunk_offset := 14, format := 0,
     number_of_tracks := 1, ppqn := 0, frames_per_second := 0, resolution := 0 },
   by decide, by decide⟩

/-- C8, amended: whenever `parse_mthd_chunk` accepts a header with division bytes d0, d1,
ppqn and frames_per_second are never both positive; exactly one of them is positive
unless both division bytes are zero; and for the division 0x0000 both are 0. The field
type is any integer type at least as wide as int. -/
theorem C8_timing_division (ty : CIntTy) (hty : 32 ≤ ty.bits) (smf smf' : smf_t)
    (d0 d1 : Nat) (hacc : parse_mthd_chunk ty smf = Run.ok (0, smf'))
    (h0 : rd smf.buffer 12 = Run.ok d0) (h1 : rd smf.buffer 13 = Run.ok d1)
    (hd0 : d0 < 256) (hd1 : d1 < 256) :
    ¬ (0 < smf'.ppqn ∧ 0 < smf'.frames_per_second) ∧
    (¬ (d0 = 0 ∧ d1 = 0) → (0 < smf'.ppqn ∨ 0 < smf'.frames_per_second)) ∧
    (d0 = 0 ∧ d1 = 0 → smf'.ppqn = 0 ∧ smf'.frames_per_second = 0) := by
  by_cases hs : d0 < 0x80
  · obtain ⟨hp, hf, -⟩ :=
      parse_mthd_chunk_ppqn ty hty smf smf' d0 d1 hacc h0 h1 hs hd1
    rw [hp, hf]
    refine ⟨by omega, by omega, by omega⟩
  · obtain ⟨hp, hf, -⟩ :=
      parse_mthd_chunk_smpte ty hty smf smf' d0 d1 hacc h0 h1 (by omega) hd0
    rw [hp, hf]
    refine ⟨by omega, by omega, by omega⟩

/-- C8, amended, at the header with division 0x0060: it is accepted with ppqn = 96 and
frames_per_second = 0, so exactly ppqn is positive. -/
theorem C8_timing_division_witness :
    parse_mthd_chunk c_int (smf_new c_int (mthd_bytes 0 0 96))
        = Run.ok (0, { buffer := mthd_bytes 0 0 96, buffer_length := 14,
                       next_chunk_offset := 14, format := 0, number_of_tracks := 1,
                       ppqn := 96, frames_per_second := 0, resolution := 0 }) ∧
    (¬ ((0 : Int) < 96 ∧ (0 : Int) < 0) ∧
     (¬ (0 = 0 ∧ 96 = 0) → ((0 : Int) < 96 ∨ (0 : Int) < 0)) ∧
     (0 = 0 ∧ 96 = 0 → (96 : Int) = 0 ∧ (0 : Int) = 0)) :=
  ⟨by decide,
   C8_timing_division c_int (by decide) (smf_new c_int (mthd_bytes 0 0 96))
     { buffer := mthd_bytes 0 0 96, buffer_length := 14, next_chunk_offset := 14, format := 0,
       number_of_tracks := 1, ppqn := 96, frames_per_second := 0, resolution := 0 } 0 96
     (by decide) (by decide) (by decide) (by decide) (by decide)⟩

theorem next_chunk_eq (ty : CIntTy) (smf : smf_t) (L : Nat)
    (h : rd_be32 smf.buffer (smf.next_chunk_offset + 4) = Run.ok L) :
    next_chunk ty smf =
      Run.ok (if ty.conv (smf.next_chunk_offset + (8 + (L : Int))) > smf.buffer_length
                then none else some smf.next_chunk_offset,
              { smf with next_chunk_offset := ty.conv (smf.next_chunk_offset + (8 + (L : Int))) }) := by
  unfold next_chunk
  dsimp only
  rw [h]
  simp only [Run.ok_bind]
  split <;> simp_all

/-- The result of `parse_mthd_chunk` on a buffer that starts with a whole header chunk
tagged "MThd" of length 6: the header is accepted and its fields are stored. -/
theorem parse_mthd_chunk_of_header (ty : CIntTy) (hty : 32 ≤ ty.bits)
    (f0 f1 n0 n1 d0 d1 : Nat) (rest : List Nat)
    (hb : f0 < 256 ∧ f1 < 256 ∧ n0 < 256 ∧ n1 < 256 ∧ d0 < 256 ∧ d1 < 256)
    (hlen : rest.length + 14 < 2147483648) :
    parse_mthd_chunk ty
        (smf_new ty (0x4D :: 0x54 :: 0x68 :: 0x64 :: 0 :: 0 :: 0 :: 6 ::
          f0 :: f1 :: n0 :: n1 :: d0 :: d1 :: rest))
      = Run.ok (0,
          { buffer := 0x4D :: 0x54 :: 0x68 :: 0x64 :: 0 :: 0 :: 0 :: 6 ::
              f0 :: f1 :: n0 :: n1 :: d0 :: d1 :: rest,
            buffer_length := (rest.length : Int) + 14,
            next_chunk_offset := 14,
            format := (f0 : Int) * 256 + f1,
            number_of_tracks := (n0 : Int) * 256 + n1,
            ppqn := if d0 < 128 then (d0 : Int) * 256 + d1 else 0,
            frames_per_second := if d0 < 128 then 0 else 256 - (d0 : Int),
            resolution := if d0 < 128 then 0 else ty.conv (signed_char d1) }) := by
  have c0 := conv_of_lt ty hty 0 (by norm_num) (by norm_num)
  have c14 := conv_of_lt ty hty 14 (by norm_num) (by norm_num)
  have cl := conv_of_lt ty hty ((rest.length : Int) + 14) (by omega) (by omega)
  have cf := conv_of_lt ty hty ((f0 : Int) * 256 + f1) (by omega) (by omega)
  have cn := conv_of_lt ty hty ((n0 : Int) * 256 + n1) (by omega) (by omega)
  have cd := conv_of_lt ty hty ((d0 : Int) * 256 + d1) (by omega) (by omega)
  have c6 : c_int.conv 6 = 6 := by decide
  have el : (rest.length : Int) + 1 + 1 + 1 + 1 + 1 + 1 + 1 + 1 + 1 + 1 + 1 + 1 + 1 + 1
      = (rest.length : Int) + 14 := by ring
  have hnl : ¬ ((rest.length : Int) < 0) := by omega
  by_cases hd : d0 < 128
  · have hs := signed_char_of_lt d0 hd
    simp [parse_mthd_chunk, parse_mthd_header, next_chunk, rd_be32, rd_be16, rd, smf_new,
      signature_matches, sig_MThd, c0, c14, c6, hs, hd, el, cl, cf, cn, cd, hnl]
  · have hs := signed_char_of_ge d0 (by omega) hb.2.2.2.2.1
    have cfps := conv_of_lt ty hty (256 - (d0 : Int)) (by omega) (by omega)
    have hneg : ¬ (0 : Int) ≤ (d0 : Int) - 256 := by omega
    have e : -((d0 : Int) - 256) = 256 - (d0 : Int) := by ring
    simp [parse_mthd_chunk, parse_mthd_header, next_chunk, rd_be32, rd_be16, rd, smf_new,
      signature_matches, sig_MThd, c0, c14, c6, hs, hd, el, cl, cf, cn, hneg, e, cfps, hnl]

/-! ## The chunk reader -/

/-- Without wrap-around `next_chunk` rejects every chunk that extends past the buffer: when
the cursor and `cursor + 8 + L` are below 2^31 and the field type is at least as wide as
int, the chunk is returned exactly when `cursor + 8 + L` is at most the buffer length. -/
theorem next_chunk_without_wrap (ty : CIntTy) (hty : 32 ≤ ty.bits) (smf : smf_t) (L : Nat)
    (h : rd_be32 smf.buffer (smf.next_chunk_offset + 4) = Run.ok L)
    (hc : 0 ≤ smf.next_chunk_offset) (hs : smf.next_chunk_offset + 8 + L < 2147483648) :
    next_chunk ty smf =
      Run.ok (if smf.next_chunk_offset + 8 + L > smf.buffer_length
                then none else some smf.next_chunk_offset,
              { smf with next_chunk_offset := smf.next_chunk_offset + 8 + L }) := by
  rw [next_chunk_eq ty smf L h, conv_of_lt ty hty _ (by omega) (by omega)]
  have e : smf.next_chunk_offset + (8 + (L : Int)) = smf.next_chunk_offset + 8 + L := by ring
  rw [e]

/-- C4: on the 8-byte buffer "MTrk" FF FF FF F8 the declared length is 2^32 - 8, far past
the buffer end, yet `next_chunk` returns the chunk: with a 32-bit int cursor the sum
0 + 8 + L wraps to 0. With the length bytes 7F FF FF F8 the sum wraps to -2^31 and the
chunk is returned as well. -/
theorem C4_next_chunk_accepts_on_wrap :
    next_chunk c_int (smf_new c_int [0x4D, 0x54, 0x72, 0x6B, 0xFF, 0xFF, 0xFF, 0xF8])
      = Run.ok (some 0, { smf_new c_int [0x4D, 0x54, 0x72, 0x6B, 0xFF, 0xFF, 0xFF, 0xF8] with
                          next_chunk_offset := 0 }) ∧
    next_chunk c_int (smf_new c_int [0x4D, 0x54, 0x72, 0x6B, 0x7F, 0xFF, 0xFF, 0xF8])
      = Run.ok (some 0, { smf_new c_int [0x4D, 0x54, 0x72, 0x6B, 0x7F, 0xFF, 0xFF, 0xF8] with
                          next_chunk_offset := -2147483648 }) := by
  constructor <;> decide

/-! ## Bytes in the buffer -/

theorem bytes_at_nil (mem : List Nat) (c : Int) : bytes_at mem c [] ↔ 0 ≤ c := by
  simp [bytes_at]

theorem bytes_at_cons (mem : List Nat) (c : Int) (b : Nat) (bs : List Nat) :
    bytes_at mem c (b :: bs) ↔ rd mem c = Run.ok b ∧ bytes_at mem (c + 1) bs := by
  unfold bytes_at
  rw [rd_eq_ok_iff]
  by_cases hc : 0 ≤ c
  · have e : (c + 1).toNat = c.toNat + 1 := by omega
    have h1 : 0 ≤ c + 1 := by omega
    simp only [hc, h1, true_and, e, List.length_cons]
    have hd : mem.drop (c.toNat + 1) = (mem.drop c.toNat).tail := by
      rw [List.tail_drop]
    have hg : mem[c.toNat]? = (mem.drop c.toNat)[0]? := by
      rw [List.getElem?_drop]
      simp
    rw [hd, hg]
    cases mem.drop c.toNat with
    | nil => simp
    | cons x xs => simp
  · constructor
    · intro h; exact absurd h.1 hc
    · intro h; exact absurd h.1.1 hc

theorem bytes_at_append (mem : List Nat) (xs ys : List Nat) (c : Int) :
    bytes_at mem c (xs ++ ys) ↔ bytes_at mem c xs ∧ bytes_at mem (c + xs.length) ys := by
  induction xs generalizing c with
  | nil =>
    simp only [List.nil_append, bytes_at_nil, List.length_nil, Nat.cast_zero, add_zero]
    constructor
    · intro h; exact ⟨h.1, h⟩
    · intro h; exact h.2
  | cons x xs ih =>
    simp only [List.cons_append, bytes_at_cons, ih, List.length_cons, Nat.cast_add, Nat.cast_one]
    have e : c + 1 + (xs.length : Int) = c + ((xs.length : Int) + 1) := by ring
    rw [e]
    tauto

theorem bytes_at_length (mem : List Nat) (c : Int) (bs : List Nat) (h : bytes_at mem c bs) :
    bs.length ≤ mem.length := by
  obtain ⟨hc, h⟩ := h
  have hl := congrArg List.length h
  simp only [List.length_take, List.length_drop] at hl
  omega

/-! ## The time loop -/

theorem vlq_fold_cons (t : Int) (b : Nat) (bs : List Nat) :
    vlq_fold t (b :: bs) = vlq_fold (c_int.conv (t * 128 + ((b &&& 0x7F : Nat) : Int))) bs := rfl

/-- The time loop on a terminated sequence: over bytes `cs` with the top bit set followed
by a byte `b` with the top bit clear, the loop accumulates all of them and leaves `c` on
`b`. -/
theorem time_loop_eq (mem : List Nat) (cs : List Nat) (b : Nat) (c : Int) (t : Int)
    (fuel : Nat) (hcs : ∀ x ∈ cs, x &&& 0x80 ≠ 0) (hb : b &&& 0x80 = 0)
    (hm : bytes_at mem c (cs ++ [b])) (hf : cs.length < fuel) :
    time_loop mem fuel c t = Run.ok (vlq_fold t (cs ++ [b]), c + cs.length) := by
  induction cs generalizing c t fuel with
  | nil =>
    obtain ⟨k, rfl⟩ : ∃ k, fuel = k + 1 := ⟨fuel - 1, by simp at hf; omega⟩
    simp only [List.nil_append, bytes_at_cons] at hm
    simp [time_loop, hm.1, hb, vlq_fold]
  | cons x xs ih =>
    obtain ⟨k, rfl⟩ : ∃ k, fuel = k + 1 := ⟨fuel - 1, by simp at hf; omega⟩
    simp only [List.cons_append, bytes_at_cons] at hm
    have hx : x &&& 0x80 ≠ 0 := hcs x (List.mem_cons_self _ _)
    have := ih (c + 1) (c_int.conv (t * 128 + ((x &&& 0x7F : Nat) : Int))) k
      (fun y hy => hcs y (List.mem_cons_of_mem _ hy)) hm.2 (by simpa using hf)
    simp only [time_loop, hm.1, Run.ok_bind, hx, ne_eq, not_false_eq_true, if_true, this,
      List.cons_append, vlq_fold_cons, List.length_cons, Nat.cast_add, Nat.cast_one]
    congr 2
    ring

/-! ## Meta events -/

theorem store_at_end (event : smf_event_t) (i b : Nat) (h : event.midi_buffer.length = i) :
    store event i b = { event with midi_buffer := event.midi_buffer ++ [b] } := by
  unfold store
  simp [h]

/-- The copy loop of a meta event over the bytes `bs` that remain to be copied: all of
them are appended to the event and `c` moves past them. -/
theorem meta_loop_eq (mem : List Nat) (len : Int) (bs : List Nat) (i : Nat) (c : Int)
    (event : smf_event_t) (fuel : Nat) (hlen : len = (i : Int) + bs.length)
    (hcap : i + bs.length ≤ 1024) (hi : event.midi_buffer.length = i)
    (hm : bytes_at mem c bs) (hf : bs.length < fuel) :
    meta_loop mem len fuel i c event
      = Run.ok (c + bs.length, { event with midi_buffer := event.midi_buffer ++ bs }) := by
  induction bs generalizing i c event fuel with
  | nil =>
    obtain ⟨k, rfl⟩ : ∃ k, fuel = k + 1 := ⟨fuel - 1, by simp at hf; omega⟩
    have : ¬ ((i : Int) < len) := by simp at hlen; omega
    simp [meta_loop, this]
  | cons x xs ih =>
    obtain ⟨k, rfl⟩ : ∃ k, fuel = k + 1 := ⟨fuel - 1, by simp at hf; omega⟩
    simp only [List.length_cons] at hlen hcap hf
    rw [bytes_at_cons] at hm
    have h1 : (i : Int) < len := by push_cast at hlen; omega
    have h2 : ¬ (i ≥ 1024) := by omega
    have := ih (i + 1) (c + 1) (store event i x) k (by push_cast at hlen ⊢; omega) (by omega)
      (by rw [store_at_end event i x hi]; simp [hi]) hm.2 (by omega)
    rw [meta_loop, if_pos h1, if_neg h2, hm.1]
    simp only [Run.ok_bind]
    rw [this, store_at_end event i x hi]
    simp only [List.length_cons, Nat.cast_add, Nat.cast_one, List.append_assoc,
      List.singleton_append]
    congr 2
    ring

/-- A meta event with an explicit status byte, as `parse_next_event` decodes it: after the
delta-time bytes `cs ++ [b]` and the status byte 0xFF come a type byte `t`, one byte `l`,
and `l` further bytes `body`. The event holds 0xFF, `t`, `l` and `body`, and the cursor
advances past all of them. -/
theorem parse_next_event_meta (ty : CIntTy) (mem : List Nat) (track : smf_track_t)
    (cs : List Nat) (b t l : Nat) (body : List Nat)
    (hcs : ∀ x ∈ cs, x &&& 0x80 ≠ 0) (hb : b &&& 0x80 = 0)
    (hm : bytes_at mem (track.buffer + track.next_event_offset)
      (cs ++ [b] ++ [0xFF, t, l] ++ body))
    (hl : body.length = l) (hl' : l < 256) :
    parse_next_event ty mem track
      = Run.ok (some { time := ty.conv (vlq_fold 0 (cs ++ [b])),
                       midi_buffer := 0xFF :: t :: l :: body },
                { track with
                  last_status := ty.conv 255
                  next_event_offset :=
                    ty.conv (track.next_event_offset + ((cs.length : Int) + 1 + 3 + l)) }) := by
  have hlenm := bytes_at_length _ _ _ hm
  have hshape : cs ++ [b] ++ [0xFF, t, l] ++ body = cs ++ (b :: 0xFF :: t :: l :: body) := by
    simp
  rw [hshape] at hm hlenm
  rw [bytes_at_append] at hm
  obtain ⟨hm1, hm2⟩ := hm
  simp only [bytes_at_cons] at hm2
  obtain ⟨hrb, hrs, hrt, hrl, hbody⟩ := hm2
  simp only [List.length_append, List.length_cons] at hlenm
  have htl := time_loop_eq mem cs b _ 0 (mem.length + 1) hcs hb
    ((bytes_at_append _ _ _ _).2 ⟨hm1, (bytes_at_cons _ _ _ _).2 ⟨hrb, (bytes_at_nil _ _).2 (by have := hm1.1; omega)⟩⟩)
    (by omega)
  have hbs : bytes_at mem (track.buffer + track.next_event_offset + cs.length + 1 + 1)
      (t :: l :: body) := by
    rw [bytes_at_cons, bytes_at_cons]
    exact ⟨hrt, hrl, hbody⟩
  have hml := meta_loop_eq mem ((l : Int) + 3) (t :: l :: body) 1
    (track.buffer + track.next_event_offset + cs.length + 1 + 1)
    { time := ty.conv (vlq_fold 0 (cs ++ [b])), midi_buffer := [0xFF] }
    ((l : Int) + 3).toNat (by simp [hl]; ring) (by simp [hl]; omega) rfl hbs
    (by simp [hl]; omega)
  unfold parse_next_event
  simp only [htl, Run.ok_bind, hrs]
  rw [if_pos (by decide)]
  unfold parse_event_body
  rw [if_neg (by decide), if_pos (by decide)]
  simp only [hrl, Run.ok_bind]
  have hst : store { smf_event_new with time := ty.conv (vlq_fold 0 (cs ++ [b])) } 0
      (((255 : Nat) : Int) % 256).toNat
      = { time := ty.conv (vlq_fold 0 (cs ++ [b])), midi_buffer := [0xFF] } := by
    simp [store, smf_event_new]
  rw [hst, hml]
  simp only [Run.ok_bind, Run.pure_eq, List.length_cons, hl, List.singleton_append]
  congr 5
  push_cast
  ring

/-! ## The minimal file -/

theorem minimal_file_header (ty : CIntTy) (hty : 32 ≤ ty.bits) (f p : Nat) (hf : f < 65536)
    (hp2 : p ≤ 0x7FFF) :
    parse_mthd_chunk ty (smf_new ty (minimal_file f p)) = Run.ok (0,
        { buffer := minimal_file f p, buffer_length := 26, next_chunk_offset := 14,
          format := f, number_of_tracks := 1, ppqn := p, frames_per_second := 0,
          resolution := 0 }) := by
  have c0 := conv_of_lt ty hty 0 (by norm_num) (by norm_num)
  have c1 := conv_of_lt ty hty 1 (by norm_num) (by norm_num)
  have c14 := conv_of_lt ty hty 14 (by norm_num) (by norm_num)
  have c26 := conv_of_lt ty hty 26 (by norm_num) (by norm_num)
  have cf := conv_of_lt ty hty (f : Int) (by omega) (by omega)
  have cp := conv_of_lt ty hty (p : Int) (by omega) (by omega)
  have c6 : c_int.conv 6 = 6 := by decide
  have ef : (f : Int) / 256 * 256 + (f : Int) % 256 = f := Int.ediv_add_emod' _ _
  have ep : (p : Int) / 256 * 256 + (p : Int) % 256 = p := Int.ediv_add_emod' _ _
  have hs : signed_char (p / 256) = ((p / 256 : Nat) : Int) := signed_char_of_lt _ (by omega)
  simp [minimal_file, mthd_bytes, mtrk_bytes, parse_mthd_chunk, parse_mthd_header, next_chunk,
    rd_be32, rd_be16, rd, smf_new, signature_matches, sig_MThd, c0, c1, c14, c26, c6, hs]
  rw [if_pos (by omega), ef, ep, cf, cp]

theorem minimal_file_track (ty : CIntTy) (hty : 32 ≤ ty.bits) (f p : Nat) :
    parse_mtrk_chunk ty
        { buffer := minimal_file f p, buffer_length := 26, next_chunk_offset := 14,
          format := f, number_of_tracks := 1, ppqn := p, frames_per_second := 0,
          resolution := 0 } smf_track_new
      = Run.ok (0,
          { buffer := minimal_file f p, buffer_length := 26, next_chunk_offset := 26,
            format := f, number_of_tracks := 1, ppqn := p, frames_per_second := 0,
            resolution := 0 },
          { buffer := 14, buffer_length := 12, next_event_offset := 12, last_status := 255 },
          [{ time := 0, midi_buffer := [0xFF, 0x2F, 0] }]) := by
  have c8 := conv_of_lt ty hty 8 (by norm_num) (by norm_num)
  have c12 := conv_of_lt ty hty 12 (by norm_num) (by norm_num)
  have c26 := conv_of_lt ty hty 26 (by norm_num) (by norm_num)
  have c255 := conv_of_lt ty hty 255 (by norm_num) (by norm_num)
  have c0 := conv_of_lt ty hty 0 (by norm_num) (by norm_num)
  have hL : rd_be32 (minimal_file f p) (14 + 4) = Run.ok 4 := by
    simp [rd_be32, rd, minimal_file, mthd_bytes, mtrk_bytes]
  have hsig : signature_matches (minimal_file f p) 14 sig_MTrk = Run.ok 1 := by
    simp [signature_matches, sig_MTrk, rd, minimal_file, mthd_bytes, mtrk_bytes]
  have hev := parse_next_event_meta ty (minimal_file f p)
    { buffer := 14, buffer_length := 12, next_event_offset := 8, last_status := 0 }
    [] 0 0x2F 0 [] (by simp) (by decide) ⟨by decide, rfl⟩ rfl (by decide)
  have hv : vlq_fold 0 ([] ++ [0]) = 0 := by decide
  simp only [hv, c0, c255, List.length_nil, Nat.cast_zero] at hev
  rw [show (8 : Int) + (0 + 1 + 3 + 0) = 12 from rfl, c12] at hev
  unfold parse_mtrk_chunk parse_mtrk_header
  rw [next_chunk_eq ty _ 4 hL]
  simp only [Run.ok_bind]
  rw [show (14 : Int) + (8 + ((4 : Nat) : Int)) = 26 from rfl, c26]
  simp only [gt_iff_lt, lt_self_iff_false, if_false, hsig, Run.ok_bind, hL]
  rw [if_neg (by decide), show (8 : Int) + ((4 : Nat) : Int) = 12 from rfl, c12, c8]
  simp only [Run.ok_bind, Run.pure_eq, smf_track_new]
  rw [if_neg (by decide)]
  simp only [parse_mtrk_loop, hev, Run.ok_bind]
  rw [if_pos (by decide)]
  rfl

/-- C1: for every format f below 65536 and every ppqn p with 1 <= p <= 0x7FFF, `smf_open`
on the 26-byte minimal file (header with format f, one track, division p; one track chunk
of length 4 holding 00 FF 2F 00) returns the sequence with format = f,
number_of_tracks = 1, ppqn = p and the chunk cursor at the buffer length 26; its one track
yields exactly one event, with time 0 and the bytes FF 2F 00 (status 0xFF, meta type 0x2F,
length byte 0 and no data byte), which `is_end_of_track` recognises; the track cursor ends
at 12, the end of the chunk. The field type is any integer type at least as wide as
int; the lower bound 1 <= p is not needed. -/
theorem C1_minimal_file_decodes (ty : CIntTy) (hty : 32 ≤ ty.bits) (f p : Nat)
    (hf : f < 65536) (hp2 : p ≤ 0x7FFF) :
    smf_open ty (minimal_file f p)
      = Run.ok (some
          ({ buffer := minimal_file f p, buffer_length := 26, next_chunk_offset := 26,
             format := f, number_of_tracks := 1, ppqn := p, frames_per_second := 0,
             resolution := 0 },
           [({ buffer := 14, buffer_length := 12, next_event_offset := 12, last_status := 255 },
             [{ time := 0, midi_buffer := [0xFF, 0x2F, 0] }])])) ∧
    is_end_of_track { time := 0, midi_buffer := [0xFF, 0x2F, 0] } = 1 ∧
    (minimal_file f p).length = 26 := by
  refine ⟨?_, by decide, rfl⟩
  unfold smf_open
  dsimp only
  rw [minimal_file_header ty hty f p hf hp2]
  simp only [Run.ok_bind]
  rw [if_neg (by decide)]
  simp only [show (1 : Int).toNat + 1 = 2 from rfl, smf_open_loop]
  rw [if_pos (by decide), minimal_file_track ty hty f p]
  simp only [Run.ok_bind]
  rw [if_neg (by decide), if_neg (by decide)]
  rfl

/-- C1, at the case of the specification: format 0, ppqn 96. -/
theorem C1_minimal_file_decodes_witness :
    smf_open c_int (minimal_file 0 96)
      = Run.ok (some
          ({ buffer := minimal_file 0 96, buffer_length := 26, next_chunk_offset := 26,
             format := 0, number_of_tracks := 1, ppqn := 96, frames_per_second := 0,
             resolution := 0 },
           [({ buffer := 14, buffer_length := 12, next_event_offset := 12, last_status := 255 },
             [{ time := 0, midi_buffer := [0xFF, 0x2F, 0] }])])) ∧
    is_end_of_track { time := 0, midi_buffer := [0xFF, 0x2F, 0] } = 1 ∧
    (minimal_file 0 96).length = 26 :=
  C1_minimal_file_decodes c_int (by decide) 0 96 (by decide) (by decide)

/-! ## Variable-length quantities -/

set_option maxRecDepth 100000 in
theorem top_bit_clear_iff : ∀ x < 256, (x &&& 0x80 = 0 ↔ x < 128) := by decide

theorem low_bits_eq_mod (x : Nat) : x &&& 0x7F = x % 128 :=
  Nat.and_pow_two_sub_one_eq_mod x 7

/-- The value accumulated from `v` over the bytes `bs`, without the reduction to int. -/
theorem foldl_value_le (bs : List Nat) (v : Nat) :
    v ≤ bs.foldl (fun v b => v * 128 + b % 128) v := by
  induction bs generalizing v with
  | nil => simp
  | cons x xs ih =>
    simp only [List.foldl_cons]
    have := ih (v * 128 + x % 128)
    omega

/-- As long as the accumulated value stays below 2^31, the time loop computes the value of
the byte sequence. -/
theorem vlq_fold_eq (bs : List Nat) (v : Nat)
    (h : bs.foldl (fun v b => v * 128 + b % 128) v < 2147483648) :
    vlq_fold (v : Int) bs = ((bs.foldl (fun v b => v * 128 + b % 128) v : Nat) : Int) := by
  induction bs generalizing v with
  | nil => simp [vlq_fold]
  | cons x xs ih =>
    simp only [List.foldl_cons] at h ⊢
    have hle := foldl_value_le xs (v * 128 + x % 128)
    rw [vlq_fold_cons, low_bits_eq_mod]
    have hc : c_int.conv ((v : Int) * 128 + ((x % 128 : Nat) : Int))
        = ((v * 128 + x % 128 : Nat) : Int) := by
      rw [conv_of_lt c_int (by decide) _ (by omega) (by omega)]
      push_cast
      rfl
    rw [hc]
    exact ih _ h

theorem vlq_value_append (xs : List Nat) (b : Nat) :
    vlq_value (xs ++ [b]) = vlq_value xs * 128 + b % 128 := by
  simp [vlq_value, List.foldl_append]

/-- The value of the high groups of an encoding: the number whose digits they are. -/
theorem vlq_value_high (L : List Nat) (hL : ∀ d ∈ L, d < 128) :
    vlq_value (L.reverse.map (fun d => 0x80 + d)) = Nat.ofDigits 128 L := by
  induction L with
  | nil => simp [vlq_value]
  | cons d ds ih =>
    have hd : d < 128 := hL d (List.mem_cons_self _ _)
    rw [List.reverse_cons, List.map_append, List.map_singleton, vlq_value_append,
      ih (fun x hx => hL x (List.mem_cons_of_mem _ hx)), Nat.ofDigits_cons]
    omega

theorem vlq_value_encode (n : Nat) : vlq_value (vlq_encode n) = n := by
  unfold vlq_encode
  rw [vlq_value_append, vlq_value_high _ (fun d hd => Nat.digits_lt_base (by norm_num) hd),
    Nat.ofDigits_digits]
  omega

theorem vlq_value_lt (bs : List Nat) : vlq_value bs < 128 ^ bs.length := by
  induction bs using List.reverseRecOn with
  | nil => simp [vlq_value]
  | append_singleton xs b ih =>
    rw [vlq_value_append, List.length_append, List.length_singleton, pow_succ]
    have := Nat.mod_lt b (show 128 > 0 by norm_num)
    omega

/-- Re-encoding the value of the high bytes of a canonical sequence gives them back. -/
theorem vlq_high_round_trip (cs : List Nat) (hcs : ∀ x ∈ cs, 128 ≤ x ∧ x < 256)
    (hhead : cs.head? ≠ some 0x80) :
    (Nat.digits 128 (vlq_value cs)).reverse.map (fun d => 0x80 + d) = cs := by
  have hmap : (cs.reverse.map (fun x => x - 128)).reverse.map (fun d => 0x80 + d) = cs := by
    simp only [List.map_reverse, List.reverse_reverse, List.map_map]
    conv_rhs => rw [← List.map_id cs]
    apply List.map_congr_left
    intro x hx
    have := hcs x hx
    simp only [Function.comp_apply, id_eq]
    omega
  have hlt : ∀ d ∈ cs.reverse.map (fun x => x - 128), d < 128 := by
    intro d hd
    simp only [List.mem_map, List.mem_reverse] at hd
    obtain ⟨x, hx, rfl⟩ := hd
    have := hcs x hx
    omega
  have hlast : ∀ h : cs.reverse.map (fun x => x - 128) ≠ [],
      (cs.reverse.map (fun x => x - 128)).getLast h ≠ 0 := by
    intro h
    cases cs with
    | nil => simp at h
    | cons x xs =>
      have hx := hcs x (List.mem_cons_self _ _)
      have hne : x ≠ 0x80 := by simpa using hhead
      simp only [List.reverse_cons, List.map_append, List.map_singleton,
        List.getLast_append_singleton]
      omega
  have hval : vlq_value cs = Nat.ofDigits 128 (cs.reverse.map (fun x => x - 128)) := by
    rw [← vlq_value_high _ hlt, hmap]
  rw [hval, Nat.digits_ofDigits 128 (by norm_num) _ hlt hlast, hmap]

theorem vlq_encode_value (cs : List Nat) (b : Nat) (hcs : ∀ x ∈ cs, 128 ≤ x ∧ x < 256)
    (hb : b < 128) (hhead : (cs ++ [b]).head? ≠ some 0x80) :
    vlq_encode (vlq_value (cs ++ [b])) = cs ++ [b] := by
  have hh : cs.head? ≠ some 0x80 := by
    cases cs with
    | nil => simp
    | cons x xs => simpa using hhead
  unfold vlq_encode
  rw [vlq_value_append]
  have e1 : (vlq_value cs * 128 + b % 128) / 128 = vlq_value cs := by omega
  have e2 : (vlq_value cs * 128 + b % 128) % 128 = b := by omega
  rw [e1, e2, vlq_high_round_trip cs hcs hh]

theorem top_bit_set_of_ge (cs : List Nat) (hcs : ∀ x ∈ cs, 128 ≤ x ∧ x < 256) :
    ∀ x ∈ cs, x &&& 0x80 ≠ 0 := by
  intro x hx h0
  have := hcs x hx
  have := (top_bit_clear_iff x this.2).1 h0
  omega

theorem vlq_fold_value (bs : List Nat) (h : vlq_value bs < 2147483648) :
    vlq_fold 0 bs = ((vlq_value bs : Nat) : Int) := by
  have := vlq_fold_eq bs 0 h
  simpa using this

/-- The time loop on a terminated byte sequence computes its value, as long as the value
is below 2^31. -/
theorem time_loop_value (mem : List Nat) (cs : List Nat) (b : Nat) (c : Int)
    (hcs : ∀ x ∈ cs, 128 ≤ x ∧ x < 256) (hb : b < 128)
    (hv : vlq_value (cs ++ [b]) < 2147483648) (hm : bytes_at mem c (cs ++ [b])) :
    time_loop mem (mem.length + 1) c 0
      = Run.ok (((vlq_value (cs ++ [b]) : Nat) : Int), c + cs.length) := by
  have hl := bytes_at_length _ _ _ hm
  simp only [List.length_append, List.length_singleton] at hl
  rw [time_loop_eq mem cs b c 0 (mem.length + 1) (top_bit_set_of_ge cs hcs)
    ((top_bit_clear_iff b (by omega)).2 hb) hm (by omega), vlq_fold_value _ hv]

theorem vlq_value_short (cs : List Nat) (b : Nat) (hlen : cs.length ≤ 3) :
    vlq_value (cs ++ [b]) < 268435456 := by
  have hv := vlq_value_lt (cs ++ [b])
  simp only [List.length_append, List.length_singleton] at hv
  have hp : 128 ^ (cs.length + 1) ≤ 128 ^ 4 := Nat.pow_le_pow_right (by norm_num) (by omega)
  have h4 : 128 ^ 4 = 268435456 := by norm_num
  omega

theorem vlq_encode_high_bytes (n : Nat) :
    ∀ x ∈ (Nat.digits 128 (n / 128)).reverse.map (fun d => 0x80 + d), 128 ≤ x ∧ x < 256 := by
  intro x hx
  simp only [List.mem_map, List.mem_reverse] at hx
  obtain ⟨d, hd, rfl⟩ := hx
  have := Nat.digits_lt_base (b := 128) (by norm_num) hd
  omega

/-- C3: VLQ round trip for delta-times. (1) For every n below 2^28 and every buffer that
holds the canonical VLQ encoding of n at offset c, the time loop of `parse_next_event`,
started at c, yields the time n and leaves c on the last byte of the encoding, so that
the `c++` after the loop has consumed exactly the bytes of the encoding; a meta event
that follows the encoding is decoded with event time n. (2) For every terminated VLQ byte
sequence cs ++ [b] of at most 4 bytes whose first byte is not 0x80, the time loop yields a
time whose canonical encoding is cs ++ [b] again. -/
theorem C3_vlq_round_trip :
    (∀ n : Nat, n < 268435456 → ∀ (mem : List Nat) (c : Int),
      bytes_at mem c (vlq_encode n) →
        time_loop mem (mem.length + 1) c 0
          = Run.ok ((n : Int), c + (((vlq_encode n).length - 1 : Nat) : Int))) ∧
    (∀ n : Nat, n < 268435456 → ∀ (ty : CIntTy), 32 ≤ ty.bits →
      ∀ (mem : List Nat) (track : smf_track_t) (t : Nat),
      bytes_at mem (track.buffer + track.next_event_offset) (vlq_encode n ++ [0xFF, t, 0]) →
        ∃ track', parse_next_event ty mem track
          = Run.ok (some { time := n, midi_buffer := [0xFF, t, 0] }, track') ∧
          track'.next_event_offset
            = ty.conv (track.next_event_offset + (((vlq_encode n).length : Nat) : Int) + 3)) ∧
    (∀ (cs : List Nat) (b : Nat), (∀ x ∈ cs, 128 ≤ x ∧ x < 256) → b < 128 →
      cs.length ≤ 3 → (cs ++ [b]).head? ≠ some 0x80 →
      ∀ (mem : List Nat) (c : Int), bytes_at mem c (cs ++ [b]) →
        ∃ time : Int, time_loop mem (mem.length + 1) c 0 = Run.ok (time, c + cs.length) ∧
          vlq_encode time.toNat = cs ++ [b]) := by
  refine ⟨?_, ?_, ?_⟩
  · intro n hn mem c hm
    have hv : vlq_value (vlq_encode n) < 2147483648 := by rw [vlq_value_encode]; omega
    have := time_loop_value mem _ (n % 128) c (vlq_encode_high_bytes n) (by omega) hv hm
    rw [this]
    congr 2
    · exact congrArg Nat.cast (vlq_value_encode n)
    · simp [vlq_encode]
  · intro n hn ty hty mem track t hm
    have hv : vlq_value (vlq_encode n) < 2147483648 := by rw [vlq_value_encode]; omega
    have hev := parse_next_event_meta ty mem track _ (n % 128) t 0 []
      (top_bit_set_of_ge _ (vlq_encode_high_bytes n))
      ((top_bit_clear_iff _ (by omega)).2 (by omega)) (by simpa [vlq_encode] using hm) rfl
      (by decide)
    have htime : ty.conv (vlq_fold 0 (vlq_encode n)) = n := by
      rw [vlq_fold_value _ hv, vlq_value_encode, conv_of_lt ty hty _ (by omega) (by omega)]
    rw [show vlq_encode n
      = (Nat.digits 128 (n / 128)).reverse.map (fun d => 0x80 + d) ++ [n % 128] from rfl] at htime
    rw [htime] at hev
    refine ⟨_, hev, ?_⟩
    simp only [vlq_encode, List.length_append, List.length_map, List.length_reverse,
      List.length_singleton]
    congr 1
    push_cast
    ring
  · intro cs b hcs hb hlen hhead mem c hm
    have hv := vlq_value_short cs b hlen
    refine ⟨_, time_loop_value mem cs b c hcs hb (by omega) hm, ?_⟩
    rw [Int.toNat_ofNat]
    exact vlq_encode_value cs b hcs hb hhead

theorem vlq_encode_200 : vlq_encode 200 = [0x81, 0x48] := by
  norm_num [vlq_encode]

/-- C3, at the bytes 81 48 of the specification: they are the canonical encoding of 200,
the time loop decodes them to 200 and stops on the second byte (2 bytes consumed), an
event that follows them gets the time 200, and re-encoding the decoded time gives 81 48. -/
theorem C3_vlq_round_trip_witness :
    vlq_encode 200 = [0x81, 0x48] ∧
    time_loop [0x81, 0x48] 3 0 0 = Run.ok (200, 1) ∧
    (∃ track', parse_next_event c_int [0x81, 0x48, 0xFF, 0x2F, 0] smf_track_new
        = Run.ok (some { time := 200, midi_buffer := [0xFF, 0x2F, 0] }, track') ∧
      track'.next_event_offset = 5) ∧
    (∃ time : Int, time_loop [0x81, 0x48] 3 0 0 = Run.ok (time, 1) ∧
      vlq_encode time.toNat = [0x81, 0x48]) := by
  refine ⟨vlq_encode_200, ?_, ?_, ?_⟩
  · have h := C3_vlq_round_trip.1 200 (by norm_num) [0x81, 0x48] 0
      (by rw [vlq_encode_200]; decide)
    rw [vlq_encode_200] at h
    exact h
  · have h := C3_vlq_round_trip.2.1 200 (by norm_num) c_int (by decide)
      [0x81, 0x48, 0xFF, 0x2F, 0] smf_track_new 0x2F (by rw [vlq_encode_200]; decide)
    rw [vlq_encode_200] at h
    exact h
  · exact C3_vlq_round_trip.2.2 [0x81] 0x48 (by decide) (by decide) (by decide) (by decide)
      [0x81, 0x48] 0 (by decide)

/-! ## Inputs on which the decoder leaves its bounds -/

/-- C2: the decoder reads outside the buffer and outside the track chunk. On the 4-byte
buffer "MThd" `smf_open` reads the chunk length at offset 4, the buffer length; on the
minimal file cut after 18 bytes (inside the track chunk's header) it reads offset 18, the
buffer length; on a file whose last chunk ends inside a meta event's body it reads offset
27, the buffer length; and in a file whose first track chunk has declared length 4 (body
00 90 3C 40, chunk end at track offset 12) and is followed by another chunk, the first
event takes the eight header bytes of the next chunk as data and the track cursor ends at
24, past the chunk's declared end. -/
theorem C2_reads_past_buffer_and_chunk :
    smf_open c_int [0x4D, 0x54, 0x68, 0x64] = Run.fault (Fault.out_of_bounds 4) ∧
    ((minimal_file 0 96).take 18).length = 18 ∧
    smf_open c_int ((minimal_file 0 96).take 18) = Run.fault (Fault.out_of_bounds 18) ∧
    (mthd_bytes 0 0 96 ++ mtrk_bytes [0, 0xFF, 0x01, 0x05, 0x41]).length = 27 ∧
    smf_open c_int (mthd_bytes 0 0 96 ++ mtrk_bytes [0, 0xFF, 0x01, 0x05, 0x41])
      = Run.fault (Fault.out_of_bounds 27) ∧
    smf_open c_int
        (mthd_bytes 0 0 96 ++ mtrk_bytes [0, 0x90, 0x3C, 0x40] ++ mtrk_bytes [0, 0xFF, 0x2F, 0])
      = Run.ok (some
          ({ buffer := mthd_bytes 0 0 96 ++ mtrk_bytes [0, 0x90, 0x3C, 0x40]
               ++ mtrk_bytes [0, 0xFF, 0x2F, 0],
             buffer_length := 38, next_chunk_offset := 26, format := 0, number_of_tracks := 1,
             ppqn := 96, frames_per_second := 0, resolution := 0 },
           [({ buffer := 14, buffer_length := 12, next_event_offset := 24, last_status := 255 },
             [{ time := 0,
                midi_buffer := [0x90, 0x3C, 0x40, 0x4D, 0x54, 0x72, 0x6B, 0, 0, 0, 4] },
              { time := 0, midi_buffer := [0xFF, 0x2F, 0] }])])) := by
  refine ⟨by decide, by decide, by decide, by decide, by decide, by decide⟩

/-! ## Running status -/

/-- C9: on the track body 00 90 3C 40 60 3C 00 00 FF 2F 00 (a chunk at offset 0, cursor
at 8) the first call of `parse_next_event` does not stop after 00 90 3C 40: it returns an
event with status 0x90 and the five data bytes 3C 40 60 3C 00 and advances the cursor by
7, to 15; the second call returns the end-of-track event, not a second note event. And
when a running-status data byte is followed by a byte with the top bit set (60 3C FF ..,
cursor at 12, last status 0x90), the event holds the status alone and the cursor advances
by 1: the byte 3C is not taken as data. -/
theorem C9_running_status_scan :
    parse_next_event c_int (mtrk_bytes [0, 0x90, 0x3C, 0x40, 0x60, 0x3C, 0, 0, 0xFF, 0x2F, 0])
        { buffer := 0, buffer_length := 19, next_event_offset := 8, last_status := 0 }
      = Run.ok (some { time := 0, midi_buffer := [0x90, 0x3C, 0x40, 0x60, 0x3C, 0] },
          { buffer := 0, buffer_length := 19, next_event_offset := 15, last_status := 0x90 }) ∧
    parse_next_event c_int (mtrk_bytes [0, 0x90, 0x3C, 0x40, 0x60, 0x3C, 0, 0, 0xFF, 0x2F, 0])
        { buffer := 0, buffer_length := 19, next_event_offset := 15, last_status := 0x90 }
      = Run.ok (some { time := 0, midi_buffer := [0xFF, 0x2F, 0] },
          { buffer := 0, buffer_length := 19, next_event_offset := 19, last_status := 0xFF }) ∧
    parse_next_event c_int (mtrk_bytes [0, 0x90, 0x3C, 0x40, 0x60, 0x3C, 0xFF, 0x2F, 0])
        { buffer := 0, buffer_length := 17, next_event_offset := 12, last_status := 0x90 }
      = Run.ok (some { time := 0x60, midi_buffer := [0x90] },
          { buffer := 0, buffer_length := 17, next_event_offset := 13, last_status := 0x90 }) := by
  refine ⟨by decide, by decide, by decide⟩

/-! ## Meta events with a long length field -/

set_option maxRecDepth 100000 in
/-- C10: on a meta event whose length field is the VLQ 81 01 (L = 129) followed by 129
data bytes, `parse_next_event` takes the first length byte 0x81 alone as the length: it
stores FF, the type, 81, 01 and only 128 of the data bytes, and advances the cursor by
133 (from 8 to 141) where the event takes 1 + 1 + 1 + 2 + 129 = 134 bytes; the next call
then starts on the last data byte and does not find the end-of-track event. On the length
field 81 00 (L = 128) of the claim the cursor does advance by 1 + 1 + 1 + 2 + 128 = 133. -/
theorem C10_meta_length_single_byte :
    parse_next_event c_int (long_meta_track 0x81 0x01 129)
        { buffer := 0, buffer_length := 146, next_event_offset := 8, last_status := 0 }
      = Run.ok (some { time := 0,
                       midi_buffer := [0xFF, 0x01, 0x81, 0x01] ++ List.replicate 128 0x41 },
          { buffer := 0, buffer_length := 146, next_event_offset := 141, last_status := 0xFF }) ∧
    parse_next_event c_int (long_meta_track 0x81 0x01 129)
        { buffer := 0, buffer_length := 146, next_event_offset := 141, last_status := 0xFF }
      = Run.fault (Fault.out_of_bounds 146) ∧
    parse_next_event c_int (long_meta_track 0x81 0x00 128)
        { buffer := 0, buffer_length := 145, next_event_offset := 8, last_status := 0 }
      = Run.ok (some { time := 0,
                       midi_buffer := [0xFF, 0x01, 0x81, 0x00] ++ List.replicate 128 0x41 },
          { buffer := 0, buffer_length := 145, next_event_offset := 141, last_status := 0xFF }) := by
  refine ⟨by decide, by decide, by decide⟩

/-! ## End of track, and the header warning -/

/-- C16: `is_end_of_track` returns 1 exactly when the status byte `midi_buffer[0]` is 0xFF
and the meta type `midi_buffer[1]` is 0x2F, and 0 otherwise; two events that agree on
these two bytes get the same answer, whatever their times and their other bytes. -/
theorem C16_is_end_of_track (e : smf_event_t) :
    (is_end_of_track e = 1 ↔
      e.midi_buffer.getD 0 0 = 0xFF ∧ e.midi_buffer.getD 1 0 = 0x2F) ∧
    (is_end_of_track e = 0 ↔
      ¬ (e.midi_buffer.getD 0 0 = 0xFF ∧ e.midi_buffer.getD 1 0 = 0x2F)) ∧
    (∀ e' : smf_event_t, e'.midi_buffer.getD 0 0 = e.midi_buffer.getD 0 0 →
      e'.midi_buffer.getD 1 0 = e.midi_buffer.getD 1 0 →
      is_end_of_track e' = is_end_of_track e) := by
  refine ⟨?_, ?_, ?_⟩
  · unfold is_end_of_track
    by_cases h : e.midi_buffer.getD 0 0 = 0xFF ∧ e.midi_buffer.getD 1 0 = 0x2F
    · rw [if_pos h]
      exact ⟨fun _ => h, fun _ => rfl⟩
    · rw [if_neg h]
      exact ⟨fun h0 => absurd h0 (by decide), fun h1 => absurd h1 h⟩
  · unfold is_end_of_track
    by_cases h : e.midi_buffer.getD 0 0 = 0xFF ∧ e.midi_buffer.getD 1 0 = 0x2F
    · rw [if_pos h]
      exact ⟨fun h1 => absurd h1 (by decide), fun h0 => absurd h h0⟩
    · rw [if_neg h]
      exact ⟨fun _ => h, fun _ => rfl⟩
  · intro e' h0 h1
    unfold is_end_of_track
    rw [h0, h1]

/-- C16, at three events: FF 2F 00 is the end of track; FF 2F followed by other bytes and
another time is too; FF 51 03 and an event that holds the status alone are not. -/
theorem C16_is_end_of_track_witness :
    is_end_of_track { time := 0, midi_buffer := [0xFF, 0x2F, 0] } = 1 ∧
    is_end_of_track { time := 96, midi_buffer := [0xFF, 0x2F, 5, 1, 2] }
      = is_end_of_track { time := 0, midi_buffer := [0xFF, 0x2F, 0] } ∧
    is_end_of_track { time := 0, midi_buffer := [0xFF, 0x51, 3] } = 0 ∧
    is_end_of_track { time := 0, midi_buffer := [0xFF] } = 0 :=
  ⟨(C16_is_end_of_track { time := 0, midi_buffer := [0xFF, 0x2F, 0] }).1.2 (by decide),
   (C16_is_end_of_track { time := 0, midi_buffer := [0xFF, 0x2F, 0] }).2.2
     { time := 96, midi_buffer := [0xFF, 0x2F, 5, 1, 2] } (by decide) (by decide),
   (C16_is_end_of_track { time := 0, midi_buffer := [0xFF, 0x51, 3] }).2.1.2 (by decide),
   (C16_is_end_of_track { time := 0, midi_buffer := [0xFF] }).2.1.2 (by decide)⟩

/-- The warning test of `print_mthd`, spelled out. -/
theorem print_mthd_warns_iff (smf : smf_t) :
    print_mthd_warns smf = true ↔ smf.format = 0 ∧ smf.number_of_tracks ≠ 0 := by
  simp [print_mthd_warns]

/-- C18: the header of the minimal well-formed file (format 0, one track) is accepted with
format = 0 and number_of_tracks = 1, and the test that guards the warning of `print_mthd`
is true on it: the test is `number_of_tracks != 0`, so one track raises the warning. With
two tracks it is true and with no track it is false, as the claim says. -/
theorem C18_single_track_raises_warning :
    (∃ s, parse_mthd_chunk c_int (smf_new c_int (minimal_file 0 96)) = Run.ok (0, s) ∧
      s.format = 0 ∧ s.number_of_tracks = 1 ∧ print_mthd_warns s = true) ∧
    print_mthd_warns { smf_new c_int [] with format := 0, number_of_tracks := 2 } = true ∧
    print_mthd_warns { smf_new c_int [] with format := 0, number_of_tracks := 0 } = false :=
  ⟨⟨{ buffer := minimal_file 0 96, buffer_length := 26, next_chunk_offset := 14, format := 0,
      number_of_tracks := 1, ppqn := 96, frames_per_second := 0, resolution := 0 },
    by decide, rfl, rfl, by decide⟩, by decide, by decide⟩

/-! ## The data loop -/

/-- The data loop with its look-ahead: from `c` on lie the bytes `data`, then `y`, then
`z`, where every byte after the first has its top bit clear up to and including `y`, and
`z` has its top bit set. The loop takes `data` (storing what fits below index 1024) and
stops with `c` on `y`. `stored` lists the bytes the event has received so far. -/
theorem data_loop_eq (mem : List Nat) (data : List Nat) (y z : Nat) (stored : List Nat)
    (c : Int) (event : smf_event_t) (fuel : Nat)
    (hclear : ∀ x ∈ (data ++ [y]).tail, x &&& 0x80 = 0) (hz : z &&& 0x80 ≠ 0)
    (hm : bytes_at mem c (data ++ [y, z]))
    (hev : event.midi_buffer = stored.take 1024) (hf : data.length < fuel) :
    data_loop mem fuel stored.length c event
      = Run.ok (c + data.length,
          { event with midi_buffer := (stored ++ data).take 1024 }) := by
  induction data generalizing stored c event fuel with
  | nil =>
    obtain ⟨k, rfl⟩ : ∃ k, fuel = k + 1 := ⟨fuel - 1, by simp at hf; omega⟩
    simp only [List.nil_append, bytes_at_cons] at hm
    rw [data_loop, hm.2.1]
    simp only [Run.ok_bind]
    rw [if_neg hz]
    simp only [Run.pure_eq, List.length_nil, Nat.cast_zero, add_zero, List.append_nil, ← hev]
  | cons x xs ih =>
    obtain ⟨k, rfl⟩ : ∃ k, fuel = k + 1 := ⟨fuel - 1, by simp at hf; omega⟩
    simp only [List.cons_append, bytes_at_cons] at hm
    obtain ⟨hx, hrest⟩ := hm
    simp only [List.cons_append, List.tail_cons] at hclear
    -- the byte after `c` is the head of `xs ++ [y]`
    have hnext : ∃ n, rd mem (c + 1) = Run.ok n ∧ n &&& 0x80 = 0 := by
      cases xs with
      | nil =>
        simp only [List.nil_append, bytes_at_cons] at hrest
        exact ⟨y, hrest.1, hclear y (by simp)⟩
      | cons x' xs' =>
        simp only [List.cons_append, bytes_at_cons] at hrest
        exact ⟨x', hrest.1, hclear x' (by simp)⟩
    obtain ⟨n, hn, hnc⟩ := hnext
    have hclear' : ∀ v ∈ (xs ++ [y]).tail, v &&& 0x80 = 0 :=
      fun v hv => hclear v (List.mem_of_mem_tail hv)
    rw [data_loop, hn]
    simp only [Run.ok_bind]
    rw [if_pos hnc]
    by_cases hi : stored.length ≥ 1024
    · rw [if_pos hi]
      have hev' : event.midi_buffer = (stored ++ [x]).take 1024 := by
        rw [hev, List.take_append_of_le_length hi]
      have := ih (stored ++ [x]) (c + 1) event k hclear' hrest hev' (by simpa using hf)
      simp only [List.length_append, List.length_singleton] at this
      rw [this]
      simp only [List.append_assoc, List.singleton_append, List.length_cons, Nat.cast_add,
        Nat.cast_one]
      congr 2
      ring
    · rw [if_neg hi, hx]
      simp only [Run.ok_bind]
      have hlen : event.midi_buffer.length = stored.length := by
        rw [hev, List.length_take]
        omega
      have hst : store event stored.length x
          = { event with midi_buffer := (stored ++ [x]).take 1024 } := by
        rw [store_at_end event _ x hlen, hev, List.take_of_length_le (by omega),
          List.take_of_length_le (by simp; omega)]
      have := ih (stored ++ [x]) (c + 1) (store event stored.length x) k hclear' hrest
        (by rw [hst]) (by simpa using hf)
      simp only [List.length_append, List.length_singleton] at this
      rw [this, hst]
      simp only [List.append_assoc, List.singleton_append, List.length_cons, Nat.cast_add,
        Nat.cast_one]
      congr 2
      ring

/-! ## Channel and system-exclusive events -/

theorem land_cast (s : Nat) : Int.land (s : Int) 0x80 = ((s &&& 0x80 : Nat) : Int) := rfl

theorem store_status (time : Int) (s : Nat) (hs : s < 256) :
    store { smf_event_new with time := time } 0 (((s : Int) % 256).toNat)
      = { time := time, midi_buffer := [s] } := by
  have : ((s : Int) % 256).toNat = s := by omega
  simp [store, smf_event_new, this]

/-- An event with an explicit status byte other than 0xFF, as `parse_next_event` decodes
it: after the delta-time bytes `cs ++ [b]` and the status byte `s` lie the bytes `data`,
then `y`, then `z`, where every byte after the first one of `data ++ [y]` has its top bit
clear and `z` has its top bit set. The event holds `s` and `data` (as far as they fit
below index 1024) and the cursor advances past `data`, stopping on `y`. -/
theorem parse_next_event_data (ty : CIntTy) (mem : List Nat) (track : smf_track_t)
    (cs : List Nat) (b s : Nat) (data : List Nat) (y z : Nat)
    (hcs : ∀ x ∈ cs, x &&& 0x80 ≠ 0) (hb : b &&& 0x80 = 0)
    (hs : s &&& 0x80 ≠ 0) (hs' : s < 255)
    (hclear : ∀ x ∈ (data ++ [y]).tail, x &&& 0x80 = 0) (hz : z &&& 0x80 ≠ 0)
    (hm : bytes_at mem (track.buffer + track.next_event_offset)
      (cs ++ [b] ++ [s] ++ data ++ [y, z])) :
    parse_next_event ty mem track
      = Run.ok (some { time := ty.conv (vlq_fold 0 (cs ++ [b])),
                       midi_buffer := (s :: data).take 1024 },
                { track with
                  last_status := ty.conv s
                  next_event_offset :=
                    ty.conv (track.next_event_offset
                      + ((cs.length : Int) + 1 + 1 + data.length)) }) := by
  have hlenm := bytes_at_length _ _ _ hm
  have hshape : cs ++ [b] ++ [s] ++ data ++ [y, z] = cs ++ (b :: s :: (data ++ [y, z])) := by
    simp
  rw [hshape] at hm hlenm
  rw [bytes_at_append] at hm
  obtain ⟨hm1, hm2⟩ := hm
  simp only [bytes_at_cons] at hm2
  obtain ⟨hrb, hrs, hdata⟩ := hm2
  simp only [List.length_append, List.length_cons, List.length_nil] at hlenm
  have htl := time_loop_eq mem cs b _ 0 (mem.length + 1) hcs hb
    ((bytes_at_append _ _ _ _).2
      ⟨hm1, (bytes_at_cons _ _ _ _).2 ⟨hrb, (bytes_at_nil _ _).2 (by have := hm1.1; omega)⟩⟩)
    (by omega)
  have hdl := data_loop_eq mem data y z [s]
    (track.buffer + track.next_event_offset + cs.length + 1 + 1)
    { time := ty.conv (vlq_fold 0 (cs ++ [b])), midi_buffer := [s] }
    (mem.length + 1) hclear hz hdata rfl (by omega)
  have hland : ¬ Int.land (s : Int) 0x80 = 0 := by
    rw [land_cast]
    exact_mod_cast hs
  have hne : ¬ (s : Int) = 0xFF := by omega
  unfold parse_next_event
  simp only [htl, Run.ok_bind, hrs]
  rw [if_pos hs]
  unfold parse_event_body
  rw [if_neg hland]
  simp only []
  rw [if_neg hne, store_status _ s (by omega)]
  simp only [List.length_singleton] at hdl
  rw [hdl]
  simp only [Run.ok_bind, Run.pure_eq, List.singleton_append]
  congr 5
  ring

/-- An event under running status, as `parse_next_event` decodes it: after the delta-time
bytes `cs ++ [b]` lie the bytes `data`, then `y`, then `z`, where all of `data ++ [y]`
have their top bit clear and `z` has its top bit set, and the track's last status is a
status byte `s` other than 0xFF. The event holds `s` and `data` (as far as they fit below
index 1024), no status byte is consumed and the last status stays. -/
theorem parse_next_event_running (ty : CIntTy) (mem : List Nat) (track : smf_track_t)
    (cs : List Nat) (b s : Nat) (data : List Nat) (y z : Nat)
    (hcs : ∀ x ∈ cs, x &&& 0x80 ≠ 0) (hb : b &&& 0x80 = 0)
    (hlast : track.last_status = (s : Int)) (hs : s &&& 0x80 ≠ 0) (hs' : s < 255)
    (hclear : ∀ x ∈ data ++ [y], x &&& 0x80 = 0) (hz : z &&& 0x80 ≠ 0)
    (hm : bytes_at mem (track.buffer + track.next_event_offset)
      (cs ++ [b] ++ data ++ [y, z])) :
    parse_next_event ty mem track
      = Run.ok (some { time := ty.conv (vlq_fold 0 (cs ++ [b])),
                       midi_buffer := (s :: data).take 1024 },
                { track with
                  next_event_offset :=
                    ty.conv (track.next_event_offset
                      + ((cs.length : Int) + 1 + data.length)) }) := by
  have hlenm := bytes_at_length _ _ _ hm
  have hshape : cs ++ [b] ++ data ++ [y, z] = cs ++ (b :: (data ++ [y, z])) := by simp
  rw [hshape] at hm hlenm
  rw [bytes_at_append] at hm
  obtain ⟨hm1, hm2⟩ := hm
  simp only [bytes_at_cons] at hm2
  obtain ⟨hrb, hdata⟩ := hm2
  simp only [List.length_append, List.length_cons, List.length_nil] at hlenm
  have htl := time_loop_eq mem cs b _ 0 (mem.length + 1) hcs hb
    ((bytes_at_append _ _ _ _).2
      ⟨hm1, (bytes_at_cons _ _ _ _).2 ⟨hrb, (bytes_at_nil _ _).2 (by have := hm1.1; omega)⟩⟩)
    (by omega)
  have hdl := data_loop_eq mem data y z [s]
    (track.buffer + track.next_event_offset + cs.length + 1)
    { time := ty.conv (vlq_fold 0 (cs ++ [b])), midi_buffer := [s] }
    (mem.length + 1) (fun x hx => hclear x (List.mem_of_mem_tail hx)) hz hdata rfl (by omega)
  -- the byte after the delta-time is the head of `data ++ [y]`
  have hfirst : ∃ n, rd mem (track.buffer + track.next_event_offset + cs.length + 1)
      = Run.ok n ∧ n &&& 0x80 = 0 := by
    cases data with
    | nil =>
      simp only [List.nil_append, bytes_at_cons] at hdata
      exact ⟨y, hdata.1, hclear y (by simp)⟩
    | cons x xs =>
      simp only [List.cons_append, bytes_at_cons] at hdata
      exact ⟨x, hdata.1, hclear x (by simp)⟩
  obtain ⟨n, hn, hnc⟩ := hfirst
  have hconv : c_int.conv track.last_status = (s : Int) := by
    rw [hlast]
    exact conv_of_lt c_int (by decide) _ (by omega) (by omega)
  have hland : ¬ Int.land (s : Int) 0x80 = 0 := by
    rw [land_cast]
    exact_mod_cast hs
  have hne : ¬ (s : Int) = 0xFF := by omega
  unfold parse_next_event
  simp only [htl, Run.ok_bind, hn]
  rw [if_neg (by simpa using hnc), hconv]
  unfold parse_event_body
  rw [if_neg hland]
  simp only []
  rw [if_neg hne, store_status _ s (by omega)]
  simp only [List.length_singleton] at hdl
  rw [hdl]
  simp only [Run.ok_bind, Run.pure_eq, List.singleton_append]
  congr 5
  ring

theorem top_bit_set_of_byte (x : Nat) (h : 128 ≤ x ∧ x < 256) : x &&& 0x80 ≠ 0 := by
  intro h0
  have := (top_bit_clear_iff x h.2).1 h0
  omega

theorem top_bit_clear_of_lt (x : Nat) (h : x < 128) : x &&& 0x80 = 0 :=
  (top_bit_clear_iff x (by omega)).2 h

/-- C17, as stated, fails: in the track body 00 90 3C 40 81 00 80 3C 40 00 FF 2F 00 (a
chunk at offset 0, cursor at 8) the maximal run of bytes with the top bit clear after the
status byte 0x90 is 3C 40, yet `parse_next_event` takes 3C alone as data and advances the
cursor by 3, to 11, leaving the data byte 40 to be read as the next delta-time. -/
theorem C17_last_byte_of_run_not_taken :
    parse_next_event c_int
        (mtrk_bytes [0, 0x90, 0x3C, 0x40, 0x81, 0, 0x80, 0x3C, 0x40, 0, 0xFF, 0x2F, 0])
        { buffer := 0, buffer_length := 21, next_event_offset := 8, last_status := 0 }
      = Run.ok (some { time := 0, midi_buffer := [0x90, 0x3C] },
          { buffer := 0, buffer_length := 21, next_event_offset := 11, last_status := 0x90 }) := by
  decide

/-- C17, amended: for a status `s` other than 0xFF, let the maximal run of bytes with the
top bit clear that follows the status byte (or, under running status with last status
`s`, that starts after the delta-time) be `data ++ [y]`, the byte `z` after it having the
top bit set. `parse_next_event` takes as data the run without its last byte, that is
`data`, of which it stores what fits below index 1024; it stops on `y` without consuming
it, and the track cursor advances by (delta-time bytes) + (1 if a status byte was
present) + (number of bytes of `data`). -/
theorem C17_data_scan (ty : CIntTy) (mem : List Nat) (track : smf_track_t)
    (cs : List Nat) (b s : Nat) (data : List Nat) (y z : Nat)
    (hcs : ∀ x ∈ cs, 128 ≤ x ∧ x < 256) (hb : b < 128) (hs : 128 ≤ s ∧ s < 255)
    (hrun : ∀ x ∈ data ++ [y], x < 128) (hz : 128 ≤ z ∧ z < 256) :
    (bytes_at mem (track.buffer + track.next_event_offset)
        (cs ++ [b] ++ [s] ++ data ++ [y, z]) →
      parse_next_event ty mem track
        = Run.ok (some { time := ty.conv (vlq_fold 0 (cs ++ [b])),
                         midi_buffer := (s :: data).take 1024 },
                  { track with
                    last_status := ty.conv s
                    next_event_offset :=
                      ty.conv (track.next_event_offset
                        + ((cs.length : Int) + 1 + 1 + data.length)) })) ∧
    (track.last_status = (s : Int) →
      bytes_at mem (track.buffer + track.next_event_offset) (cs ++ [b] ++ data ++ [y, z]) →
      parse_next_event ty mem track
        = Run.ok (some { time := ty.conv (vlq_fold 0 (cs ++ [b])),
                         midi_buffer := (s :: data).take 1024 },
                  { track with
                    next_event_offset :=
                      ty.conv (track.next_event_offset
                        + ((cs.length : Int) + 1 + data.length)) })) := by
  have hcs' := top_bit_set_of_ge cs hcs
  have hb' := top_bit_clear_of_lt b hb
  have hs' := top_bit_set_of_byte s ⟨hs.1, by omega⟩
  have hz' := top_bit_set_of_byte z hz
  have hrun' : ∀ x ∈ data ++ [y], x &&& 0x80 = 0 := fun x hx => top_bit_clear_of_lt x (hrun x hx)
  refine ⟨fun hm => ?_, fun hlast hm => ?_⟩
  · exact parse_next_event_data ty mem track cs b s data y z hcs' hb' hs' hs.2
      (fun x hx => hrun' x (List.mem_of_mem_tail hx)) hz' hm
  · exact parse_next_event_running ty mem track cs b s data y z hcs' hb' hlast hs' hs.2
      hrun' hz' hm

/-- C17, amended, at two events of one track: 00 90 3C 40 followed by 00 FF (explicit
status, data 3C 40, cursor from 8 to 12) and 81 48 3C 00 followed by 00 FF under the
running status 0x90 (data 3C 00, no status byte consumed, cursor from 8 to 12). -/
theorem C17_data_scan_witness :
    parse_next_event c_int (mtrk_bytes [0, 0x90, 0x3C, 0x40, 0, 0xFF, 0x2F, 0])
        { buffer := 0, buffer_length := 16, next_event_offset := 8, last_status := 0 }
      = Run.ok (some { time := 0, midi_buffer := [0x90, 0x3C, 0x40] },
          { buffer := 0, buffer_length := 16, next_event_offset := 12, last_status := 0x90 }) ∧
    parse_next_event c_int (mtrk_bytes [0x81, 0x48, 0x3C, 0, 0, 0xFF, 0x2F, 0])
        { buffer := 0, buffer_length := 16, next_event_offset := 8, last_status := 0x90 }
      = Run.ok (some { time := 200, midi_buffer := [0x90, 0x3C, 0] },
          { buffer := 0, buffer_length := 16, next_event_offset := 12, last_status := 0x90 }) :=
  ⟨(C17_data_scan c_int (mtrk_bytes [0, 0x90, 0x3C, 0x40, 0, 0xFF, 0x2F, 0])
      { buffer := 0, buffer_length := 16, next_event_offset := 8, last_status := 0 }
      [] 0 0x90 [0x3C, 0x40] 0 0xFF (by decide) (by decide) (by decide) (by decide)
      (by decide)).1 (by decide),
   (C17_data_scan c_int (mtrk_bytes [0x81, 0x48, 0x3C, 0, 0, 0xFF, 0x2F, 0])
      { buffer := 0, buffer_length := 16, next_event_offset := 8, last_status := 0x90 }
      [0x81] 0x48 0x90 [0x3C, 0] 0 0xFF (by decide) (by decide) (by decide) (by decide)
      (by decide)).2 rfl (by decide)⟩

/-! ## Events longer than the event buffer -/

theorem bytes_at_mid (pre bs post : List Nat) :
    bytes_at (pre ++ bs ++ post) (pre.length : Int) bs := by
  refine ⟨by omega, ?_⟩
  simp [List.append_assoc]

theorem mtrk_chunk_header_length (body : List Nat) :
    (sig_MTrk ++ be32 body.length).length = 8 := rfl

/-- The first event of a chunk at offset 0 whose body is `long_data_body n`: the event
holds the status and what fits below index 1024 of the `n` data bytes, and the cursor
advances over all of them. -/
theorem parse_next_event_long_data (n : Nat) (blen : Int) :
    parse_next_event c_int (mtrk_chunk (long_data_body n))
        { buffer := 0, buffer_length := blen, next_event_offset := 8, last_status := 0 }
      = Run.ok (some { time := 0, midi_buffer := 0x90 :: List.replicate (min 1023 n) 0x40 },
          { buffer := 0, buffer_length := blen,
            next_event_offset := c_int.conv (8 + (0 + 1 + 1 + (n : Int))),
            last_status := 0x90 }) := by
  have hm : bytes_at (mtrk_chunk (long_data_body n)) ((0 : Int) + 8)
      ([] ++ [0] ++ [0x90] ++ List.replicate n 0x40 ++ [0, 0xFF]) := by
    have := bytes_at_mid (sig_MTrk ++ be32 (long_data_body n).length)
      ([] ++ [0] ++ [0x90] ++ List.replicate n 0x40 ++ [0, 0xFF]) [0x2F, 0]
    rw [mtrk_chunk_header_length] at this
    have e : sig_MTrk ++ be32 (long_data_body n).length
        ++ ([] ++ [0] ++ [0x90] ++ List.replicate n 0x40 ++ [0, 0xFF]) ++ [0x2F, 0]
        = mtrk_chunk (long_data_body n) := by
      simp [mtrk_chunk, long_data_body]
    rw [e] at this
    exact this
  have h := parse_next_event_data c_int (mtrk_chunk (long_data_body n))
    { buffer := 0, buffer_length := blen, next_event_offset := 8, last_status := 0 }
    [] 0 0x90 (List.replicate n 0x40) 0 0xFF (by simp) (by decide) (by decide) (by decide)
    (by
      intro x hx
      have hx' := List.mem_of_mem_tail hx
      simp only [List.mem_append, List.mem_replicate, List.mem_singleton] at hx'
      rcases hx' with ⟨-, rfl⟩ | rfl <;> decide)
    (by decide) hm
  rw [h]
  have ht : c_int.conv (vlq_fold 0 ([] ++ [0])) = 0 := by decide
  have hs : c_int.conv ((0x90 : Nat) : Int) = 0x90 := by decide
  simp only [ht, hs, List.take_succ_cons, List.take_replicate, List.length_replicate,
    List.length_nil, Nat.cast_zero]

theorem bytes_at_long_data_body (n : Nat) :
    bytes_at (mtrk_chunk (long_data_body n)) ((0 : Int) + 8)
      ([] ++ [0] ++ [0x90] ++ List.replicate n 0x40 ++ [0, 0xFF]) := by
  have := bytes_at_mid (sig_MTrk ++ be32 (long_data_body n).length)
    ([] ++ [0] ++ [0x90] ++ List.replicate n 0x40 ++ [0, 0xFF]) [0x2F, 0]
  rw [mtrk_chunk_header_length] at this
  have e : sig_MTrk ++ be32 (long_data_body n).length
      ++ ([] ++ [0] ++ [0x90] ++ List.replicate n 0x40 ++ [0, 0xFF]) ++ [0x2F, 0]
      = mtrk_chunk (long_data_body n) := by
    simp [mtrk_chunk, long_data_body]
  rw [e] at this
  exact this

/-- C13, as stated, fails: on a chunk whose first event is the status byte 0x90 followed
by 2000 bytes 0x40 (then 00 FF 2F 00), `parse_next_event` does not fail: it returns the
event, holding the status and the first 1023 data bytes, and the cursor advances over the
whole event, from 8 to 2010. -/
theorem C13_long_event_is_consumed :
    parse_next_event c_int (mtrk_chunk (long_data_body 2000))
        { buffer := 0, buffer_length := 2014, next_event_offset := 8, last_status := 0 }
      = Run.ok (some { time := 0, midi_buffer := 0x90 :: List.replicate 1023 0x40 },
          { buffer := 0, buffer_length := 2014, next_event_offset := 2010,
            last_status := 0x90 }) := by
  rw [parse_next_event_long_data 2000 2014]
  have e1 : min 1023 2000 = 1023 := by decide
  have e2 : c_int.conv (8 + (0 + 1 + 1 + ((2000 : Nat) : Int))) = 2010 := by decide
  rw [e1, e2]

/-! ## The event buffer is never overrun -/

theorem store_length (event : smf_event_t) (i b : Nat) :
    (store event i b).midi_buffer.length = max event.midi_buffer.length (i + 1) := by
  unfold store
  split
  · simp only [List.length_set]
    omega
  · simp only [List.length_append, List.length_replicate, List.length_singleton]
    omega

theorem store_head (event : smf_event_t) (i b : Nat) (hi : 1 ≤ i)
    (hl : 1 ≤ event.midi_buffer.length) :
    (store event i b).midi_buffer.getD 0 0 = event.midi_buffer.getD 0 0 := by
  unfold store
  cases hmb : event.midi_buffer with
  | nil => simp [hmb] at hl
  | cons x xs =>
    cases i with
    | zero => omega
    | succ j =>
      split
      · simp [List.set]
      · simp

theorem store_time (event : smf_event_t) (i b : Nat) : (store event i b).time = event.time := by
  unfold store
  split <;> rfl

/-- What the meta loop keeps: the event stays at most `N` bytes long, for every `N` that
is at least `len` or at least 1024, and its byte at index 0 stays. -/
theorem meta_loop_inv (mem : List Nat) (len : Int) (N : Nat)
    (hN : len ≤ (N : Int) ∨ 1024 ≤ N) :
    ∀ (fuel i : Nat) (c : Int) (event : smf_event_t) (c' : Int) (e' : smf_event_t),
      meta_loop mem len fuel i c event = Run.ok (c', e') → 1 ≤ i →
      1 ≤ event.midi_buffer.length → event.midi_buffer.length ≤ N →
      1 ≤ e'.midi_buffer.length ∧ e'.midi_buffer.length ≤ N ∧
        e'.midi_buffer.getD 0 0 = event.midi_buffer.getD 0 0 ∧ e'.time = event.time := by
  intro fuel
  induction fuel with
  | zero =>
    intro i c event c' e' h
    simp [meta_loop] at h
  | succ k ih =>
    intro i c event c' e' h hi h1 hle
    rw [meta_loop] at h
    split at h
    · rename_i hlt
      split at h
      · exact ih _ _ _ _ _ h (by omega) h1 hle
      · rename_i hcap
        rw [Run.bind_eq_ok] at h
        obtain ⟨b, -, h⟩ := h
        have hs := store_length event i b
        have := ih _ _ _ _ _ h (by omega) (by rw [hs]; omega)
          (by rw [hs]; rcases hN with hN | hN <;> omega)
        rw [store_head event i b hi h1, store_time] at this
        exact this
    · simp only [Run.pure_eq, Run.ok.injEq, Prod.mk.injEq] at h
      obtain ⟨-, rfl⟩ := h
      exact ⟨h1, hle, rfl, rfl⟩

/-- What the data loop keeps: the event stays at most 1024 bytes long and its byte at
index 0 stays. -/
theorem data_loop_inv (mem : List Nat) :
    ∀ (fuel i : Nat) (c : Int) (event : smf_event_t) (c' : Int) (e' : smf_event_t),
      data_loop mem fuel i c event = Run.ok (c', e') → 1 ≤ i →
      1 ≤ event.midi_buffer.length → event.midi_buffer.length ≤ 1024 →
      1 ≤ e'.midi_buffer.length ∧ e'.midi_buffer.length ≤ 1024 ∧
        e'.midi_buffer.getD 0 0 = event.midi_buffer.getD 0 0 ∧ e'.time = event.time := by
  intro fuel
  induction fuel with
  | zero =>
    intro i c event c' e' h
    simp [data_loop] at h
  | succ k ih =>
    intro i c event c' e' h hi h1 hle
    rw [data_loop, Run.bind_eq_ok] at h
    obtain ⟨n, -, h⟩ := h
    split at h
    · split at h
      · exact ih _ _ _ _ _ h (by omega) h1 hle
      · rename_i hcap
        rw [Run.bind_eq_ok] at h
        obtain ⟨b, -, h⟩ := h
        have hs := store_length event i b
        have := ih _ _ _ _ _ h (by omega) (by rw [hs]; omega) (by rw [hs]; omega)
        rw [store_head event i b hi h1, store_time] at this
        exact this
    · simp only [Run.pure_eq, Run.ok.injEq, Prod.mk.injEq] at h
      obtain ⟨-, rfl⟩ := h
      exact ⟨h1, hle, rfl, rfl⟩
theorem rd_mem (mem : List Nat) (i : Int) (b : Nat) (h : rd mem i = Run.ok b) : b ∈ mem := by
  rw [rd_eq_ok_iff] at h
  exact List.getElem?_mem h.2

/-- What the second half of `parse_next_event` returns with an event: the status had its
top bit set and is the event's byte at index 0, and the event is at most 1024 bytes long,
at most 258 for a meta event when the buffer holds bytes. -/
theorem parse_event_body_inv (ty : CIntTy) (mem : List Nat) (track : smf_track_t)
    (event : smf_event_t) (start status c : Int) (e : smf_event_t) (track' : smf_track_t)
    (h : parse_event_body ty mem track event start status c = Run.ok (some e, track'))
    (hev : event.midi_buffer = []) :
    Int.land status 0x80 ≠ 0 ∧ e.midi_buffer.getD 0 0 = (status % 256).toNat ∧
    1 ≤ e.midi_buffer.length ∧ e.midi_buffer.length ≤ 1024 ∧ e.time = event.time ∧
    (status = 0xFF → (∀ b ∈ mem, b < 256) → e.midi_buffer.length ≤ 258) := by
  unfold parse_event_body at h
  split at h
  · simp at h
  · rename_i hland
    have hst : (store event 0 (status % 256).toNat).midi_buffer = [(status % 256).toNat] := by
      simp [store, hev]
    simp only [] at h
    split at h
    · rename_i hmeta
      rw [Run.bind_eq_ok] at h
      obtain ⟨l, hl, h⟩ := h
      rw [Run.bind_eq_ok] at h
      obtain ⟨⟨c', e'⟩, hloop, h⟩ := h
      simp only [Run.pure_eq, Run.ok.injEq, Prod.mk.injEq, Option.some.injEq] at h
      obtain ⟨rfl, -⟩ := h
      have h1 := meta_loop_inv mem ((l : Int) + 3) 1024 (Or.inr (le_refl _)) _ _ _ _ _ _ hloop
        (le_refl _) (by rw [hst]; simp) (by rw [hst]; simp)
      rw [hst, store_time] at h1
      refine ⟨hland, by simpa using h1.2.2.1, h1.1, h1.2.1, h1.2.2.2, fun _ hb => ?_⟩
      have hl' := hb l (rd_mem _ _ _ hl)
      have h2 := meta_loop_inv mem ((l : Int) + 3) 258 (Or.inl (by omega)) _ _ _ _ _ _ hloop
        (le_refl _) (by rw [hst]; simp) (by rw [hst]; simp)
      exact h2.2.1
    · rename_i hmeta
      rw [Run.bind_eq_ok] at h
      obtain ⟨⟨c', e'⟩, hloop, h⟩ := h
      simp only [Run.pure_eq, Run.ok.injEq, Prod.mk.injEq, Option.some.injEq] at h
      obtain ⟨rfl, -⟩ := h
      have h1 := data_loop_inv mem _ _ _ _ _ _ hloop (le_refl _) (by rw [hst]; simp)
        (by rw [hst]; simp)
      rw [hst, store_time] at h1
      exact ⟨hland, by simpa using h1.2.2.1, h1.1, h1.2.1, h1.2.2.2, fun hm => absurd hm hmeta⟩

/-- What `parse_next_event` returns with an event: the event's byte at index 0 is a status
byte with the top bit set, and the event is at most 1024 bytes long, at most 258 when it
is a meta event, the buffer holds bytes and the last status is a byte or 0. -/
theorem parse_next_event_inv (ty : CIntTy) (mem : List Nat) (track : smf_track_t)
    (e : smf_event_t) (track' : smf_track_t)
    (h : parse_next_event ty mem track = Run.ok (some e, track')) :
    1 ≤ e.midi_buffer.length ∧ e.midi_buffer.length ≤ 1024 ∧
    ((∀ b ∈ mem, b < 256) → 0 ≤ track.last_status → track.last_status < 256 →
      128 ≤ e.midi_buffer.getD 0 0 ∧ e.midi_buffer.getD 0 0 < 256 ∧
      (e.midi_buffer.getD 0 0 = 0xFF → e.midi_buffer.length ≤ 258)) := by
  unfold parse_next_event at h
  simp only [] at h
  rw [Run.bind_eq_ok] at h
  obtain ⟨⟨time, c⟩, -, h⟩ := h
  simp only [] at h
  rw [Run.bind_eq_ok] at h
  obtain ⟨b, hb, h⟩ := h
  split at h
  · rename_i htop
    have hinv := parse_event_body_inv ty mem _ _ _ _ _ e track' h rfl
    refine ⟨hinv.2.2.1, hinv.2.2.2.1, fun hbytes _ _ => ?_⟩
    have hb256 := hbytes b (rd_mem _ _ _ hb)
    have hval : ((b : Int) % 256).toNat = b := by omega
    rw [hinv.2.1, hval]
    have hge : 128 ≤ b := by
      by_contra hlt
      exact htop (top_bit_clear_of_lt b (by omega))
    exact ⟨hge, hb256, fun h255 => hinv.2.2.2.2.2 (by omega) hbytes⟩
  · have hinv := parse_event_body_inv ty mem _ _ _ _ _ e track' h rfl
    refine ⟨hinv.2.2.1, hinv.2.2.2.1, fun hbytes h0 h256 => ?_⟩
    have hconv : c_int.conv track.last_status = track.last_status :=
      conv_of_lt c_int (by decide) _ h0 (by omega)
    rw [hconv] at hinv
    obtain ⟨s, hs⟩ : ∃ s : Nat, track.last_status = (s : Int) :=
      ⟨track.last_status.toNat, by omega⟩
    rw [hs] at hinv h256
    have hs256 : s < 256 := by omega
    have hval : ((s : Int) % 256).toNat = s := by omega
    rw [hinv.2.1, hval]
    have hge : 128 ≤ s := by
      by_contra hlt
      apply hinv.1
      rw [land_cast, top_bit_clear_of_lt s (by omega)]
      rfl
    exact ⟨hge, hs256, fun h255 => hinv.2.2.2.2.2 (by omega) hbytes⟩
/-- C20: the event buffer is never overrun. (1) A store at index i makes the modelled
buffer i + 1 bytes long at least, so the length of an event's buffer bounds every index
stored. (2) Every event that `parse_next_event` returns is at most 1024 bytes long: every
stored index lies in 0..1023. (3) For a meta event (byte 0 is 0xFF), in a buffer of bytes
and with a last status that is a byte or 0, the event is at most 258 bytes long: the
largest stored index is at most 257. (4) For an event with an explicit status byte other
than 0xFF and any number of data bytes `data`, the event holds the first 1024 bytes of
status and data, the rest is not stored, and the cursor still advances over all of
`data`. -/
theorem C20_event_buffer_never_overrun :
    (∀ (event : smf_event_t) (i b : Nat),
      (store event i b).midi_buffer.length = max event.midi_buffer.length (i + 1)) ∧
    (∀ (ty : CIntTy) (mem : List Nat) (track : smf_track_t) (e : smf_event_t)
      (track' : smf_track_t), parse_next_event ty mem track = Run.ok (some e, track') →
      e.midi_buffer.length ≤ 1024) ∧
    (∀ (ty : CIntTy) (mem : List Nat) (track : smf_track_t) (e : smf_event_t)
      (track' : smf_track_t), parse_next_event ty mem track = Run.ok (some e, track') →
      (∀ b ∈ mem, b < 256) → 0 ≤ track.last_status → track.last_status < 256 →
      e.midi_buffer.getD 0 0 = 0xFF → e.midi_buffer.length ≤ 258) ∧
    (∀ (ty : CIntTy) (mem : List Nat) (track : smf_track_t) (cs : List Nat) (b s : Nat)
      (data : List Nat) (y z : Nat), (∀ x ∈ cs, 128 ≤ x ∧ x < 256) → b < 128 →
      128 ≤ s ∧ s < 255 → (∀ x ∈ data ++ [y], x < 128) → 128 ≤ z ∧ z < 256 →
      bytes_at mem (track.buffer + track.next_event_offset)
        (cs ++ [b] ++ [s] ++ data ++ [y, z]) →
      ∃ e track', parse_next_event ty mem track = Run.ok (some e, track') ∧
        e.midi_buffer = (s :: data).take 1024 ∧
        e.midi_buffer.length = min (data.length + 1) 1024 ∧
        track'.next_event_offset
          = ty.conv (track.next_event_offset + ((cs.length : Int) + 1 + 1 + data.length))) := by
  refine ⟨store_length, ?_, ?_, ?_⟩
  · intro ty mem track e track' h
    exact (parse_next_event_inv ty mem track e track' h).2.1
  · intro ty mem track e track' h hbytes h0 h256 hmeta
    exact ((parse_next_event_inv ty mem track e track' h).2.2 hbytes h0 h256).2.2 hmeta
  · intro ty mem track cs b s data y z hcs hb hs hrun hz hm
    refine ⟨_, _, parse_next_event_data ty mem track cs b s data y z (top_bit_set_of_ge cs hcs)
      (top_bit_clear_of_lt b hb) (top_bit_set_of_byte s ⟨hs.1, by omega⟩) hs.2
      (fun x hx => top_bit_clear_of_lt x (hrun x (List.mem_of_mem_tail hx)))
      (top_bit_set_of_byte z hz) hm, rfl, ?_, rfl⟩
    simp only [List.length_take, List.length_cons]
    omega

/-- C20, at three inputs: a store at index 5 into an empty buffer makes it 6 long; the
end-of-track event of the minimal file is 3 bytes long, within both bounds; an event with
1030 data bytes is stored up to index 1023 and the cursor advances from 8 to 1040. -/
theorem C20_event_buffer_never_overrun_witness :
    (store smf_event_new 5 7).midi_buffer.length = max smf_event_new.midi_buffer.length (5 + 1) ∧
    ({ time := 0, midi_buffer := [0xFF, 0x2F, 0] } : smf_event_t).midi_buffer.length ≤ 1024 ∧
    ({ time := 0, midi_buffer := [0xFF, 0x2F, 0] } : smf_event_t).midi_buffer.length ≤ 258 ∧
    (∃ e track', parse_next_event c_int (mtrk_chunk (long_data_body 1030))
        { buffer := 0, buffer_length := 1044, next_event_offset := 8, last_status := 0 }
          = Run.ok (some e, track') ∧
        e.midi_buffer = 0x90 :: List.replicate 1023 0x40 ∧
        e.midi_buffer.length = 1024 ∧ track'.next_event_offset = 1040) := by
  have hmin : parse_next_event c_int (minimal_file 0 96)
      { buffer := 14, buffer_length := 12, next_event_offset := 8, last_status := 0 }
      = Run.ok (some { time := 0, midi_buffer := [0xFF, 0x2F, 0] },
          { buffer := 14, buffer_length := 12, next_event_offset := 12, last_status := 255 }) := by
    decide
  refine ⟨C20_event_buffer_never_overrun.1 smf_event_new 5 7,
    C20_event_buffer_never_overrun.2.1 c_int _ _ _ _ hmin,
    C20_event_buffer_never_overrun.2.2.1 c_int _ _ _ _ hmin (by decide) (by decide) (by decide)
      (by decide), ?_⟩
  obtain ⟨e, track', h, he, hl, ht⟩ := C20_event_buffer_never_overrun.2.2.2 c_int
    (mtrk_chunk (long_data_body 1030))
    { buffer := 0, buffer_length := 1044, next_event_offset := 8, last_status := 0 }
    [] 0 0x90 (List.replicate 1030 0x40) 0 0xFF (by simp) (by decide) (by decide)
    (by
      intro x hx
      simp only [List.mem_append, List.mem_replicate, List.mem_singleton] at hx
      rcases hx with ⟨-, rfl⟩ | rfl <;> decide)
    (by decide) (bytes_at_long_data_body 1030)
  refine ⟨e, track', h, ?_, ?_, ?_⟩
  · rw [he, List.take_succ_cons, List.take_replicate]
    rfl
  · rw [hl, List.length_replicate]
    decide
  · rw [ht, List.length_replicate]
    decide

/-! ## Tracks of simple events -/

/-- A simple body starts with a byte below 0x80 followed by a byte with the top bit
set: the delta-time and the status of its first event, or of the end of track. -/
theorem simple_body_head (cap : Nat) (evs : List simple_event) (t : Nat)
    (hwf : ∀ e ∈ evs, e.wf cap) (ht : t < 0x80) :
    ∃ y z tail, simple_body evs t = y :: z :: tail ∧ y < 128 ∧ 128 ≤ z ∧ z < 256 := by
  cases evs with
  | nil => exact ⟨t, 0xFF, [0x2F, 0], rfl, ht, by decide, by decide⟩
  | cons e es =>
    have h := hwf e (List.mem_cons_self _ _)
    exact ⟨e.delta, e.status, e.data ++ simple_body es t, rfl, h.1, h.2.1, by
      have := h.2.2.1
      omega⟩

theorem vlq_fold_single (d : Nat) (hd : d < 128) : vlq_fold 0 ([] ++ [d]) = (d : Int) := by
  rw [vlq_fold_value _ (by simp [vlq_value]; omega)]
  simp [vlq_value]
  omega

/-- One call of `parse_next_event` on a simple event that is followed by the rest of a
simple body: it returns the event and advances the cursor by 2 + n, n the number of its
data bytes. -/
theorem parse_next_event_simple (ty : CIntTy) (hty : 32 ≤ ty.bits) (mem : List Nat)
    (track : smf_track_t) (e : simple_event) (rest : List simple_event) (t : Nat)
    (he : e.wf 1023) (hrest : ∀ x ∈ rest, x.wf 1023) (ht : t < 0x80)
    (hm : bytes_at mem (track.buffer + track.next_event_offset)
      (e.bytes ++ simple_body rest t)) :
    parse_next_event ty mem track
      = Run.ok (some e.decoded,
          { track with
            last_status := e.status
            next_event_offset :=
              ty.conv (track.next_event_offset + (2 + (e.data.length : Int))) }) := by
  obtain ⟨y, z, tail, hbody, hy, hz⟩ := simple_body_head 1023 rest t hrest ht
  obtain ⟨hd, hs1, hs2, hdata, hcap⟩ := he
  have hm' : bytes_at mem (track.buffer + track.next_event_offset)
      ([] ++ [e.delta] ++ [e.status] ++ e.data ++ [y, z]) := by
    have e1 : e.bytes ++ simple_body rest t
        = ([] ++ [e.delta] ++ [e.status] ++ e.data ++ [y, z]) ++ tail := by
      simp [simple_event.bytes, hbody]
    rw [e1, bytes_at_append] at hm
    exact hm.1
  have h := parse_next_event_data ty mem track [] e.delta e.status e.data y z (by simp)
    (top_bit_clear_of_lt _ hd) (top_bit_set_of_byte _ ⟨hs1, by omega⟩) (by omega)
    (fun x hx => by
      have hx' := List.mem_of_mem_tail hx
      simp only [List.mem_append, List.mem_singleton] at hx'
      rcases hx' with hx' | rfl
      · exact top_bit_clear_of_lt x (hdata x hx')
      · exact top_bit_clear_of_lt x hy)
    (top_bit_set_of_byte z hz) hm'
  rw [h, vlq_fold_single _ hd, conv_of_lt ty hty _ (by omega) (by omega),
    conv_of_lt ty hty (e.status : Int) (by omega) (by omega),
    List.take_of_length_le (by simp; omega)]
  simp only [simple_event.decoded, List.length_nil, Nat.cast_zero]
  congr 5

/-- The call of `parse_next_event` on the end-of-track event `t FF 2F 00`. -/
theorem parse_next_event_eot (ty : CIntTy) (hty : 32 ≤ ty.bits) (mem : List Nat)
    (track : smf_track_t) (t : Nat) (ht : t < 0x80)
    (hm : bytes_at mem (track.buffer + track.next_event_offset) [t, 0xFF, 0x2F, 0]) :
    parse_next_event ty mem track
      = Run.ok (some (eot_event t),
          { track with
            last_status := 255
            next_event_offset := ty.conv (track.next_event_offset + 4) }) := by
  have h := parse_next_event_meta ty mem track [] t 0x2F 0 [] (by simp)
    (top_bit_clear_of_lt _ ht) (by simpa using hm) rfl (by decide)
  rw [h, vlq_fold_single _ ht, conv_of_lt ty hty _ (by omega) (by omega),
    conv_of_lt ty hty 255 (by norm_num) (by norm_num)]
  simp only [eot_event, List.length_nil, Nat.cast_zero]
  congr 5

theorem simple_event_not_eot (e : simple_event) (he : e.wf 1023) :
    is_end_of_track e.decoded = 0 := by
  have : e.status ≠ 0xFF := by
    have := he.2.2.1
    omega
  simp [is_end_of_track, simple_event.decoded, this]
theorem is_end_of_track_eot (t : Nat) : is_end_of_track (eot_event t) = 1 := by
  simp [is_end_of_track, eot_event]

theorem simple_body_length_cons (e : simple_event) (evs : List simple_event) (t : Nat) :
    (simple_body (e :: evs) t).length = 2 + e.data.length + (simple_body evs t).length := by
  simp [simple_body, simple_event.bytes]
  omega

/-- The event loop of `parse_mtrk_chunk` on a simple body: it returns the events of the
body in order, then the end-of-track event, and stops there with the cursor at the end of
the body. -/
theorem parse_mtrk_loop_simple (ty : CIntTy) (hty : 32 ≤ ty.bits) (mem : List Nat) (t : Nat)
    (ht : t < 0x80) :
    ∀ (evs : List simple_event) (track : smf_track_t) (acc : List smf_event_t) (fuel : Nat),
      (∀ e ∈ evs, e.wf 1023) →
      bytes_at mem (track.buffer + track.next_event_offset) (simple_body evs t) →
      0 ≤ track.next_event_offset →
      track.next_event_offset + ((simple_body evs t).length : Int) < 2147483648 →
      evs.length < fuel →
      parse_mtrk_loop ty mem fuel track acc
        = Run.ok (0,
            { track with
              last_status := 255
              next_event_offset :=
                track.next_event_offset + ((simple_body evs t).length : Int) },
            acc ++ evs.map simple_event.decoded ++ [eot_event t]) := by
  intro evs
  induction evs with
  | nil =>
    intro track acc fuel _ hm h0 hlen hf
    obtain ⟨k, rfl⟩ : ∃ k, fuel = k + 1 := ⟨fuel - 1, by simp at hf; omega⟩
    simp only [simple_body, List.length_cons, List.length_nil] at hm hlen ⊢
    rw [parse_mtrk_loop, parse_next_event_eot ty hty mem track t ht hm]
    simp only [Run.ok_bind]
    rw [if_pos (by rw [is_end_of_track_eot]; decide), conv_of_lt ty hty _ (by omega) (by omega)]
    simp
  | cons e es ih =>
    intro track acc fuel hwf hm h0 hlen hf
    obtain ⟨k, rfl⟩ : ∃ k, fuel = k + 1 := ⟨fuel - 1, by simp at hf; omega⟩
    have he := hwf e (List.mem_cons_self _ _)
    have hes : ∀ x ∈ es, x.wf 1023 := fun x hx => hwf x (List.mem_cons_of_mem _ hx)
    rw [simple_body_length_cons] at hlen
    have hm0 := hm
    simp only [simple_body] at hm
    rw [parse_mtrk_loop, parse_next_event_simple ty hty mem track e es t he hes ht hm]
    simp only [Run.ok_bind]
    rw [if_neg (by rw [simple_event_not_eot e he]; decide),
      conv_of_lt ty hty _ (by omega) (by push_cast at hlen; omega)]
    rw [bytes_at_append] at hm
    have hm2 := hm.2
    have hbl : (e.bytes.length : Int) = 2 + (e.data.length : Int) := by
      simp only [simple_event.bytes, List.length_cons]
      push_cast
      ring
    rw [hbl] at hm2
    have := ih { track with
        last_status := e.status
        next_event_offset := track.next_event_offset + (2 + (e.data.length : Int)) }
      (acc ++ [e.decoded]) k hes
      (by simp only []; rw [← add_assoc]; exact hm2)
      (by simp only []; omega) (by simp only []; push_cast at hlen; omega)
      (by simpa using hf)
    rw [this, simple_body_length_cons]
    simp only [List.map_cons, List.append_assoc, List.singleton_append, Nat.cast_add,
      Nat.cast_ofNat]
    congr 3
    rw [add_assoc]

theorem rd_be32_of_bytes_at (mem : List Nat) (c : Int) (b0 b1 b2 b3 : Nat)
    (h : bytes_at mem c [b0, b1, b2, b3]) :
    rd_be32 mem c = Run.ok (((b0 * 256 + b1) * 256 + b2) * 256 + b3) := by
  simp only [bytes_at_cons] at h
  obtain ⟨h0, h1, h2, h3, -⟩ := h
  rw [show c + 1 + 1 = c + 2 by ring] at h2 h3
  rw [show c + 2 + 1 = c + 3 by ring] at h3
  simp [rd_be32, h0, h1, h2, h3]

theorem signature_matches_of_bytes_at (mem : List Nat) (c : Int) (s0 s1 s2 s3 : Nat)
    (h : bytes_at mem c [s0, s1, s2, s3]) :
    signature_matches mem c [s0, s1, s2, s3] = Run.ok 1 := by
  simp only [bytes_at_cons] at h
  obtain ⟨h0, h1, h2, h3, -⟩ := h
  rw [show c + 1 + 1 = c + 2 by ring] at h2 h3
  rw [show c + 2 + 1 = c + 3 by ring] at h3
  simp [signature_matches, h0, h1, h2, h3]

theorem be32_value (n : Nat) (hn : n < 4294967296) :
    ((n / 16777216 % 256 * 256 + n / 65536 % 256) * 256 + n / 256 % 256) * 256 + n % 256 = n := by
  omega

/-- The result of `parse_mtrk_header` when the chunk cursor stands on a whole track chunk
of the buffer: the track points at the chunk, with its cursor after the chunk header, and
the chunk cursor moves past the chunk. -/
theorem parse_mtrk_header_chunk (ty : CIntTy) (hty : 32 ≤ ty.bits)
    (pre body post : List Nat) (smf : smf_t) (track : smf_track_t)
    (hbuf : smf.buffer = pre ++ mtrk_chunk body ++ post)
    (hcur : smf.next_chunk_offset = (pre.length : Int))
    (hbl : smf.buffer_length = (smf.buffer.length : Int))
    (hlen : smf.buffer.length < 2147483648) :
    parse_mtrk_header ty smf track
      = Run.ok (0,
          { smf with next_chunk_offset := (pre.length : Int) + 8 + (body.length : Int) },
          { track with
            buffer := (pre.length : Int)
            buffer_length := 8 + (body.length : Int)
            next_event_offset := 8 }) := by
  have hl : smf.buffer.length = pre.length + (8 + body.length) + post.length := by
    rw [hbuf]
    simp only [List.length_append, mtrk_chunk, sig_MTrk, be32, List.length_cons,
      List.length_nil]
  have hsig : bytes_at smf.buffer (pre.length : Int) [0x4D, 0x54, 0x72, 0x6B] := by
    rw [hbuf]
    have := bytes_at_mid pre [0x4D, 0x54, 0x72, 0x6B] (be32 body.length ++ body ++ post)
    simpa [mtrk_chunk, sig_MTrk, List.append_assoc] using this
  have hlenb : bytes_at smf.buffer ((pre.length : Int) + 4) (be32 body.length) := by
    rw [hbuf]
    have := bytes_at_mid (pre ++ sig_MTrk) (be32 body.length) (body ++ post)
    simpa [mtrk_chunk, sig_MTrk, List.append_assoc] using this
  have hL : rd_be32 smf.buffer (smf.next_chunk_offset + 4) = Run.ok body.length := by
    rw [hcur, rd_be32_of_bytes_at _ _ _ _ _ _ hlenb, be32_value _ (by omega)]
  unfold parse_mtrk_header
  rw [next_chunk_without_wrap ty hty smf body.length hL (by omega) (by omega)]
  simp only [Run.ok_bind]
  rw [if_neg (by omega)]
  simp only [hcur]
  rw [show sig_MTrk = [0x4D, 0x54, 0x72, 0x6B] from rfl,
    signature_matches_of_bytes_at _ _ _ _ _ _ hsig]
  simp only [Run.ok_bind]
  rw [if_neg (by decide), rd_be32_of_bytes_at _ _ _ _ _ _ hlenb, be32_value _ (by omega)]
  simp only [Run.ok_bind, Run.pure_eq]
  rw [conv_of_lt ty hty 8 (by norm_num) (by norm_num),
    conv_of_lt ty hty (8 + (body.length : Int)) (by omega) (by omega)]
theorem simple_body_append (done rest : List simple_event) (t : Nat) :
    ∃ X : List Nat, simple_body (done ++ rest) t = X ++ simple_body rest t := by
  induction done with
  | nil => exact ⟨[], rfl⟩
  | cons e es ih =>
    obtain ⟨X, hX⟩ := ih
    exact ⟨e.bytes ++ X, by simp [simple_body, hX]⟩

theorem simple_body_length_ge (evs : List simple_event) (t : Nat) :
    evs.length + 4 ≤ (simple_body evs t).length := by
  induction evs with
  | nil => simp [simple_body]
  | cons e es ih =>
    rw [simple_body_length_cons]
    simp only [List.length_cons]
    omega

theorem bytes_at_chunk_body (pre body post : List Nat) :
    bytes_at (pre ++ mtrk_chunk body ++ post) ((pre.length : Int) + 8) body := by
  have := bytes_at_mid (pre ++ (sig_MTrk ++ be32 body.length)) body post
  simp only [List.length_append, mtrk_chunk_header_length, Nat.cast_add, Nat.cast_ofNat] at this
  simpa [mtrk_chunk, List.append_assoc] using this

theorem long_data_body_eq (n : Nat) :
    long_data_body n
      = simple_body [{ delta := 0, status := 0x90, data := List.replicate n 0x40 }] 0 := by
  simp [long_data_body, simple_body, simple_event.bytes]

/-- C19, as stated, fails for events with more than 1023 data bytes: the track body made
of the one event 00 90 with 1024 data bytes 0x40 and the end of track has the shape the
claim describes, yet the first call of `parse_next_event` returns an event that holds the
status and 1023 data bytes only, one less than the event's 1 + 1024 bytes. -/
theorem C19_long_event_loses_data :
    long_data_body 1024
      = simple_body [{ delta := 0, status := 0x90, data := List.replicate 1024 0x40 }] 0 ∧
    parse_next_event c_int (mtrk_chunk (long_data_body 1024))
        { buffer := 0, buffer_length := 1038, next_event_offset := 8, last_status := 0 }
      = Run.ok (some { time := 0, midi_buffer := 0x90 :: List.replicate 1023 0x40 },
          { buffer := 0, buffer_length := 1038, next_event_offset := 1034,
            last_status := 0x90 }) ∧
    (0x90 :: List.replicate 1023 0x40).length + 1
      = (simple_event.decoded
          { delta := 0, status := 0x90, data := List.replicate 1024 0x40 }).midi_buffer.length := by
  refine ⟨long_data_body_eq 1024, ?_, ?_⟩
  swap
  · simp only [simple_event.decoded, List.length_cons, List.length_replicate]
  rw [parse_next_event_long_data 1024 1038]
  have e1 : min 1023 1024 = 1023 := by decide
  have e2 : c_int.conv (8 + (0 + 1 + 1 + ((1024 : Nat) : Int))) = 1034 := by decide
  rw [e1, e2]

/-- C19, amended: for every track body that is a concatenation of k >= 0 events, each
encoded as one delta-time byte below 0x80, one explicit status byte in 0x80..0xFE and n
data bytes below 0x80 with n <= 1023, followed by the end-of-track event t FF 2F 00 with
t < 0x80, and for every buffer (shorter than 2^31 bytes) that holds the track chunk of
that body at the chunk cursor: `parse_mtrk_chunk` succeeds, returning exactly the k events
and the end-of-track event, with the track cursor at the end of the chunk; the call of
`parse_next_event` at the start of every event of the body returns that event (its
delta-time, status and data bytes) and advances `next_event_offset` by 2 + n; and the call
at the start of the end-of-track event returns it. The field type is any integer type at
least as wide as int. -/
theorem C19_simple_track_splits (ty : CIntTy) (hty : 32 ≤ ty.bits)
    (evs : List simple_event) (t : Nat) (hwf : ∀ e ∈ evs, e.wf 1023) (ht : t < 0x80)
    (pre post : List Nat) (smf : smf_t)
    (hbuf : smf.buffer = pre ++ mtrk_chunk (simple_body evs t) ++ post)
    (hcur : smf.next_chunk_offset = (pre.length : Int))
    (hbl : smf.buffer_length = (smf.buffer.length : Int))
    (hlen : smf.buffer.length < 2147483648) :
    parse_mtrk_chunk ty smf smf_track_new
      = Run.ok (0,
          { smf with
            next_chunk_offset := (pre.length : Int) + 8 + ((simple_body evs t).length : Int) },
          { buffer := (pre.length : Int)
            buffer_length := 8 + ((simple_body evs t).length : Int)
            next_event_offset := 8 + ((simple_body evs t).length : Int)
            last_status := 255 },
          evs.map simple_event.decoded ++ [eot_event t]) ∧
    (∀ (done : List simple_event) (e : simple_event) (rest : List simple_event),
      evs = done ++ e :: rest → ∀ (blen last : Int),
      parse_next_event ty smf.buffer
          { buffer := (pre.length : Int)
            buffer_length := blen
            next_event_offset :=
              8 + (((simple_body evs t).length - (simple_body (e :: rest) t).length : Nat) : Int)
            last_status := last }
        = Run.ok (some e.decoded,
            { buffer := (pre.length : Int)
              buffer_length := blen
              next_event_offset :=
                8 + (((simple_body evs t).length - (simple_body (e :: rest) t).length : Nat) : Int)
                  + (2 + (e.data.length : Int))
              last_status := e.status })) ∧
    (∀ (blen last : Int),
      parse_next_event ty smf.buffer
          { buffer := (pre.length : Int)
            buffer_length := blen
            next_event_offset := 8 + (((simple_body evs t).length - 4 : Nat) : Int)
            last_status := last }
        = Run.ok (some (eot_event t),
            { buffer := (pre.length : Int)
              buffer_length := blen
              next_event_offset := 8 + ((simple_body evs t).length : Int)
              last_status := 255 })) := by
  have hl : smf.buffer.length
      = pre.length + (8 + (simple_body evs t).length) + post.length := by
    rw [hbuf]
    simp only [List.length_append, mtrk_chunk, sig_MTrk, be32, List.length_cons,
      List.length_nil]
  have hbody : bytes_at smf.buffer ((pre.length : Int) + 8) (simple_body evs t) := by
    rw [hbuf]
    exact bytes_at_chunk_body pre _ post
  have hge := simple_body_length_ge evs t
  refine ⟨?_, ?_, ?_⟩
  · unfold parse_mtrk_chunk
    rw [parse_mtrk_header_chunk ty hty pre _ post smf smf_track_new hbuf hcur hbl hlen]
    simp only [Run.ok_bind]
    rw [if_neg (by decide)]
    have := parse_mtrk_loop_simple ty hty smf.buffer t ht evs
      { smf_track_new with
        buffer := (pre.length : Int)
        buffer_length := 8 + ((simple_body evs t).length : Int)
        next_event_offset := 8 } [] (smf.buffer.length + 1) hwf hbody (by norm_num)
      (by simp only []; omega) (by omega)
    rw [this]
    simp only [Run.ok_bind, Run.pure_eq, List.nil_append]
  · intro done e rest hsplit blen last
    obtain ⟨X, hX⟩ := simple_body_append done (e :: rest) t
    rw [← hsplit] at hX
    have hsum : X.length + (simple_body (e :: rest) t).length = (simple_body evs t).length := by
      rw [hX, List.length_append]
    have hXl : (simple_body evs t).length - (simple_body (e :: rest) t).length = X.length := by
      omega
    rw [hX, bytes_at_append] at hbody
    have hm := hbody.2
    have hwf' : ∀ x ∈ rest, x.wf 1023 := fun x hx => hwf x (by rw [hsplit]; simp [hx])
    have he : e.wf 1023 := hwf e (by rw [hsplit]; simp)
    have hlene := simple_body_length_cons e rest t
    rw [hXl]
    have h := parse_next_event_simple ty hty smf.buffer
      { buffer := (pre.length : Int), buffer_length := blen,
        next_event_offset := 8 + (X.length : Int), last_status := last } e rest t he hwf' ht
      (by simp only []; rw [← add_assoc]; exact hm)
    simp only [] at h
    rw [h, conv_of_lt ty hty _ (by omega) (by omega)]
  · intro blen last
    obtain ⟨X, hX⟩ := simple_body_append evs [] t
    rw [List.append_nil] at hX
    have hsum : X.length + 4 = (simple_body evs t).length := by
      rw [hX, List.length_append]
      simp [simple_body]
    have hXl : (simple_body evs t).length - 4 = X.length := by omega
    rw [hX, bytes_at_append] at hbody
    have hm := hbody.2
    simp only [simple_body] at hm
    rw [hXl]
    have h := parse_next_event_eot ty hty smf.buffer
      { buffer := (pre.length : Int), buffer_length := blen,
        next_event_offset := 8 + (X.length : Int), last_status := last } t ht
      (by simp only []; rw [← add_assoc]; exact hm)
    simp only [] at h
    rw [h, conv_of_lt ty hty _ (by omega) (by omega)]
    have e4 : (8 : Int) + (X.length : Int) + 4 = 8 + ((simple_body evs t).length : Int) := by
      omega
    rw [e4]
/-- C19, amended, at the track 00 90 3C 40, 60 80 3C 40, 00 FF 2F 00 that follows the
header of a one-track file: `parse_mtrk_chunk` returns the two note events and the end of
track, and the call at the second event returns it and advances the cursor by 2 + 2. -/
theorem C19_simple_track_splits_witness :
    parse_mtrk_chunk c_int
        { buffer := mthd_bytes 0 0 96
            ++ mtrk_chunk (simple_body
                [{ delta := 0, status := 0x90, data := [0x3C, 0x40] },
                 { delta := 0x60, status := 0x80, data := [0x3C, 0x40] }] 0) ++ [],
          buffer_length := 34, next_chunk_offset := 14, format := 0, number_of_tracks := 1,
          ppqn := 96, frames_per_second := 0, resolution := 0 } smf_track_new
      = Run.ok (0,
          { buffer := mthd_bytes 0 0 96
              ++ mtrk_chunk (simple_body
                  [{ delta := 0, status := 0x90, data := [0x3C, 0x40] },
                   { delta := 0x60, status := 0x80, data := [0x3C, 0x40] }] 0) ++ [],
            buffer_length := 34, next_chunk_offset := 34, format := 0, number_of_tracks := 1,
            ppqn := 96, frames_per_second := 0, resolution := 0 },
          { buffer := 14, buffer_length := 20, next_event_offset := 20, last_status := 255 },
          [{ time := 0, midi_buffer := [0x90, 0x3C, 0x40] },
           { time := 0x60, midi_buffer := [0x80, 0x3C, 0x40] },
           { time := 0, midi_buffer := [0xFF, 0x2F, 0] }]) ∧
    parse_next_event c_int
        (mthd_bytes 0 0 96
          ++ mtrk_chunk (simple_body
              [{ delta := 0, status := 0x90, data := [0x3C, 0x40] },
               { delta := 0x60, status := 0x80, data := [0x3C, 0x40] }] 0) ++ [])
        { buffer := 14, buffer_length := 20, next_event_offset := 12, last_status := 0x90 }
      = Run.ok (some { time := 0x60, midi_buffer := [0x80, 0x3C, 0x40] },
          { buffer := 14, buffer_length := 20, next_event_offset := 16, last_status := 0x80 }) :=
  ⟨(C19_simple_track_splits c_int (by decide)
      [{ delta := 0, status := 0x90, data := [0x3C, 0x40] },
       { delta := 0x60, status := 0x80, data := [0x3C, 0x40] }] 0 (by decide) (by decide)
      (mthd_bytes 0 0 96) []
      { buffer := mthd_bytes 0 0 96
          ++ mtrk_chunk (simple_body
              [{ delta := 0, status := 0x90, data := [0x3C, 0x40] },
               { delta := 0x60, status := 0x80, data := [0x3C, 0x40] }] 0) ++ [],
        buffer_length := 34, next_chunk_offset := 14, format := 0, number_of_tracks := 1,
        ppqn := 96, frames_per_second := 0, resolution := 0 }
      rfl rfl (by decide) (by decide)).1,
   (C19_simple_track_splits c_int (by decide)
      [{ delta := 0, status := 0x90, data := [0x3C, 0x40] },
       { delta := 0x60, status := 0x80, data := [0x3C, 0x40] }] 0 (by decide) (by decide)
      (mthd_bytes 0 0 96) []
      { buffer := mthd_bytes 0 0 96
          ++ mtrk_chunk (simple_body
              [{ delta := 0, status := 0x90, data := [0x3C, 0x40] },
               { delta := 0x60, status := 0x80, data := [0x3C, 0x40] }] 0) ++ [],
        buffer_length := 34, next_chunk_offset := 14, format := 0, number_of_tracks := 1,
        ppqn := 96, frames_per_second := 0, resolution := 0 }
      rfl rfl (by decide) (by decide)).2.1
      [{ delta := 0, status := 0x90, data := [0x3C, 0x40] }]
      { delta := 0x60, status := 0x80, data := [0x3C, 0x40] } [] rfl 20 0x90⟩

/-! ## Events without a status -/

/-- An event without a status: when the byte `x` after the delta-time bytes `cs ++ [b]`
has its top bit clear and the track's last status is 0, `parse_next_event` returns `NULL`
and leaves the track as it was. -/
theorem parse_next_event_missing_status (ty : CIntTy) (mem : List Nat) (track : smf_track_t)
    (cs : List Nat) (b x : Nat) (hcs : ∀ v ∈ cs, 128 ≤ v ∧ v < 256) (hb : b < 128)
    (hx : x < 128) (hlast : track.last_status = 0)
    (hm : bytes_at mem (track.buffer + track.next_event_offset) (cs ++ [b] ++ [x])) :
    parse_next_event ty mem track = Run.ok (none, track) := by
  have hlenm := bytes_at_length _ _ _ hm
  rw [bytes_at_append] at hm
  obtain ⟨hm1, hm2⟩ := hm
  simp only [bytes_at_cons, List.length_append, List.length_singleton] at hm2 hlenm
  have htl := time_loop_eq mem cs b _ 0 (mem.length + 1) (top_bit_set_of_ge cs hcs)
    (top_bit_clear_of_lt b hb) hm1 (by omega)
  have hrx : rd mem (track.buffer + track.next_event_offset + cs.length + 1) = Run.ok x := by
    have := hm2.1
    push_cast at this
    rw [← add_assoc] at this
    exact this
  unfold parse_next_event
  simp only [htl, Run.ok_bind, hrx]
  rw [if_neg (by simpa using top_bit_clear_of_lt x hx), hlast]
  unfold parse_event_body
  rw [if_pos (by decide)]
  rfl

/-- C12: on the one-track file whose track body is 00 3C 40 00 FF 2F 00 (the byte after
the first delta-time has its top bit clear), `parse_next_event` on the fresh track returns
`NULL` and leaves the track, `next_event_offset` included, as it was; but
`parse_mtrk_chunk` does not report an error: it passes the `NULL` event to
`is_end_of_track`, which dereferences it, before the test `event == NULL` is reached, and
so does `smf_open`. In a two-track file whose second track starts without a status the
status 0x90 of the first track is not reused: the second track meets the same fate. -/
theorem C12_missing_status_is_dereferenced :
    parse_next_event c_int (mthd_bytes 0 0 96 ++ mtrk_bytes [0, 0x3C, 0x40, 0, 0xFF, 0x2F, 0])
        { buffer := 14, buffer_length := 15, next_event_offset := 8, last_status := 0 }
      = Run.ok (none,
          { buffer := 14, buffer_length := 15, next_event_offset := 8, last_status := 0 }) ∧
    parse_mtrk_chunk c_int
        { smf_new c_int (mthd_bytes 0 0 96 ++ mtrk_bytes [0, 0x3C, 0x40, 0, 0xFF, 0x2F, 0]) with
          next_chunk_offset := 14, number_of_tracks := 1, ppqn := 96 }
        smf_track_new
      = Run.fault Fault.null_dereference ∧
    smf_open c_int (mthd_bytes 0 0 96 ++ mtrk_bytes [0, 0x3C, 0x40, 0, 0xFF, 0x2F, 0])
      = Run.fault Fault.null_dereference ∧
    smf_open c_int
        ([0x4D, 0x54, 0x68, 0x64, 0, 0, 0, 6, 0, 1, 0, 2, 0, 96]
          ++ mtrk_bytes [0, 0x90, 0x3C, 0x40, 0, 0xFF, 0x2F, 0]
          ++ mtrk_bytes [0, 0x3C, 0x40, 0, 0xFF, 0x2F, 0])
      = Run.fault Fault.null_dereference := by
  refine ⟨by decide, by decide, by decide, by decide⟩

/-! ## Files that must not decode -/

/-- C11: `smf_open` does not return `NULL` on every malformed file. On a truncated track
chunk (declared length 4, two body bytes present) and on a chunk tagged "MTrx" where a
track is expected it returns `NULL`, as claimed. But on a file that declares two tracks
and holds one chunk, `next_chunk` reads the length of the missing chunk at offset 30, past
the buffer end at 26; and on a file whose track holds an event without a status,
`parse_next_event` returns `NULL` and `parse_mtrk_chunk` dereferences it. -/
theorem C11_malformed_files :
    smf_open c_int (mthd_bytes 0 0 96 ++ [0x4D, 0x54, 0x72, 0x6B, 0, 0, 0, 4, 0, 0xFF])
      = Run.ok none ∧
    smf_open c_int (mthd_bytes 0 0 96 ++ [0x4D, 0x54, 0x72, 0x78, 0, 0, 0, 4, 0, 0xFF, 0x2F, 0])
      = Run.ok none ∧
    ([0x4D, 0x54, 0x68, 0x64, 0, 0, 0, 6, 0, 1, 0, 2, 0, 96]
      ++ mtrk_bytes [0, 0xFF, 0x2F, 0]).length = 26 ∧
    smf_open c_int
        ([0x4D, 0x54, 0x68, 0x64, 0, 0, 0, 6, 0, 1, 0, 2, 0, 96] ++ mtrk_bytes [0, 0xFF, 0x2F, 0])
      = Run.fault (Fault.out_of_bounds 30) ∧
    smf_open c_int (mthd_bytes 0 0 96 ++ mtrk_bytes [0, 0x40, 0, 0xFF, 0x2F, 0])
      = Run.fault Fault.null_dereference := by
  refine ⟨by decide, by decide, by decide, by decide, by decide⟩

/-! ## Termination of the track decode -/

theorem Run.bind_eq_fault {α β : Type} (x : Run α) (f : α → Run β) (e : Fault) :
    (x >>= f) = Run.fault e ↔ x = Run.fault e ∨ ∃ a, x = Run.ok a ∧ f a = Run.fault e := by
  cases x with
  | ok a => simp
  | fault e' => simp

theorem rd_ne_fuel (mem : List Nat) (i : Int) : rd mem i ≠ Run.fault Fault.out_of_fuel := by
  unfold rd
  split
  · simp
  · split <;> simp

theorem rd_bounds (mem : List Nat) (i : Int) (b : Nat) (h : rd mem i = Run.ok b) :
    0 ≤ i ∧ i < mem.length := by
  rw [rd_eq_ok_iff] at h
  obtain ⟨h0, h1⟩ := h
  have := (List.getElem?_eq_some.1 h1).1
  omega

/-- Where the time loop stops: on a byte of the buffer, at or after its start. -/
theorem time_loop_bounds (mem : List Nat) :
    ∀ (fuel : Nat) (c t : Int) (t' c' : Int),
      time_loop mem fuel c t = Run.ok (t', c') → c ≤ c' ∧ 0 ≤ c ∧ c' < mem.length := by
  intro fuel
  induction fuel with
  | zero =>
    intro c t t' c' h
    simp [time_loop] at h
  | succ k ih =>
    intro c t t' c' h
    rw [time_loop, Run.bind_eq_ok] at h
    obtain ⟨b, hb, h⟩ := h
    have hbd := rd_bounds _ _ _ hb
    simp only [] at h
    split at h
    · have := ih _ _ _ _ h
      omega
    · simp only [Run.pure_eq, Run.ok.injEq, Prod.mk.injEq] at h
      obtain ⟨-, rfl⟩ := h
      omega

/-- The time loop never exhausts its bound of iterations when the bound exceeds the number
of bytes from `c` to the end of the buffer. -/
theorem time_loop_ne_fuel (mem : List Nat) :
    ∀ (fuel : Nat) (c t : Int), (0 ≤ c → (mem.length : Int) < c + fuel) → 1 ≤ fuel →
      time_loop mem fuel c t ≠ Run.fault Fault.out_of_fuel := by
  intro fuel
  induction fuel with
  | zero => intro c t _ h1; omega
  | succ k ih =>
    intro c t hlt _ h
    rw [time_loop, Run.bind_eq_fault] at h
    rcases h with h | ⟨b, hb, h⟩
    · exact rd_ne_fuel _ _ h
    · have hbd := rd_bounds _ _ _ hb
      have hlt' := hlt hbd.1
      simp only [] at h
      split at h
      · exact ih _ _ (fun _ => by push_cast at hlt'; omega) (by push_cast at hlt'; omega) h
      · simp at h

/-- Where the data loop stops: the byte after `c'` is a byte of the buffer. -/
theorem data_loop_bounds (mem : List Nat) :
    ∀ (fuel i : Nat) (c : Int) (event : smf_event_t) (c' : Int) (e' : smf_event_t),
      data_loop mem fuel i c event = Run.ok (c', e') → c ≤ c' ∧ c' + 1 < mem.length := by
  intro fuel
  induction fuel with
  | zero =>
    intro i c event c' e' h
    simp [data_loop] at h
  | succ k ih =>
    intro i c event c' e' h
    rw [data_loop, Run.bind_eq_ok] at h
    obtain ⟨n, hn, h⟩ := h
    have hbd := rd_bounds _ _ _ hn
    split at h
    · split at h
      · have := ih _ _ _ _ _ h
        omega
      · rw [Run.bind_eq_ok] at h
        obtain ⟨b, -, h⟩ := h
        have := ih _ _ _ _ _ h
        omega
    · simp only [Run.pure_eq, Run.ok.injEq, Prod.mk.injEq] at h
      obtain ⟨rfl, -⟩ := h
      omega

theorem data_loop_ne_fuel (mem : List Nat) :
    ∀ (fuel i : Nat) (c : Int) (event : smf_event_t),
      (0 ≤ c + 1 → (mem.length : Int) < c + 1 + fuel) → 1 ≤ fuel →
      data_loop mem fuel i c event ≠ Run.fault Fault.out_of_fuel := by
  intro fuel
  induction fuel with
  | zero => intro i c event _ h1; omega
  | succ k ih =>
    intro i c event hlt _ h
    rw [data_loop, Run.bind_eq_fault] at h
    rcases h with h | ⟨n, hn, h⟩
    · exact rd_ne_fuel _ _ h
    · have hbd := rd_bounds _ _ _ hn
      have hlt' := hlt hbd.1
      split at h
      · split at h
        · exact ih _ _ _ (fun _ => by push_cast at hlt'; omega) (by push_cast at hlt'; omega) h
        · rw [Run.bind_eq_fault] at h
          rcases h with h | ⟨b, -, h⟩
          · exact rd_ne_fuel _ _ h
          · exact ih _ _ _ (fun _ => by push_cast at hlt'; omega)
              (by push_cast at hlt'; omega) h
      · simp at h

/-- Where the meta loop stops, when `len` is at most 1024 (every byte it passes is read):
within the buffer, at or after its start. -/
theorem meta_loop_bounds (mem : List Nat) (len : Int) (hlen : len ≤ 1024) :
    ∀ (fuel i : Nat) (c : Int) (event : smf_event_t) (c' : Int) (e' : smf_event_t),
      meta_loop mem len fuel i c event = Run.ok (c', e') → c ≤ mem.length →
      c ≤ c' ∧ c' ≤ mem.length := by
  intro fuel
  induction fuel with
  | zero =>
    intro i c event c' e' h
    simp [meta_loop] at h
  | succ k ih =>
    intro i c event c' e' h hc
    rw [meta_loop] at h
    split at h
    · split at h
      · omega
      · rw [Run.bind_eq_ok] at h
        obtain ⟨b, hb, h⟩ := h
        have hbd := rd_bounds _ _ _ hb
        have := ih _ _ _ _ _ h (by omega)
        omega
    · simp only [Run.pure_eq, Run.ok.injEq, Prod.mk.injEq] at h
      obtain ⟨rfl, -⟩ := h
      omega

theorem meta_loop_ne_fuel (mem : List Nat) (len : Int) :
    ∀ (fuel i : Nat) (c : Int) (event : smf_event_t), len < (i : Int) + fuel → 1 ≤ fuel →
      meta_loop mem len fuel i c event ≠ Run.fault Fault.out_of_fuel := by
  intro fuel
  induction fuel with
  | zero => intro i c event _ h1; omega
  | succ k ih =>
    intro i c event hlt _ h
    rw [meta_loop] at h
    split at h
    · split at h
      · exact ih _ _ _ (by push_cast at hlt ⊢; omega) (by push_cast at hlt; omega) h
      · rw [Run.bind_eq_fault] at h
        rcases h with h | ⟨b, -, h⟩
        · exact rd_ne_fuel _ _ h
        · exact ih _ _ _ (by push_cast at hlt ⊢; omega) (by push_cast at hlt; omega) h
    · simp at h
/-- The second half of `parse_next_event` never exhausts the iteration bounds of its
loops. -/
theorem parse_event_body_ne_fuel (ty : CIntTy) (mem : List Nat) (track : smf_track_t)
    (event : smf_event_t) (start status c : Int) :
    parse_event_body ty mem track event start status c ≠ Run.fault Fault.out_of_fuel := by
  intro h
  unfold parse_event_body at h
  split at h
  · simp at h
  · simp only [] at h
    split at h
    · rw [Run.bind_eq_fault] at h
      rcases h with h | ⟨l, -, h⟩
      · exact rd_ne_fuel _ _ h
      · rw [Run.bind_eq_fault] at h
        rcases h with h | ⟨⟨c', e'⟩, -, h⟩
        · exact meta_loop_ne_fuel mem _ _ _ _ _ (by omega) (by omega) h
        · simp at h
    · rw [Run.bind_eq_fault] at h
      rcases h with h | ⟨⟨c', e'⟩, -, h⟩
      · exact data_loop_ne_fuel mem _ _ _ _ (fun _ => by push_cast; omega) (by omega) h
      · simp at h

/-- No run of `parse_next_event` exhausts the iteration bounds of its loops. -/
theorem parse_next_event_ne_fuel (ty : CIntTy) (mem : List Nat) (track : smf_track_t) :
    parse_next_event ty mem track ≠ Run.fault Fault.out_of_fuel := by
  intro h
  unfold parse_next_event at h
  simp only [] at h
  rw [Run.bind_eq_fault] at h
  rcases h with h | ⟨⟨time, c⟩, -, h⟩
  · exact time_loop_ne_fuel mem _ _ _ (fun _ => by push_cast; omega) (by omega) h
  · simp only [] at h
    rw [Run.bind_eq_fault] at h
    rcases h with h | ⟨b, -, h⟩
    · exact rd_ne_fuel _ _ h
    · split at h
      · exact parse_event_body_ne_fuel _ _ _ _ _ _ _ h
      · exact parse_event_body_ne_fuel _ _ _ _ _ _ _ h

/-- Progress of the second half of `parse_next_event`: when it returns an event, the
track cursor has moved forward and still lies within the buffer. -/
theorem parse_event_body_progress (ty : CIntTy) (hty : 32 ≤ ty.bits) (mem : List Nat)
    (track : smf_track_t) (event : smf_event_t) (start status c : Int) (e : smf_event_t)
    (track' : smf_track_t)
    (h : parse_event_body ty mem track event start status c = Run.ok (some e, track'))
    (hbytes : ∀ b ∈ mem, b < 256) (hlen : mem.length < 2147483648)
    (hstart : start = track.buffer + track.next_event_offset) (hb : 0 ≤ track.buffer)
    (ho : 0 ≤ track.next_event_offset) (hsc : start < c) (hc : c ≤ mem.length) :
    track'.buffer = track.buffer ∧ track'.last_status = track.last_status ∧
    track.next_event_offset < track'.next_event_offset ∧
    track.buffer + track'.next_event_offset ≤ mem.length := by
  unfold parse_event_body at h
  split at h
  · simp at h
  · simp only [] at h
    split at h
    · rw [Run.bind_eq_ok] at h
      obtain ⟨l, hl, h⟩ := h
      rw [Run.bind_eq_ok] at h
      obtain ⟨⟨c', e'⟩, hloop, h⟩ := h
      simp only [Run.pure_eq, Run.ok.injEq, Prod.mk.injEq, Option.some.injEq] at h
      obtain ⟨-, rfl⟩ := h
      have hl' := hbytes l (rd_mem _ _ _ hl)
      have hbd := meta_loop_bounds mem _ (by omega) _ _ _ _ _ _ hloop hc
      simp only []
      rw [conv_of_lt ty hty _ (by omega) (by omega)]
      refine ⟨trivial, trivial, by omega, by omega⟩
    · rw [Run.bind_eq_ok] at h
      obtain ⟨⟨c', e'⟩, hloop, h⟩ := h
      simp only [Run.pure_eq, Run.ok.injEq, Prod.mk.injEq, Option.some.injEq] at h
      obtain ⟨-, rfl⟩ := h
      have hbd := data_loop_bounds mem _ _ _ _ _ _ hloop
      simp only []
      rw [conv_of_lt ty hty _ (by omega) (by omega)]
      refine ⟨trivial, trivial, by omega, by omega⟩

/-- Progress of `parse_next_event`: when it returns an event, the track cursor has moved
forward by at least one byte and still lies within the buffer. -/
theorem parse_next_event_progress (ty : CIntTy) (hty : 32 ≤ ty.bits) (mem : List Nat)
    (track : smf_track_t) (e : smf_event_t) (track' : smf_track_t)
    (h : parse_next_event ty mem track = Run.ok (some e, track'))
    (hbytes : ∀ b ∈ mem, b < 256) (hlen : mem.length < 2147483648)
    (hb : 0 ≤ track.buffer) (ho : 0 ≤ track.next_event_offset) :
    track'.buffer = track.buffer ∧ track.next_event_offset < track'.next_event_offset ∧
    track.buffer + track'.next_event_offset ≤ mem.length := by
  unfold parse_next_event at h
  simp only [] at h
  rw [Run.bind_eq_ok] at h
  obtain ⟨⟨time, c⟩, htl, h⟩ := h
  have htb := time_loop_bounds mem _ _ _ _ _ htl
  simp only [] at h
  rw [Run.bind_eq_ok] at h
  obtain ⟨b, hb', h⟩ := h
  have hbd := rd_bounds _ _ _ hb'
  split at h
  · have := parse_event_body_progress ty hty mem _ _ _ _ _ e track' h hbytes hlen rfl hb ho
      (by omega) (by omega)
    exact ⟨this.1, this.2.2.1, this.2.2.2⟩
  · have := parse_event_body_progress ty hty mem _ _ _ _ _ e track' h hbytes hlen rfl hb ho
      (by omega) (by omega)
    exact ⟨this.1, this.2.2.1, this.2.2.2⟩

/-- What a successful `parse_mtrk_header` leaves behind: the track points at a chunk
whose 8 header bytes lie within the buffer, with its cursor after them. -/
theorem parse_mtrk_header_inv (ty : CIntTy) (hty : 32 ≤ ty.bits) (smf : smf_t)
    (track : smf_track_t) (r : Int) (smf' : smf_t) (track' : smf_track_t)
    (h : parse_mtrk_header ty smf track = Run.ok (r, smf', track')) :
    smf'.buffer = smf.buffer ∧ (r = 1 ∨ r = 2 ∨
      (r = 0 ∧ 0 ≤ track'.buffer ∧ track'.next_event_offset = 8 ∧
        track'.buffer + 8 ≤ smf.buffer.length)) := by
  unfold parse_mtrk_header at h
  rw [Run.bind_eq_ok] at h
  obtain ⟨⟨mtrk, s1⟩, hnc, h⟩ := h
  have hbuf := next_chunk_buffer ty smf s1 mtrk hnc
  unfold next_chunk at hnc
  rw [Run.bind_eq_ok] at hnc
  obtain ⟨L, hL, hnc⟩ := hnc
  simp only [] at h
  cases mtrk with
  | none =>
    simp only [Run.pure_eq, Run.ok.injEq, Prod.mk.injEq] at h
    obtain ⟨rfl, rfl, rfl⟩ := h
    exact ⟨hbuf, Or.inl rfl⟩
  | some m =>
    have hm : m = smf.next_chunk_offset := by
      simp only [] at hnc
      split at hnc
      · simp at hnc
      · simp only [Run.pure_eq, Run.ok.injEq, Prod.mk.injEq, Option.some.injEq] at hnc
        exact hnc.1.symm
    simp only [] at h
    rw [Run.bind_eq_ok] at h
    obtain ⟨mt, hmt, h⟩ := h
    split at h
    · simp only [Run.pure_eq, Run.ok.injEq, Prod.mk.injEq] at h
      obtain ⟨rfl, rfl, rfl⟩ := h
      exact ⟨hbuf, Or.inr (Or.inl rfl)⟩
    · rw [Run.bind_eq_ok] at h
      obtain ⟨L', hL', h⟩ := h
      simp only [Run.pure_eq, Run.ok.injEq, Prod.mk.injEq] at h
      obtain ⟨rfl, rfl, rfl⟩ := h
      refine ⟨hbuf, Or.inr (Or.inr ⟨rfl, ?_, ?_, ?_⟩)⟩
      · unfold signature_matches at hmt
        rw [Run.bind_eq_ok] at hmt
        obtain ⟨b, hb, -⟩ := hmt
        exact (rd_bounds _ _ _ hb).1
      · simp only []
        exact conv_of_lt ty hty 8 (by norm_num) (by norm_num)
      · simp only []
        unfold rd_be32 at hL
        rw [Run.bind_eq_ok] at hL
        obtain ⟨b0, -, hL⟩ := hL
        rw [Run.bind_eq_ok] at hL
        obtain ⟨b1, -, hL⟩ := hL
        rw [Run.bind_eq_ok] at hL
        obtain ⟨b2, -, hL⟩ := hL
        rw [Run.bind_eq_ok] at hL
        obtain ⟨b3, hb3, -⟩ := hL
        have := (rd_bounds _ _ _ hb3).2
        rw [hm]
        omega

/-- The event loop of `parse_mtrk_chunk` never exhausts its iteration bound: each event
moves the cursor forward within the buffer. -/
theorem parse_mtrk_loop_ne_fuel (ty : CIntTy) (hty : 32 ≤ ty.bits) (mem : List Nat)
    (hbytes : ∀ b ∈ mem, b < 256) (hlen : mem.length < 2147483648) :
    ∀ (fuel : Nat) (track : smf_track_t) (events : List smf_event_t),
      0 ≤ track.buffer → 0 ≤ track.next_event_offset →
      track.buffer + track.next_event_offset ≤ mem.length →
      (mem.length : Int) < track.buffer + track.next_event_offset + fuel →
      parse_mtrk_loop ty mem fuel track events ≠ Run.fault Fault.out_of_fuel := by
  intro fuel
  induction fuel with
  | zero => intro track events _ _ h1 h2; simp only [Nat.cast_zero] at h2; omega
  | succ k ih =>
    intro track events hb ho hle hlt h
    rw [parse_mtrk_loop, Run.bind_eq_fault] at h
    rcases h with h | ⟨⟨ev, tr⟩, hev, h⟩
    · exact parse_next_event_ne_fuel _ _ _ h
    · cases ev with
      | none => simp at h
      | some e =>
        simp only [] at h
        have hp := parse_next_event_progress ty hty mem track e tr hev hbytes hlen hb ho
        split at h
        · simp at h
        · refine ih tr _ (by rw [hp.1]; exact hb) (by omega) (by rw [hp.1]; exact hp.2.2) ?_ h
          rw [hp.1]
          push_cast at hlt
          omega

/-- The event loop of `parse_mtrk_chunk` stops successfully only at the first
end-of-track event `parse_next_event` returns: the events it went through are those it
started with, then events that are not end-of-track, then one that is. -/
theorem parse_mtrk_loop_stops_at_eot (ty : CIntTy) (mem : List Nat) :
    ∀ (fuel : Nat) (track : smf_track_t) (events : List smf_event_t) (r : Int)
      (track' : smf_track_t) (events' : List smf_event_t),
      parse_mtrk_loop ty mem fuel track events = Run.ok (r, track', events') →
      r = 0 ∧ ∃ mid e, events' = events ++ mid ++ [e] ∧ is_end_of_track e = 1 ∧
        ∀ x ∈ mid, is_end_of_track x = 0 := by
  intro fuel
  induction fuel with
  | zero => intro track events r track' events' h; simp [parse_mtrk_loop] at h
  | succ k ih =>
    intro track events r track' events' h
    rw [parse_mtrk_loop, Run.bind_eq_ok] at h
    obtain ⟨⟨ev, tr⟩, -, h⟩ := h
    cases ev with
    | none => simp at h
    | some e =>
      simp only [] at h
      by_cases he : is_end_of_track e = 0
      · rw [if_neg (by simpa using he)] at h
        obtain ⟨hr, mid, e', hev, he', hmid⟩ := ih _ _ _ _ _ h
        refine ⟨hr, e :: mid, e', by simpa using hev, he', ?_⟩
        intro x hx
        rcases List.mem_cons.mp hx with rfl | hx
        · exact he
        · exact hmid x hx
      · rw [if_pos he] at h
        simp only [Run.pure_eq, Run.ok.injEq, Prod.mk.injEq] at h
        obtain ⟨rfl, -, rfl⟩ := h
        refine ⟨rfl, [], e, by simp, ?_, by simp⟩
        unfold is_end_of_track at he ⊢
        split
        · rfl
        · rename_i hc
          rw [if_neg hc] at he
          exact absurd rfl he

theorem rd_be32_ne_fuel (mem : List Nat) (i : Int) :
    rd_be32 mem i ≠ Run.fault Fault.out_of_fuel := by
  intro h
  unfold rd_be32 at h
  rw [Run.bind_eq_fault] at h
  rcases h with h | ⟨b0, -, h⟩
  · exact rd_ne_fuel _ _ h
  rw [Run.bind_eq_fault] at h
  rcases h with h | ⟨b1, -, h⟩
  · exact rd_ne_fuel _ _ h
  rw [Run.bind_eq_fault] at h
  rcases h with h | ⟨b2, -, h⟩
  · exact rd_ne_fuel _ _ h
  rw [Run.bind_eq_fault] at h
  rcases h with h | ⟨b3, -, h⟩
  · exact rd_ne_fuel _ _ h
  · simp at h

theorem signature_matches_ne_fuel (mem : List Nat) (chunk : Int) (signature : List Nat) :
    signature_matches mem chunk signature ≠ Run.fault Fault.out_of_fuel := by
  intro h
  unfold signature_matches at h
  rw [Run.bind_eq_fault] at h
  rcases h with h | ⟨b0, -, h⟩
  · exact rd_ne_fuel _ _ h
  split at h
  · simp at h
  rw [Run.bind_eq_fault] at h
  rcases h with h | ⟨b1, -, h⟩
  · exact rd_ne_fuel _ _ h
  split at h
  · simp at h
  rw [Run.bind_eq_fault] at h
  rcases h with h | ⟨b2, -, h⟩
  · exact rd_ne_fuel _ _ h
  split at h
  · simp at h
  rw [Run.bind_eq_fault] at h
  rcases h with h | ⟨b3, -, h⟩
  · exact rd_ne_fuel _ _ h
  split at h <;> simp at h

theorem parse_mtrk_header_ne_fuel (ty : CIntTy) (smf : smf_t) (track : smf_track_t) :
    parse_mtrk_header ty smf track ≠ Run.fault Fault.out_of_fuel := by
  intro h
  unfold parse_mtrk_header at h
  rw [Run.bind_eq_fault] at h
  rcases h with h | ⟨⟨m, s0⟩, -, h⟩
  · unfold next_chunk at h
    rw [Run.bind_eq_fault] at h
    rcases h with h | ⟨L, -, h⟩
    · exact rd_be32_ne_fuel _ _ h
    · simp only [] at h
      split at h <;> simp at h
  · cases m with
    | none => simp at h
    | some m =>
      simp only [] at h
      rw [Run.bind_eq_fault] at h
      rcases h with h | ⟨mt, -, h⟩
      · exact signature_matches_ne_fuel _ _ _ h
      · split at h
        · simp at h
        · rw [Run.bind_eq_fault] at h
          rcases h with h | ⟨L, -, h⟩
          · exact rd_be32_ne_fuel _ _ h
          · simp at h

/-- C14 (counterexample): on a chunk of declared length 4 with body 00 90 3C 40 followed
by another chunk, `parse_mtrk_chunk` does not stop at the chunk end, offset 12: the first
event takes the 8 header bytes of the next chunk as data, the decode stops at the
end-of-track event of the next chunk, and the track cursor ends at 24 where the track's
`buffer_length` is 12. With nothing after the chunk the decode does not stop successfully
either: it reads offset 12, past the buffer. -/
theorem C14_decode_runs_past_chunk_end :
    (mtrk_bytes [0, 0x90, 0x3C, 0x40]).length = 12 ∧
    parse_mtrk_chunk c_int
        (smf_new c_int (mtrk_bytes [0, 0x90, 0x3C, 0x40] ++ mtrk_bytes [0, 0xFF, 0x2F, 0]))
        smf_track_new
      = Run.ok (0,
          { smf_new c_int (mtrk_bytes [0, 0x90, 0x3C, 0x40] ++ mtrk_bytes [0, 0xFF, 0x2F, 0])
            with next_chunk_offset := 12 },
          { buffer := 0, buffer_length := 12, next_event_offset := 24, last_status := 255 },
          [{ time := 0,
             midi_buffer := [0x90, 0x3C, 0x40, 0x4D, 0x54, 0x72, 0x6B, 0, 0, 0, 4] },
           { time := 0, midi_buffer := [0xFF, 0x2F, 0] }]) ∧
    parse_mtrk_chunk c_int (smf_new c_int (mtrk_bytes [0, 0x90, 0x3C, 0x40])) smf_track_new
      = Run.fault (Fault.out_of_bounds 12) := by
  refine ⟨by decide, by decide, by decide⟩

/-! ## Bytes after the decoded part of the buffer -/

/-- A read that succeeds gives the same byte when bytes are appended to the buffer. -/
theorem rd_append (mem x : List Nat) (i : Int) (v : Nat) (h : rd mem i = Run.ok v) :
    rd (mem ++ x) i = Run.ok v := by
  rw [rd_eq_ok_iff] at h ⊢
  refine ⟨h.1, ?_⟩
  have hlt := (List.getElem?_eq_some.1 h.2).1
  rw [List.getElem?_append_left hlt]
  exact h.2

theorem rd_be32_append (mem x : List Nat) (i : Int) (v : Nat) (h : rd_be32 mem i = Run.ok v) :
    rd_be32 (mem ++ x) i = Run.ok v := by
  unfold rd_be32 at h ⊢
  rw [Run.bind_eq_ok] at h
  obtain ⟨b0, h0, h⟩ := h
  rw [Run.bind_eq_ok] at h
  obtain ⟨b1, h1, h⟩ := h
  rw [Run.bind_eq_ok] at h
  obtain ⟨b2, h2, h⟩ := h
  rw [Run.bind_eq_ok] at h
  obtain ⟨b3, h3, h⟩ := h
  rw [rd_append _ x _ _ h0, Run.ok_bind, rd_append _ x _ _ h1, Run.ok_bind,
    rd_append _ x _ _ h2, Run.ok_bind, rd_append _ x _ _ h3, Run.ok_bind]
  exact h

theorem rd_be16_append (mem x : List Nat) (i : Int) (v : Nat) (h : rd_be16 mem i = Run.ok v) :
    rd_be16 (mem ++ x) i = Run.ok v := by
  unfold rd_be16 at h ⊢
  rw [Run.bind_eq_ok] at h
  obtain ⟨b0, h0, h⟩ := h
  rw [Run.bind_eq_ok] at h
  obtain ⟨b1, h1, h⟩ := h
  rw [rd_append _ x _ _ h0, Run.ok_bind, rd_append _ x _ _ h1, Run.ok_bind]
  exact h

theorem signature_matches_append (mem x : List Nat) (chunk : Int) (signature : List Nat)
    (v : Int) (h : signature_matches mem chunk signature = Run.ok v) :
    signature_matches (mem ++ x) chunk signature = Run.ok v := by
  unfold signature_matches at h ⊢
  rw [Run.bind_eq_ok] at h
  obtain ⟨b0, h0, h⟩ := h
  rw [rd_append _ x _ _ h0, Run.ok_bind]
  split
  · rename_i hc; rw [if_pos hc] at h; exact h
  rename_i hc; rw [if_neg hc] at h
  rw [Run.bind_eq_ok] at h
  obtain ⟨b1, h1, h⟩ := h
  rw [rd_append _ x _ _ h1, Run.ok_bind]
  split
  · rename_i hc; rw [if_pos hc] at h; exact h
  rename_i hc; rw [if_neg hc] at h
  rw [Run.bind_eq_ok] at h
  obtain ⟨b2, h2, h⟩ := h
  rw [rd_append _ x _ _ h2, Run.ok_bind]
  split
  · rename_i hc; rw [if_pos hc] at h; exact h
  rename_i hc; rw [if_neg hc] at h
  rw [Run.bind_eq_ok] at h
  obtain ⟨b3, h3, h⟩ := h
  rw [rd_append _ x _ _ h3, Run.ok_bind]
  exact h

/-- A chunk that `next_chunk` returns is returned over the extended buffer as well, with
the same cursor. -/
theorem next_chunk_extended (ty : CIntTy) (smf s : smf_t) (x : List Nat) (c : Int)
    (h : next_chunk ty smf = Run.ok (some c, s)) :
    next_chunk ty (smf.extended x) = Run.ok (some c, s.extended x) := by
  unfold next_chunk at h ⊢
  rw [Run.bind_eq_ok] at h
  obtain ⟨L, hL, h⟩ := h
  simp only [smf_t.extended]
  rw [rd_be32_append _ x _ _ hL, Run.ok_bind]
  simp only [] at h ⊢
  split at h
  · simp at h
  · rename_i hc
    simp only [Run.pure_eq, Run.ok.injEq, Prod.mk.injEq, Option.some.injEq] at h
    obtain ⟨rfl, rfl⟩ := h
    have hx : (0 : Int) ≤ (x.length : Int) := Int.natCast_nonneg _
    rw [if_neg (by omega)]
    rfl

/-- A header that `parse_mthd_header` accepts is accepted over the extended buffer. -/
theorem parse_mthd_header_extended (ty : CIntTy) (smf s : smf_t) (x : List Nat)
    (h : parse_mthd_header ty smf = Run.ok (0, s)) :
    parse_mthd_header ty (smf.extended x) = Run.ok (0, s.extended x) := by
  unfold parse_mthd_header at h ⊢
  rw [Run.bind_eq_ok] at h
  obtain ⟨⟨m, s1⟩, hnc, h⟩ := h
  cases m with
  | none => simp at h
  | some m =>
    rw [next_chunk_extended ty smf s1 x m hnc, Run.ok_bind]
    try simp only [] at h ⊢
    rw [Run.bind_eq_ok] at h
    obtain ⟨mt, hmt, h⟩ := h
    have hmt' : signature_matches (s1.extended x).buffer m sig_MThd = Run.ok mt :=
      signature_matches_append _ x _ _ _ hmt
    rw [hmt', Run.ok_bind]
    split at h
    · simp at h
    · rename_i hc
      rw [if_neg hc]
      rw [Run.bind_eq_ok] at h
      obtain ⟨L, hL, h⟩ := h
      have hL' : rd_be32 (s1.extended x).buffer (m + 4) = Run.ok L := rd_be32_append _ x _ _ hL
      rw [hL', Run.ok_bind]
      try simp only [] at h ⊢
      split at h
      · simp at h
      · rename_i hc2
        rw [if_neg hc2]
        simp only [Run.pure_eq, Run.ok.injEq, Prod.mk.injEq, true_and] at h ⊢
        rw [h]

/-- A header chunk that `parse_mthd_chunk` decodes is decoded over the extended buffer,
to the same fields. -/
theorem parse_mthd_chunk_extended (ty : CIntTy) (smf s : smf_t) (x : List Nat)
    (h : parse_mthd_chunk ty smf = Run.ok (0, s)) :
    parse_mthd_chunk ty (smf.extended x) = Run.ok (0, s.extended x) := by
  unfold parse_mthd_chunk at h ⊢
  rw [Run.bind_eq_ok] at h
  obtain ⟨⟨r, s1⟩, hh, h⟩ := h
  simp only [] at h
  split at h
  · simp at h
  · rename_i hr
    have hr0 : r = 0 := by simpa using hr
    subst hr0
    rw [parse_mthd_header_extended ty smf s1 x hh, Run.ok_bind]
    try simp only []
    rw [if_neg (by decide)]
    rw [Run.bind_eq_ok] at h
    obtain ⟨f, hf, h⟩ := h
    have hf' : rd_be16 (s1.extended x).buffer 8 = Run.ok f := rd_be16_append _ x _ _ hf
    rw [hf', Run.ok_bind]
    try simp only [] at h ⊢
    rw [Run.bind_eq_ok] at h
    obtain ⟨n, hn, h⟩ := h
    have hn' : rd_be16 (s1.extended x).buffer 10 = Run.ok n := rd_be16_append _ x _ _ hn
    rw [hn', Run.ok_bind]
    rw [Run.bind_eq_ok] at h
    obtain ⟨d0, hd0, h⟩ := h
    have hd0' : rd (s1.extended x).buffer 12 = Run.ok d0 := rd_append _ x _ _ hd0
    rw [hd0', Run.ok_bind]
    try simp only [] at h ⊢
    rw [Run.bind_eq_ok] at h
    obtain ⟨d1, hd1, h⟩ := h
    have hd1' : rd (s1.extended x).buffer 13 = Run.ok d1 := rd_append _ x _ _ hd1
    rw [hd1', Run.ok_bind]
    try simp only [] at h ⊢
    split at h
    · rename_i hc
      rw [if_pos hc]
      rw [Run.bind_eq_ok] at h
      obtain ⟨dv, hdv, h⟩ := h
      have hdv' : rd_be16 (s1.extended x).buffer 12 = Run.ok dv := rd_be16_append _ x _ _ hdv
      rw [hdv', Run.ok_bind]
      simp only [Run.pure_eq, Run.ok.injEq, Prod.mk.injEq, true_and] at h ⊢
      rw [← h]
      rfl
    · rename_i hc
      rw [if_neg hc]
      simp only [Run.pure_eq, Run.ok.injEq, Prod.mk.injEq, true_and] at h ⊢
      rw [← h]
      rfl

/-- A time loop that ends gives the same result over a longer buffer and with a larger
iteration bound. -/
theorem time_loop_append (mem x : List Nat) :
    ∀ (fuel fuel' : Nat) (c t : Int) (r : Int × Int), fuel ≤ fuel' →
      time_loop mem fuel c t = Run.ok r → time_loop (mem ++ x) fuel' c t = Run.ok r := by
  intro fuel
  induction fuel with
  | zero => intro fuel' c t r _ h; simp [time_loop] at h
  | succ k ih =>
    intro fuel' c t r hle h
    obtain ⟨k', rfl⟩ : ∃ k', fuel' = k' + 1 := ⟨fuel' - 1, by omega⟩
    rw [time_loop, Run.bind_eq_ok] at h
    obtain ⟨b, hb, h⟩ := h
    rw [time_loop, rd_append _ x _ _ hb, Run.ok_bind]
    simp only [] at h ⊢
    split at h
    · rename_i hc
      rw [if_pos hc]
      exact ih k' _ _ _ (by omega) h
    · rename_i hc
      rw [if_neg hc]
      exact h

/-- A meta loop that ends gives the same result over a longer buffer and with a larger
iteration bound. -/
theorem meta_loop_append (mem x : List Nat) (len : Int) :
    ∀ (fuel fuel' i : Nat) (c : Int) (event : smf_event_t) (r : Int × smf_event_t),
      fuel ≤ fuel' → meta_loop mem len fuel i c event = Run.ok r →
      meta_loop (mem ++ x) len fuel' i c event = Run.ok r := by
  intro fuel
  induction fuel with
  | zero => intro fuel' i c event r _ h; simp [meta_loop] at h
  | succ k ih =>
    intro fuel' i c event r hle h
    obtain ⟨k', rfl⟩ : ∃ k', fuel' = k' + 1 := ⟨fuel' - 1, by omega⟩
    rw [meta_loop] at h ⊢
    split at h
    · rename_i hc
      rw [if_pos hc]
      split at h
      · rename_i hc2
        rw [if_pos hc2]
        exact ih k' _ _ _ _ (by omega) h
      · rename_i hc2
        rw [if_neg hc2]
        rw [Run.bind_eq_ok] at h
        obtain ⟨b, hb, h⟩ := h
        rw [rd_append _ x _ _ hb, Run.ok_bind]
        exact ih k' _ _ _ _ (by omega) h
    · rename_i hc
      rw [if_neg hc]
      exact h

/-- A data loop that ends gives the same result over a longer buffer and with a larger
iteration bound. -/
theorem data_loop_append (mem x : List Nat) :
    ∀ (fuel fuel' i : Nat) (c : Int) (event : smf_event_t) (r : Int × smf_event_t),
      fuel ≤ fuel' → data_loop mem fuel i c event = Run.ok r →
      data_loop (mem ++ x) fuel' i c event = Run.ok r := by
  intro fuel
  induction fuel with
  | zero => intro fuel' i c event r _ h; simp [data_loop] at h
  | succ k ih =>
    intro fuel' i c event r hle h
    obtain ⟨k', rfl⟩ : ∃ k', fuel' = k' + 1 := ⟨fuel' - 1, by omega⟩
    rw [data_loop, Run.bind_eq_ok] at h
    obtain ⟨n, hn, h⟩ := h
    rw [data_loop, rd_append _ x _ _ hn, Run.ok_bind]
    split at h
    · rename_i hc
      rw [if_pos hc]
      split at h
      · rename_i hc2
        rw [if_pos hc2]
        exact ih k' _ _ _ _ (by omega) h
      · rename_i hc2
        rw [if_neg hc2]
        rw [Run.bind_eq_ok] at h
        obtain ⟨b, hb, h⟩ := h
        rw [rd_append _ x _ _ hb, Run.ok_bind]
        exact ih k' _ _ _ _ (by omega) h
    · rename_i hc
      rw [if_neg hc]
      exact h

/-- The second half of `parse_next_event` gives the same result over a longer buffer. -/
theorem parse_event_body_append (ty : CIntTy) (mem x : List Nat) (track : smf_track_t)
    (event : smf_event_t) (start status c : Int) (r : Option smf_event_t × smf_track_t)
    (h : parse_event_body ty mem track event start status c = Run.ok r) :
    parse_event_body ty (mem ++ x) track event start status c = Run.ok r := by
  unfold parse_event_body at h ⊢
  split at h
  · rename_i hc
    rw [if_pos hc]
    exact h
  · rename_i hc
    rw [if_neg hc]
    simp only [] at h ⊢
    split at h
    · rename_i hs
      rw [if_pos hs]
      rw [Run.bind_eq_ok] at h
      obtain ⟨l, hl, h⟩ := h
      rw [rd_append _ x _ _ hl, Run.ok_bind]
      rw [Run.bind_eq_ok] at h
      obtain ⟨⟨c', e'⟩, hloop, h⟩ := h
      rw [meta_loop_append mem x _ _ _ _ _ _ _ (le_refl _) hloop, Run.ok_bind]
      exact h
    · rename_i hs
      rw [if_neg hs]
      rw [Run.bind_eq_ok] at h
      obtain ⟨⟨c', e'⟩, hloop, h⟩ := h
      rw [data_loop_append mem x _ _ _ _ _ _ (by simp) hloop, Run.ok_bind]
      exact h

/-- An event that `parse_next_event` decodes is decoded the same over a longer buffer. -/
theorem parse_next_event_append (ty : CIntTy) (mem x : List Nat) (track : smf_track_t)
    (r : Option smf_event_t × smf_track_t) (h : parse_next_event ty mem track = Run.ok r) :
    parse_next_event ty (mem ++ x) track = Run.ok r := by
  unfold parse_next_event at h ⊢
  simp only [] at h ⊢
  rw [Run.bind_eq_ok] at h
  obtain ⟨⟨time, c⟩, htl, h⟩ := h
  rw [time_loop_append mem x _ _ _ _ _ (by simp) htl, Run.ok_bind]
  simp only [] at h ⊢
  rw [Run.bind_eq_ok] at h
  obtain ⟨b, hb, h⟩ := h
  rw [rd_append _ x _ _ hb, Run.ok_bind]
  split at h
  · rename_i hc
    rw [if_pos hc]
    exact parse_event_body_append _ _ _ _ _ _ _ _ _ h
  · rename_i hc
    rw [if_neg hc]
    exact parse_event_body_append _ _ _ _ _ _ _ _ _ h

/-- A track header that `parse_mtrk_header` accepts is accepted over the extended buffer,
with the same track state. -/
theorem parse_mtrk_header_extended (ty : CIntTy) (smf s : smf_t) (x : List Nat)
    (track t : smf_track_t) (h : parse_mtrk_header ty smf track = Run.ok (0, s, t)) :
    parse_mtrk_header ty (smf.extended x) track = Run.ok (0, s.extended x, t) := by
  unfold parse_mtrk_header at h ⊢
  rw [Run.bind_eq_ok] at h
  obtain ⟨⟨m, s1⟩, hnc, h⟩ := h
  cases m with
  | none => simp at h
  | some m =>
    rw [next_chunk_extended ty smf s1 x m hnc, Run.ok_bind]
    simp only [] at h ⊢
    rw [Run.bind_eq_ok] at h
    obtain ⟨mt, hmt, h⟩ := h
    have hmt' : signature_matches (s1.extended x).buffer m sig_MTrk = Run.ok mt :=
      signature_matches_append _ x _ _ _ hmt
    rw [hmt', Run.ok_bind]
    split at h
    · simp at h
    · rename_i hc
      rw [if_neg hc]
      rw [Run.bind_eq_ok] at h
      obtain ⟨L, hL, h⟩ := h
      have hL' : rd_be32 (s1.extended x).buffer (m + 4) = Run.ok L := rd_be32_append _ x _ _ hL
      rw [hL', Run.ok_bind]
      simp only [Run.pure_eq, Run.ok.injEq, Prod.mk.injEq, true_and] at h ⊢
      rw [← h.1, ← h.2]
      exact ⟨rfl, rfl⟩

/-- An event loop that ends gives the same result over a longer buffer and with a larger
iteration bound. -/
theorem parse_mtrk_loop_append (ty : CIntTy) (mem x : List Nat) :
    ∀ (fuel fuel' : Nat) (track : smf_track_t) (events : List smf_event_t)
      (r : Int × smf_track_t × List smf_event_t), fuel ≤ fuel' →
      parse_mtrk_loop ty mem fuel track events = Run.ok r →
      parse_mtrk_loop ty (mem ++ x) fuel' track events = Run.ok r := by
  intro fuel
  induction fuel with
  | zero => intro fuel' track events r _ h; simp [parse_mtrk_loop] at h
  | succ k ih =>
    intro fuel' track events r hle h
    obtain ⟨k', rfl⟩ : ∃ k', fuel' = k' + 1 := ⟨fuel' - 1, by omega⟩
    rw [parse_mtrk_loop, Run.bind_eq_ok] at h
    obtain ⟨⟨ev, tr⟩, hev, h⟩ := h
    rw [parse_mtrk_loop, parse_next_event_append ty mem x track _ hev, Run.ok_bind]
    cases ev with
    | none => simp at h
    | some e =>
      simp only [] at h ⊢
      split at h
      · rename_i hc
        rw [if_pos hc]
        exact h
      · rename_i hc
        rw [if_neg hc]
        exact ih k' _ _ _ (by omega) h

/-- A track chunk that `parse_mtrk_chunk` decodes is decoded over the extended buffer, to
the same track state and the same events. -/
theorem parse_mtrk_chunk_extended (ty : CIntTy) (smf s : smf_t) (x : List Nat)
    (track t : smf_track_t) (events : List smf_event_t)
    (h : parse_mtrk_chunk ty smf track = Run.ok (0, s, t, events)) :
    parse_mtrk_chunk ty (smf.extended x) track = Run.ok (0, s.extended x, t, events) := by
  unfold parse_mtrk_chunk at h ⊢
  rw [Run.bind_eq_ok] at h
  obtain ⟨⟨r, s1, t1⟩, hh, h⟩ := h
  simp only [] at h
  split at h
  · simp at h
  · rename_i hr
    have hr0 : r = 0 := by simpa using hr
    subst hr0
    rw [parse_mtrk_header_extended ty smf s1 x track t1 hh, Run.ok_bind]
    simp only []
    rw [if_neg (by decide)]
    rw [Run.bind_eq_ok] at h
    obtain ⟨⟨r', t', ev'⟩, hloop, h⟩ := h
    have hloop' : parse_mtrk_loop ty (s1.extended x).buffer ((s1.extended x).buffer.length + 1)
        t1 [] = Run.ok (r', t', ev') :=
      parse_mtrk_loop_append ty s1.buffer x _ _ _ _ _ (by simp [smf_t.extended]) hloop
    rw [hloop', Run.ok_bind]
    simp only [Run.pure_eq, Run.ok.injEq, Prod.mk.injEq] at h ⊢
    obtain ⟨rfl, rfl, rfl, rfl⟩ := h
    exact ⟨rfl, rfl, rfl, rfl⟩

/-- A track loop of `smf_open` that succeeds gives the same tracks over the extended
buffer. -/
theorem smf_open_loop_extended (ty : CIntTy) (x : List Nat) :
    ∀ (fuel : Nat) (i : Int) (smf s : smf_t)
      (tracks out : List (smf_track_t × List smf_event_t)),
      smf_open_loop ty fuel i smf tracks = Run.ok (some (s, out)) →
      smf_open_loop ty fuel i (smf.extended x) tracks = Run.ok (some (s.extended x, out)) := by
  intro fuel
  induction fuel with
  | zero => intro i smf s tracks out h; simp [smf_open_loop] at h
  | succ k ih =>
    intro i smf s tracks out h
    rw [smf_open_loop] at h ⊢
    have hn : (smf.extended x).number_of_tracks = smf.number_of_tracks := rfl
    rw [hn]
    split at h
    · rename_i hc
      rw [if_pos hc]
      rw [Run.bind_eq_ok] at h
      obtain ⟨⟨r, s1, t1, ev1⟩, hch, h⟩ := h
      simp only [] at h
      split at h
      · simp at h
      · rename_i hr
        have hr0 : r = 0 := by simpa using hr
        subst hr0
        rw [parse_mtrk_chunk_extended ty smf s1 x _ t1 ev1 hch, Run.ok_bind]
        simp only []
        rw [if_neg (by decide)]
        exact ih _ _ _ _ _ h
    · rename_i hc
      rw [if_neg hc]
      simp only [Run.pure_eq, Run.ok.injEq, Option.some.injEq, Prod.mk.injEq] at h ⊢
      obtain ⟨rfl, rfl⟩ := h
      exact ⟨rfl, rfl⟩

/-- The state `smf_new` builds on a longer buffer is the extended state, as long as the
length fits the field. -/
theorem smf_new_append (ty : CIntTy) (hty : 32 ≤ ty.bits) (b x : List Nat)
    (hlen : (b ++ x).length < 2147483648) :
    smf_new ty (b ++ x) = (smf_new ty b).extended x := by
  rw [List.length_append] at hlen
  unfold smf_new smf_t.extended
  simp only [List.length_append, Nat.cast_add]
  rw [conv_of_lt ty hty _ (by omega) (by omega), conv_of_lt ty hty _ (by omega) (by omega)]

/-- C15: when `smf_open` succeeds on the buffer `b`, it succeeds on `b ++ x` for every
byte sequence `x` (the whole no longer than an int can count), with the same format,
number of tracks, division fields and final chunk cursor, and with the same per-track
states and event sequences: the result differs only in the buffer and its length. -/
theorem C15_extra_bytes_not_visited (ty : CIntTy) (hty : 32 ≤ ty.bits) (b x : List Nat)
    (hlen : (b ++ x).length < 2147483648) (smf : smf_t)
    (tracks : List (smf_track_t × List smf_event_t))
    (h : smf_open ty b = Run.ok (some (smf, tracks))) :
    smf_open ty (b ++ x) = Run.ok (some (smf.extended x, tracks)) ∧
    (smf.extended x).format = smf.format ∧
    (smf.extended x).number_of_tracks = smf.number_of_tracks ∧
    (smf.extended x).ppqn = smf.ppqn ∧
    (smf.extended x).frames_per_second = smf.frames_per_second ∧
    (smf.extended x).resolution = smf.resolution ∧
    (smf.extended x).next_chunk_offset = smf.next_chunk_offset := by
  refine ⟨?_, rfl, rfl, rfl, rfl, rfl, rfl⟩
  unfold smf_open at h ⊢
  simp only [] at h ⊢
  rw [smf_new_append ty hty b x hlen]
  rw [Run.bind_eq_ok] at h
  obtain ⟨⟨r, s1⟩, hh, h⟩ := h
  simp only [] at h
  split at h
  · simp at h
  · rename_i hr
    have hr0 : r = 0 := by simpa using hr
    subst hr0
    rw [parse_mthd_chunk_extended ty _ s1 x hh, Run.ok_bind]
    simp only []
    rw [if_neg (by decide)]
    exact smf_open_loop_extended ty x _ _ _ _ _ _ h

/-- C15 (witness): the minimal file followed by a further track chunk and a stray byte
decodes to the same fields and the same single track as the minimal file alone. -/
theorem C15_extra_bytes_not_visited_witness :
    (32 ≤ c_int.bits ∧
     (minimal_file 0 96 ++ (mtrk_bytes [0, 0x90, 0x3C, 0x40, 0, 0xFF, 0x2F, 0] ++ [0xFF])).length
       < 2147483648 ∧
     smf_open c_int (minimal_file 0 96) = Run.ok (some
       ({ buffer := minimal_file 0 96, buffer_length := 26, next_chunk_offset := 26,
          format := 0, number_of_tracks := 1, ppqn := 96, frames_per_second := 0,
          resolution := 0 },
        [({ buffer := 14, buffer_length := 12, next_event_offset := 12, last_status := 255 },
          [{ time := 0, midi_buffer := [0xFF, 0x2F, 0] }])]))) ∧
    smf_open c_int
        (minimal_file 0 96 ++ (mtrk_bytes [0, 0x90, 0x3C, 0x40, 0, 0xFF, 0x2F, 0] ++ [0xFF]))
      = Run.ok (some
       (smf_t.extended
          { buffer := minimal_file 0 96, buffer_length := 26, next_chunk_offset := 26,
            format := 0, number_of_tracks := 1, ppqn := 96, frames_per_second := 0,
            resolution := 0 }
          (mtrk_bytes [0, 0x90, 0x3C, 0x40, 0, 0xFF, 0x2F, 0] ++ [0xFF]),
        [({ buffer := 14, buffer_length := 12, next_event_offset := 12, last_status := 255 },
          [{ time := 0, midi_buffer := [0xFF, 0x2F, 0] }])])) :=
  ⟨⟨by decide, by decide, by decide⟩,
   (C15_extra_bytes_not_visited c_int (by decide) (minimal_file 0 96)
      (mtrk_bytes [0, 0x90, 0x3C, 0x40, 0, 0xFF, 0x2F, 0] ++ [0xFF]) (by decide)
      { buffer := minimal_file 0 96, buffer_length := 26, next_chunk_offset := 26,
        format := 0, number_of_tracks := 1, ppqn := 96, frames_per_second := 0,
        resolution := 0 }
      [({ buffer := 14, buffer_length := 12, next_event_offset := 12, last_status := 255 },
        [{ time := 0, midi_buffer := [0xFF, 0x2F, 0] }])]
      (by decide)).1⟩

/-! ## The event loop, one event at a time -/

/-- An event whose first byte is not 0xFF is not an end-of-track event. -/
theorem is_end_of_track_status (time : Int) (s : Nat) (rest : List Nat) (hs : s ≠ 0xFF) :
    is_end_of_track { time := time, midi_buffer := s :: rest } = 0 := by
  simp [is_end_of_track, hs]

/-- One turn of the event loop of `parse_mtrk_chunk` on an event that is not an
end-of-track event: the event is appended and the loop goes on from the new cursor. -/
theorem parse_mtrk_loop_step (ty : CIntTy) (mem : List Nat) (fuel : Nat)
    (track track' : smf_track_t) (events : List smf_event_t) (e : smf_event_t)
    (h : parse_next_event ty mem track = Run.ok (some e, track'))
    (he : is_end_of_track e = 0) :
    parse_mtrk_loop ty mem (fuel + 1) track events
      = parse_mtrk_loop ty mem fuel track' (events ++ [e]) := by
  rw [parse_mtrk_loop, h, Run.ok_bind]
  simp only []
  rw [if_neg (by simp [he])]

/-- One turn of the event loop of `parse_mtrk_chunk` on an end-of-track event: the loop
stops and returns 0. -/
theorem parse_mtrk_loop_stop (ty : CIntTy) (mem : List Nat) (fuel : Nat)
    (track track' : smf_track_t) (events : List smf_event_t) (e : smf_event_t)
    (h : parse_next_event ty mem track = Run.ok (some e, track'))
    (he : is_end_of_track e = 1) :
    parse_mtrk_loop ty mem (fuel + 1) track events = Run.ok (0, track', events ++ [e]) := by
  rw [parse_mtrk_loop, h, Run.ok_bind]
  simp only []
  rw [if_pos (by simp [he])]
  rfl

theorem bytes_at_long_data_body_eot (n : Nat) :
    bytes_at (mtrk_chunk (long_data_body n)) ((0 : Int) + (10 + (n : Int))) [0, 0xFF, 0x2F, 0] := by
  have := bytes_at_mid (sig_MTrk ++ be32 (long_data_body n).length ++ [0, 0x90]
    ++ List.replicate n 0x40) [0, 0xFF, 0x2F, 0] []
  have e : sig_MTrk ++ be32 (long_data_body n).length ++ [0, 0x90] ++ List.replicate n 0x40
      ++ [0, 0xFF, 0x2F, 0] ++ [] = mtrk_chunk (long_data_body n) := by
    simp [mtrk_chunk, long_data_body]
  rw [e] at this
  have hl : ((sig_MTrk ++ be32 (long_data_body n).length ++ [0, 0x90]
      ++ List.replicate n 0x40).length : Int) = 0 + (10 + (n : Int)) := by
    simp [sig_MTrk, be32]
    omega
  rw [hl] at this
  exact this

/-- C13, amended: for every event with a status byte `s` other than 0xFF, explicit or
running, whose data do not fit the event buffer (1024 or more data bytes `data`, the run
of bytes with the top bit clear after the status byte, or after the delta-time under
running status, being `data ++ [y]`), `parse_next_event` returns the event: it holds the
status byte and the first 1023 data bytes, 1024 bytes in all, the bytes from index 1024 on
are not stored, and the track cursor advances over the whole event, by (delta-time
bytes) + (1 if a status byte was present) + (number of data bytes). The track decode goes
on: the event loop of `parse_mtrk_chunk` appends the event and continues with the call of
`parse_next_event` at the new cursor. -/
theorem C13_long_event_truncated (ty : CIntTy) (mem : List Nat) (track : smf_track_t)
    (cs : List Nat) (b s : Nat) (data : List Nat) (y z : Nat)
    (hcs : ∀ x ∈ cs, 128 ≤ x ∧ x < 256) (hb : b < 128) (hs : 128 ≤ s ∧ s < 255)
    (hrun : ∀ x ∈ data ++ [y], x < 128) (hz : 128 ≤ z ∧ z < 256)
    (hlong : 1024 ≤ data.length) :
    (bytes_at mem (track.buffer + track.next_event_offset)
        (cs ++ [b] ++ [s] ++ data ++ [y, z]) →
      parse_next_event ty mem track
        = Run.ok (some { time := ty.conv (vlq_fold 0 (cs ++ [b])),
                         midi_buffer := s :: data.take 1023 },
                  { track with
                    last_status := ty.conv s
                    next_event_offset :=
                      ty.conv (track.next_event_offset
                        + ((cs.length : Int) + 1 + 1 + data.length)) }) ∧
      ∀ (fuel : Nat) (events : List smf_event_t),
        parse_mtrk_loop ty mem (fuel + 1) track events
          = parse_mtrk_loop ty mem fuel
              { track with
                last_status := ty.conv s
                next_event_offset :=
                  ty.conv (track.next_event_offset
                    + ((cs.length : Int) + 1 + 1 + data.length)) }
              (events ++ [{ time := ty.conv (vlq_fold 0 (cs ++ [b])),
                            midi_buffer := s :: data.take 1023 }])) ∧
    (track.last_status = (s : Int) →
      bytes_at mem (track.buffer + track.next_event_offset) (cs ++ [b] ++ data ++ [y, z]) →
      parse_next_event ty mem track
        = Run.ok (some { time := ty.conv (vlq_fold 0 (cs ++ [b])),
                         midi_buffer := s :: data.take 1023 },
                  { track with
                    next_event_offset :=
                      ty.conv (track.next_event_offset
                        + ((cs.length : Int) + 1 + data.length)) }) ∧
      ∀ (fuel : Nat) (events : List smf_event_t),
        parse_mtrk_loop ty mem (fuel + 1) track events
          = parse_mtrk_loop ty mem fuel
              { track with
                next_event_offset :=
                  ty.conv (track.next_event_offset
                    + ((cs.length : Int) + 1 + data.length)) }
              (events ++ [{ time := ty.conv (vlq_fold 0 (cs ++ [b])),
                            midi_buffer := s :: data.take 1023 }])) ∧
    (s :: data.take 1023).length = 1024 := by
  have hcs' := top_bit_set_of_ge cs hcs
  have hb' := top_bit_clear_of_lt b hb
  have hs' := top_bit_set_of_byte s ⟨hs.1, by omega⟩
  have hz' := top_bit_set_of_byte z hz
  have hrun' : ∀ x ∈ data ++ [y], x &&& 0x80 = 0 := fun x hx => top_bit_clear_of_lt x (hrun x hx)
  have hne : s ≠ 0xFF := by omega
  refine ⟨fun hm => ?_, fun hlast hm => ?_, by simp [List.length_take]; omega⟩
  · have h := parse_next_event_data ty mem track cs b s data y z hcs' hb' hs' hs.2
      (fun x hx => hrun' x (List.mem_of_mem_tail hx)) hz' hm
    rw [show (s :: data).take 1024 = s :: data.take 1023 from rfl] at h
    exact ⟨h, fun fuel events =>
      parse_mtrk_loop_step ty mem fuel track _ events _ h (is_end_of_track_status _ s _ hne)⟩
  · have h := parse_next_event_running ty mem track cs b s data y z hcs' hb' hlast hs' hs.2
      hrun' hz' hm
    rw [show (s :: data).take 1024 = s :: data.take 1023 from rfl] at h
    exact ⟨h, fun fuel events =>
      parse_mtrk_loop_step ty mem fuel track _ events _ h (is_end_of_track_status _ s _ hne)⟩

/-- C13, amended, at an event with 1500 data bytes followed by the end of track: 1023 of
the data bytes are stored, the cursor advances from 8 to 1510, and the event loop goes on
to the end-of-track event, where it stops and returns 0 with both events. -/
theorem C13_long_event_truncated_witness :
    parse_next_event c_int (mtrk_chunk (long_data_body 1500))
        { buffer := 0, buffer_length := 1514, next_event_offset := 8, last_status := 0 }
      = Run.ok (some { time := 0, midi_buffer := 0x90 :: List.replicate 1023 0x40 },
          { buffer := 0, buffer_length := 1514, next_event_offset := 1510,
            last_status := 0x90 }) ∧
    parse_mtrk_loop c_int (mtrk_chunk (long_data_body 1500)) 2
        { buffer := 0, buffer_length := 1514, next_event_offset := 8, last_status := 0 } []
      = Run.ok (0,
          { buffer := 0, buffer_length := 1514, next_event_offset := 1514, last_status := 255 },
          [{ time := 0, midi_buffer := 0x90 :: List.replicate 1023 0x40 }, eot_event 0]) ∧
    (0x90 :: List.replicate 1023 0x40).length = 1024 := by
  have h := C13_long_event_truncated c_int (mtrk_chunk (long_data_body 1500))
    { buffer := 0, buffer_length := 1514, next_event_offset := 8, last_status := 0 }
    [] 0 0x90 (List.replicate 1500 0x40) 0 0xFF (by simp) (by decide) (by decide)
    (by
      intro x hx
      simp only [List.mem_append, List.mem_replicate, List.mem_singleton] at hx
      rcases hx with ⟨-, rfl⟩ | rfl <;> decide)
    (by decide) (by rw [List.length_replicate]; decide)
  have e0 : c_int.conv (vlq_fold 0 ([] ++ [0])) = 0 := by decide
  have e1 : min 1023 1500 = 1023 := by decide
  have e2 : c_int.conv (8 + ((([] : List Nat).length : Int) + 1 + 1 + ((1500 : Nat) : Int)))
      = 1510 := by decide
  have e3 : c_int.conv ((0x90 : Nat) : Int) = 0x90 := by decide
  rw [List.take_replicate, List.length_replicate, e0, e1, e2, e3] at h
  obtain ⟨hexp, -, hlen⟩ := h
  obtain ⟨hev, hloop⟩ := hexp (bytes_at_long_data_body 1500)
  refine ⟨hev, ?_, hlen⟩
  rw [hloop 1 []]
  have heot := parse_next_event_eot c_int (by decide) (mtrk_chunk (long_data_body 1500))
    { buffer := 0, buffer_length := 1514, next_event_offset := 1510, last_status := 0x90 }
    0 (by decide) (bytes_at_long_data_body_eot 1500)
  have e4 : c_int.conv (1510 + 4) = 1514 := by decide
  rw [e4] at heot
  rw [parse_mtrk_loop_stop c_int _ 0 _ _ _ _ heot (is_end_of_track_eot 0)]
  rfl

/-! ## The track decode stops at the first end-of-track event -/

/-- Every call of a chain moves the cursor forward by at least one byte within the buffer,
so a chain is no longer than the part of the buffer after the cursor. -/
theorem event_chain_length (ty : CIntTy) (hty : 32 ≤ ty.bits) (mem : List Nat)
    (hbytes : ∀ b ∈ mem, b < 256) (hlen : mem.length < 2147483648) :
    ∀ (steps : List (smf_event_t × smf_track_t)) (track : smf_track_t),
      event_chain ty mem track steps → 0 ≤ track.buffer → 0 ≤ track.next_event_offset →
      track.buffer + track.next_event_offset ≤ mem.length →
      track.buffer + track.next_event_offset + (steps.length : Int) ≤ mem.length := by
  intro steps
  induction steps with
  | nil => intro track _ _ _ h; simpa using h
  | cons p rest ih =>
    intro track hch hb ho hle
    obtain ⟨e, t'⟩ := p
    obtain ⟨hev, hrest⟩ := hch
    have hp := parse_next_event_progress ty hty mem track e t' hev hbytes hlen hb ho
    have := ih t' hrest (by rw [hp.1]; exact hb) (by omega) (by rw [hp.1]; exact hp.2.2)
    rw [hp.1] at this
    simp only [List.length_cons, Nat.cast_add, Nat.cast_one]
    omega

/-- The event loop of `parse_mtrk_chunk` along a chain of calls whose last event is the
first end-of-track event: it stops there and returns 0 with the events of the chain. -/
theorem parse_mtrk_loop_of_chain (ty : CIntTy) (mem : List Nat) (e : smf_event_t)
    (t_end : smf_track_t) (he : is_end_of_track e = 1) :
    ∀ (steps : List (smf_event_t × smf_track_t)) (fuel : Nat) (track : smf_track_t)
      (events : List smf_event_t),
      event_chain ty mem track (steps ++ [(e, t_end)]) →
      (∀ p ∈ steps, is_end_of_track p.1 = 0) → steps.length < fuel →
      parse_mtrk_loop ty mem fuel track events
        = Run.ok (0, t_end, events ++ (steps.map Prod.fst ++ [e])) := by
  intro steps
  induction steps with
  | nil =>
    intro fuel track events hch _ hf
    obtain ⟨k, rfl⟩ : ∃ k, fuel = k + 1 := ⟨fuel - 1, by simp at hf; omega⟩
    exact parse_mtrk_loop_stop ty mem k track t_end events e hch.1 he
  | cons p rest ih =>
    intro fuel track events hch hpre hf
    obtain ⟨e1, t1⟩ := p
    obtain ⟨k, rfl⟩ : ∃ k, fuel = k + 1 := ⟨fuel - 1, by simp at hf; omega⟩
    obtain ⟨hev, hrest⟩ := hch
    rw [parse_mtrk_loop_step ty mem k track t1 events e1 hev (hpre (e1, t1) (by simp))]
    rw [ih k t1 (events ++ [e1]) hrest (fun p hp => hpre p (List.mem_cons_of_mem _ hp))
      (by simp at hf; omega)]
    simp

/-- When the event loop of `parse_mtrk_chunk` returns, it returns 0 and it went along a
chain of calls of `parse_next_event` whose last event is the first end-of-track event. -/
theorem parse_mtrk_loop_chain_of_ok (ty : CIntTy) (mem : List Nat) :
    ∀ (fuel : Nat) (track : smf_track_t) (events : List smf_event_t) (r : Int)
      (track' : smf_track_t) (events' : List smf_event_t),
      parse_mtrk_loop ty mem fuel track events = Run.ok (r, track', events') →
      r = 0 ∧ ∃ (steps : List (smf_event_t × smf_track_t)) (e : smf_event_t),
        event_chain ty mem track (steps ++ [(e, track')]) ∧
        (∀ p ∈ steps, is_end_of_track p.1 = 0) ∧ is_end_of_track e = 1 ∧
        events' = events ++ (steps.map Prod.fst ++ [e]) := by
  intro fuel
  induction fuel with
  | zero => intro track events r track' events' h; simp [parse_mtrk_loop] at h
  | succ k ih =>
    intro track events r track' events' h
    have h0 := h
    rw [parse_mtrk_loop, Run.bind_eq_ok] at h
    obtain ⟨⟨ev, tr⟩, hev, h⟩ := h
    cases ev with
    | none => simp at h
    | some e =>
      simp only [] at h
      by_cases he : is_end_of_track e = 0
      · rw [if_neg (by simpa using he)] at h
        obtain ⟨hr, steps, e', hch, hpre, he', hevs⟩ := ih _ _ _ _ _ h
        refine ⟨hr, (e, tr) :: steps, e', ⟨hev, hch⟩, ?_, he', by simpa using hevs⟩
        intro p hp
        rcases List.mem_cons.mp hp with rfl | hp
        · exact he
        · exact hpre p hp
      · rw [if_pos he] at h
        simp only [Run.pure_eq, Run.ok.injEq, Prod.mk.injEq] at h
        obtain ⟨rfl, rfl, rfl⟩ := h
        have he1 : is_end_of_track e = 1 := by
          unfold is_end_of_track at he ⊢
          split
          · rfl
          · rename_i hc
            rw [if_neg hc] at he
            exact absurd rfl he
        exact ⟨rfl, [], e, ⟨hev, trivial⟩, by simp, he1, by simp⟩

/-- C14 (amended): for every decoder state whose buffer is shorter than 2^31 bytes and
every chunk whose track header is accepted, `parse_mtrk_chunk` stops successfully at the
first end-of-track event: when the successive calls of `parse_next_event` from the first
body byte return events that are not end-of-track events and then an end-of-track event,
`parse_mtrk_chunk` returns 0 there, with exactly these events and the cursor after the
end-of-track event, whatever the declared length of the chunk (remaining declared bytes
are ignored, and so is the declared end). The iteration bound the buffer length gives is
enough for that. Conversely, `parse_mtrk_chunk` returns only so: with 1 and no event when
the track header fails, or with 0 at the first end-of-track event of such a chain; and no
run ends by exhausting the iteration bound. -/
theorem C14_track_decode_stops_at_end_of_track (ty : CIntTy) (hty : 32 ≤ ty.bits)
    (smf : smf_t) (track : smf_track_t) (hbytes : ∀ b ∈ smf.buffer, b < 256)
    (hlen : smf.buffer.length < 2147483648) :
    (∀ (s1 : smf_t) (t1 t_end : smf_track_t) (steps : List (smf_event_t × smf_track_t))
        (e : smf_event_t),
      parse_mtrk_header ty smf track = Run.ok (0, s1, t1) →
      event_chain ty smf.buffer t1 (steps ++ [(e, t_end)]) →
      (∀ p ∈ steps, is_end_of_track p.1 = 0) → is_end_of_track e = 1 →
      parse_mtrk_chunk ty smf track
        = Run.ok (0, s1, t_end, steps.map Prod.fst ++ [e])) ∧
    (∀ (r : Int) (smf' : smf_t) (track' : smf_track_t) (events : List smf_event_t),
      parse_mtrk_chunk ty smf track = Run.ok (r, smf', track', events) →
      (r = 1 ∧ events = []) ∨
      (r = 0 ∧ ∃ (t1 : smf_track_t) (steps : List (smf_event_t × smf_track_t))
          (e : smf_event_t),
        parse_mtrk_header ty smf track = Run.ok (0, smf', t1) ∧
        event_chain ty smf.buffer t1 (steps ++ [(e, track')]) ∧
        (∀ p ∈ steps, is_end_of_track p.1 = 0) ∧ is_end_of_track e = 1 ∧
        events = steps.map Prod.fst ++ [e])) ∧
    parse_mtrk_chunk ty smf track ≠ Run.fault Fault.out_of_fuel := by
  refine ⟨?_, ?_, ?_⟩
  · intro s1 t1 t_end steps e hh hch hpre he
    obtain ⟨hbuf, hcase⟩ := parse_mtrk_header_inv ty hty smf track 0 s1 t1 hh
    rcases hcase with h1 | h2 | ⟨-, hb, ho, hle⟩
    · exact absurd h1 (by decide)
    · exact absurd h2 (by decide)
    · have hl := event_chain_length ty hty smf.buffer hbytes hlen _ t1 hch hb (by omega)
        (by omega)
      simp only [List.length_append, List.length_singleton, Nat.cast_add, Nat.cast_one] at hl
      unfold parse_mtrk_chunk
      rw [hh, Run.ok_bind]
      simp only []
      rw [if_neg (by decide), hbuf,
        parse_mtrk_loop_of_chain ty smf.buffer e t_end he steps _ t1 [] hch hpre (by omega)]
      simp
  · intro r smf' track' events h
    unfold parse_mtrk_chunk at h
    rw [Run.bind_eq_ok] at h
    obtain ⟨⟨r0, s1, t1⟩, hh, h⟩ := h
    simp only [] at h
    split at h
    · simp only [Run.pure_eq, Run.ok.injEq, Prod.mk.injEq] at h
      obtain ⟨rfl, -, -, rfl⟩ := h
      exact Or.inl ⟨rfl, rfl⟩
    · rename_i hr
      have hr0 : r0 = 0 := by simpa using hr
      subst hr0
      have hbuf := (parse_mtrk_header_inv ty hty smf track 0 s1 t1 hh).1
      rw [Run.bind_eq_ok] at h
      obtain ⟨⟨r', t', ev'⟩, hloop, h⟩ := h
      simp only [Run.pure_eq, Run.ok.injEq, Prod.mk.injEq] at h
      obtain ⟨rfl, rfl, rfl, rfl⟩ := h
      rw [hbuf] at hloop
      obtain ⟨hr', steps, e, hch, hpre, he, hev⟩ :=
        parse_mtrk_loop_chain_of_ok ty _ _ _ _ _ _ _ hloop
      exact Or.inr ⟨hr', t1, steps, e, hh, hch, hpre, he, by simpa using hev⟩
  · intro h
    unfold parse_mtrk_chunk at h
    rw [Run.bind_eq_fault] at h
    rcases h with h | ⟨⟨r, s1, t1⟩, hh, h⟩
    · exact parse_mtrk_header_ne_fuel _ _ _ h
    · simp only [] at h
      split at h
      · simp at h
      · rename_i hr
        obtain ⟨hbuf, hcase⟩ := parse_mtrk_header_inv ty hty smf track r s1 t1 hh
        rcases hcase with h1 | h2 | ⟨-, hb, ho, hle⟩
        · exact hr (by rw [h1]; decide)
        · exact hr (by rw [h2]; decide)
        · rw [Run.bind_eq_fault] at h
          rcases h with h | ⟨⟨r', t', ev'⟩, -, h⟩
          · rw [hbuf] at h
            exact parse_mtrk_loop_ne_fuel ty hty smf.buffer hbytes hlen _ t1 [] hb
              (by omega) (by omega) (by push_cast; omega) h
          · simp at h

/-- C14 (witness): a chunk of declared length 14 whose body holds two events, the
end-of-track event and two more bytes. The three calls of `parse_next_event` leave the
cursor at 12, 16 and 20, and `parse_mtrk_chunk` returns 0 at the end-of-track event with
the three events, the cursor at 20 where the chunk ends at 22. -/
theorem C14_track_decode_stops_at_end_of_track_witness :
    (32 ≤ c_int.bits ∧
     (∀ b ∈ (smf_new c_int (mtrk_bytes [0, 0x90, 0x3C, 0x40, 0x10, 0x80, 0x3C, 0x00,
        0, 0xFF, 0x2F, 0, 0x55, 0x66])).buffer, b < 256) ∧
     (smf_new c_int (mtrk_bytes [0, 0x90, 0x3C, 0x40, 0x10, 0x80, 0x3C, 0x00,
        0, 0xFF, 0x2F, 0, 0x55, 0x66])).buffer.length < 2147483648 ∧
     parse_mtrk_header c_int
        (smf_new c_int (mtrk_bytes [0, 0x90, 0x3C, 0x40, 0x10, 0x80, 0x3C, 0x00,
          0, 0xFF, 0x2F, 0, 0x55, 0x66])) smf_track_new
       = Run.ok (0,
          { smf_new c_int (mtrk_bytes [0, 0x90, 0x3C, 0x40, 0x10, 0x80, 0x3C, 0x00,
              0, 0xFF, 0x2F, 0, 0x55, 0x66]) with next_chunk_offset := 22 },
          { buffer := 0, buffer_length := 22, next_event_offset := 8, last_status := 0 }) ∧
     event_chain c_int
        (smf_new c_int (mtrk_bytes [0, 0x90, 0x3C, 0x40, 0x10, 0x80, 0x3C, 0x00,
          0, 0xFF, 0x2F, 0, 0x55, 0x66])).buffer
        { buffer := 0, buffer_length := 22, next_event_offset := 8, last_status := 0 }
        ([({ time := 0, midi_buffer := [0x90, 0x3C, 0x40] },
           { buffer := 0, buffer_length := 22, next_event_offset := 12, last_status := 0x90 }),
          ({ time := 16, midi_buffer := [0x80, 0x3C, 0x00] },
           { buffer := 0, buffer_length := 22, next_event_offset := 16, last_status := 0x80 })]
         ++ [({ time := 0, midi_buffer := [0xFF, 0x2F, 0] },
              { buffer := 0, buffer_length := 22, next_event_offset := 20,
                last_status := 255 })]) ∧
     is_end_of_track { time := 0, midi_buffer := [0x90, 0x3C, 0x40] } = 0 ∧
     is_end_of_track { time := 16, midi_buffer := [0x80, 0x3C, 0x00] } = 0 ∧
     is_end_of_track { time := 0, midi_buffer := [0xFF, 0x2F, 0] } = 1) ∧
    parse_mtrk_chunk c_int
        (smf_new c_int (mtrk_bytes [0, 0x90, 0x3C, 0x40, 0x10, 0x80, 0x3C, 0x00,
          0, 0xFF, 0x2F, 0, 0x55, 0x66])) smf_track_new
      = Run.ok (0,
          { smf_new c_int (mtrk_bytes [0, 0x90, 0x3C, 0x40, 0x10, 0x80, 0x3C, 0x00,
              0, 0xFF, 0x2F, 0, 0x55, 0x66]) with next_chunk_offset := 22 },
          { buffer := 0, buffer_length := 22, next_event_offset := 20, last_status := 255 },
          [{ time := 0, midi_buffer := [0x90, 0x3C, 0x40] },
           { time := 16, midi_buffer := [0x80, 0x3C, 0x00] },
           { time := 0, midi_buffer := [0xFF, 0x2F, 0] }]) :=
  ⟨⟨by decide, by decide, by decide, by decide, by decide, by decide, by decide, by decide⟩,
   (C14_track_decode_stops_at_end_of_track c_int (by decide)
      (smf_new c_int (mtrk_bytes [0, 0x90, 0x3C, 0x40, 0x10, 0x80, 0x3C, 0x00,
        0, 0xFF, 0x2F, 0, 0x55, 0x66])) smf_track_new (by decide) (by decide)).1
      { smf_new c_int (mtrk_bytes [0, 0x90, 0x3C, 0x40, 0x10, 0x80, 0x3C, 0x00,
          0, 0xFF, 0x2F, 0, 0x55, 0x66]) with next_chunk_offset := 22 }
      { buffer := 0, buffer_length := 22, next_event_offset := 8, last_status := 0 }
      { buffer := 0, buffer_length := 22, next_event_offset := 20, last_status := 255 }
      [({ time := 0, midi_buffer := [0x90, 0x3C, 0x40] },
        { buffer := 0, buffer_length := 22, next_event_offset := 12, last_status := 0x90 }),
       ({ time := 16, midi_buffer := [0x80, 0x3C, 0x00] },
        { buffer := 0, buffer_length := 22, next_event_offset := 16, last_status := 0x80 })]
      { time := 0, midi_buffer := [0xFF, 0x2F, 0] }
      (by decide) (by decide) (by decide) (by decide)⟩

end Smf
